import Mathlib

/-!
# medco-loader: the shrine-ontology loader (`loader/loaderI2B2.go`)

A shallow embedding of the classification loop of `ParseShrineOntology`, of
`UpdateChildrenEncryptIDs`, of `ConvertShrineOntology` with its header and
rename steps, and of `FilterSensitiveEntries`, followed by theorems about them.

Conventions of the embedding.

* A Go `string` is an immutable byte sequence.  It is modelled by the list of
  its bytes, each byte carried by a `Char`.  Every string operation the loader
  uses (slicing, concatenation, `strings.Split`, `strings.Join`,
  `strings.HasPrefix`, `==`, `len`) is byte-wise, so nothing depends on the
  carrier.  `strings.ToLower` is the only Unicode-aware library call; it is a
  parameter `toLower` of the parsing loop.
* A Go `map[string]V` is an association list with pairwise distinct keys.  A
  `range` over a map visits the keys in an unspecified order: the loops that
  range over a table take the visiting order as an argument.
* The tables hold pointers, one freshly allocated object per input row, and a
  pointer is stored in one table slot only; a write through a pointer is
  therefore modelled by replacing the value held in that slot.
* `NodeEncryptID`, `IDConcepts` and `IDModifiers` are `int64` counters that are
  incremented at most once per input row.  The input is a slice, whose length is
  below `2^63`, so the counters never wrap; they are natural numbers here.
* `log.Fatal` ends the process and an out-of-range slice or index expression
  panics: both are the result `none`.
* A slice is the array behind it together with its length; two slices made
  from one another share the array, so a write through one shows in the other.
-/

namespace Loader

/-- A Go string, as the list of its bytes. -/
abbrev GoString := List Char

/-- The path delimiter, the one-byte string `"\\"` of the source. -/
def delim : Char := '\\'

/-- Modelled from the spec: the declaration of the `ShrineOntology` record, which lives outside
`loaderI2B2.go`.  The fields the loader reads or writes carry their source names; the other
columns of the schema are passed through untouched and are kept together in `Rest`. -/
structure ShrineOntology where
  Fullname : GoString
  Name : GoString
  VisualAttributes : GoString
  FactTableColumn : GoString
  DimCode : GoString
  Tooltip : GoString
  Rest : List GoString
  NodeEncryptID : Nat
  ChildrenEncryptIDs : List Nat
  deriving DecidableEq, Repr

/-- A Go map keyed by strings. -/
abbrev GoMap (V : Type) := List (GoString × V)

/-- Lookup `m[k]` in its two-result form `v, ok := m[k]`. -/
def mapGet {V : Type} : GoMap V → GoString → Option V
  | [], _ => none
  | (k', v) :: m, k => if k' = k then some v else mapGet m k

/-- Assignment `m[k] = v`: overwrites the slot of an existing key, adds a slot otherwise. -/
def mapSet {V : Type} : GoMap V → GoString → V → GoMap V
  | [], k, v => [(k, v)]
  | (k', v') :: m, k, v => if k' = k then (k, v) :: m else (k', v') :: mapSet m k v

/-- The keys of a map. -/
def mapKeys {V : Type} (m : GoMap V) : List GoString := m.map Prod.fst

/-- Slice expression `s[lo:hi]`; it panics unless `0 ≤ lo ≤ hi ≤ len(s)`. -/
def goSlice (s : GoString) (lo hi : Int) : Option GoString :=
  if 0 ≤ lo ∧ lo ≤ hi ∧ hi ≤ (s.length : Int) then
    some ((s.take hi.toNat).drop lo.toNat)
  else none

/-- Library `strings.Split(s, sep)` for a one-byte separator. -/
def Split : GoString → Char → List GoString
  | [], _ => [[]]
  | c :: s, sep =>
    if c = sep then [] :: Split s sep
    else
      match Split s sep with
      | [] => [[c]]
      | seg :: rest => (c :: seg) :: rest

/-- Library `strings.Join(elems, sep)`. -/
def Join : List GoString → GoString → GoString
  | [], _ => []
  | [a], _ => a
  | a :: b :: rest, sep => a ++ sep ++ Join (b :: rest) sep

/-- Library `strings.HasPrefix(s, prefix)`. -/
def HasPrefix : GoString → GoString → Bool
  | _, [] => true
  | [], _ :: _ => false
  | c :: s, p :: ps => c == p && HasPrefix s ps

/-- Library `strings.ToLower` on ASCII input: the letters `A`..`Z` are mapped to `a`..`z`. -/
def asciiToLower (s : GoString) : GoString := s.map Char.toLower

/-- Source `containsArrayString`. -/
def containsArrayString : List GoString → GoString → Bool
  | [], _ => false
  | a :: s, e => if a = e then true else containsArrayString s e

/-- The string constant `"modifier_cd"`. -/
def modifierCd : GoString := "modifier_cd".toList

/-- The string constant `"concept_cd"`. -/
def conceptCd : GoString := "concept_cd".toList

/-- The package-level variables written by `ParseShrineOntology`. -/
structure Index where
  IDModifiers : Nat
  IDConcepts : Nat
  TableShrineOntologyClear : GoMap ShrineOntology
  TableShrineOntologyEnc : GoMap ShrineOntology
  TableShrineOntologyModifierEnc : GoMap (List ShrineOntology)
  HeaderShrineOntology : List GoString
  deriving DecidableEq, Repr

/-- The state after the initialisation block of `ParseShrineOntology` and the copy of the
header line. -/
def initIndex (header : List GoString) : Index where
  IDModifiers := 0
  IDConcepts := 0
  TableShrineOntologyClear := []
  TableShrineOntologyEnc := []
  TableShrineOntologyModifierEnc := []
  HeaderShrineOntology := header

/-- One iteration of the classification loop of `ParseShrineOntology`, for the row `so`. -/
def parseRow (toLower : GoString → GoString) (ListSensitiveConcepts : List GoString)
    (st : Index) (so : ShrineOntology) : Option Index :=
  if containsArrayString ListSensitiveConcepts so.Fullname then
    let so := { so with ChildrenEncryptIDs := [] }
    if toLower so.FactTableColumn = modifierCd then
      match mapGet st.TableShrineOntologyModifierEnc so.Fullname with
      | some val =>
        match val with
        | [] => none
        | v0 :: _ =>
          let so := { so with NodeEncryptID := v0.NodeEncryptID }
          some { st with
            TableShrineOntologyModifierEnc :=
              mapSet st.TableShrineOntologyModifierEnc so.Fullname (val ++ [so]) }
      | none =>
        let so := { so with NodeEncryptID := st.IDModifiers }
        some { st with
          IDModifiers := st.IDModifiers + 1
          TableShrineOntologyModifierEnc :=
            mapSet st.TableShrineOntologyModifierEnc so.Fullname ([] ++ [so]) }
    else if toLower so.FactTableColumn = conceptCd then
      let so := { so with NodeEncryptID := st.IDConcepts }
      some { st with
        IDConcepts := st.IDConcepts + 1
        TableShrineOntologyEnc := mapSet st.TableShrineOntologyEnc so.Fullname so }
    else none
  else
    some { st with
      TableShrineOntologyClear := mapSet st.TableShrineOntologyClear so.Fullname so }

/-- The classification loop, from the state `st`, over the remaining rows. -/
def parseRows (toLower : GoString → GoString) (ListSensitiveConcepts : List GoString) :
    Index → List ShrineOntology → Option Index
  | st, [] => some st
  | st, so :: rows =>
    match parseRow toLower ListSensitiveConcepts st so with
    | none => none
    | some st' => parseRows toLower ListSensitiveConcepts st' rows

/-- Source `ParseShrineOntology`, on the header line and the rows already decoded by
`ShrineOntologyFromString`. -/
def ParseShrineOntology (toLower : GoString → GoString) (ListSensitiveConcepts : List GoString)
    (header : List GoString) (rows : List ShrineOntology) : Option Index :=
  parseRows toLower ListSensitiveConcepts (initIndex header) rows

/-- The row as the loop stores it in a sensitive table: `ChildrenEncryptIDs` is reset to the
empty slice and `NodeEncryptID` is set to `id`. -/
def stamp (so : ShrineOntology) (id : Nat) : ShrineOntology :=
  { so with ChildrenEncryptIDs := [], NodeEncryptID := id }

/-- The row takes the modifier branch of the loop: its path is an element of the sensitive list
and its lowercased fact-table column is `"modifier_cd"`. -/
def isModifierRow (toLower : GoString → GoString) (sens : List GoString)
    (so : ShrineOntology) : Bool :=
  containsArrayString sens so.Fullname && decide (toLower so.FactTableColumn = modifierCd)

/-- The row takes the concept branch of the loop: its path is an element of the sensitive list
and its lowercased fact-table column is `"concept_cd"`. -/
def isConceptRow (toLower : GoString → GoString) (sens : List GoString)
    (so : ShrineOntology) : Bool :=
  containsArrayString sens so.Fullname && decide (toLower so.FactTableColumn = conceptCd)

/-- Every bucket of the modifier table is non-empty. -/
def BucketsNonempty (st : Index) : Prop :=
  ∀ k b, mapGet st.TableShrineOntologyModifierEnc k = some b → b ≠ []

/-- A row with the given path and fact-table column; the display fields repeat the path. -/
def mkRow (path kind : String) : ShrineOntology where
  Fullname := path.toList
  Name := path.toList
  VisualAttributes := "LA".toList
  FactTableColumn := kind.toList
  DimCode := path.toList
  Tooltip := path.toList
  Rest := []
  NodeEncryptID := 0
  ChildrenEncryptIDs := []

/-- A sensitive list used in the examples: a concept path, one of its descendants and a modifier
path. -/
def sampleSensitive : List GoString :=
  ["\\A\\".toList, "\\A\\B\\".toList, "\\M\\".toList]

/-- Input rows used in the examples: two sensitive concepts, a public row below a sensitive
path, and two rows of one sensitive modifier. -/
def sampleRows : List ShrineOntology :=
  [mkRow "\\A\\" "concept_cd", mkRow "\\A\\B\\" "CONCEPT_CD", mkRow "\\A\\C\\" "concept_cd",
   mkRow "\\M\\" "MODIFIER_CD", mkRow "\\M\\" "modifier_cd"]

/-- The distinct elements of a list of paths, each at the place of its first occurrence. -/
def distinctPaths : List GoString → List GoString
  | [] => []
  | p :: ps => p :: (distinctPaths ps).filter (fun q => decide (q ≠ p))

/-- The paths of the rows that take the concept branch, in input order. -/
def conceptPaths (toLower : GoString → GoString) (sens : List GoString)
    (rows : List ShrineOntology) : List GoString :=
  (rows.filter (isConceptRow toLower sens)).map (fun so => so.Fullname)

/-- The paths of the rows that take the modifier branch, in input order. -/
def modifierPaths (toLower : GoString → GoString) (sens : List GoString)
    (rows : List ShrineOntology) : List GoString :=
  (rows.filter (isModifierRow toLower sens)).map (fun so => so.Fullname)

/-- The entries of the concept table as the classification loop leaves them: an entry is filed
under its own path, has no children yet and an ID below the counter, and entries under
different keys have different IDs. -/
def EncFresh (st : Index) : Prop :=
  (∀ k v, mapGet st.TableShrineOntologyEnc k = some v →
    v.Fullname = k ∧ v.ChildrenEncryptIDs = [] ∧ v.NodeEncryptID < st.IDConcepts) ∧
  (∀ k1 k2 v1 v2, mapGet st.TableShrineOntologyEnc k1 = some v1 →
    mapGet st.TableShrineOntologyEnc k2 = some v2 →
    v1.NodeEncryptID = v2.NodeEncryptID → k1 = k2)

/-- Input rows in which the concept path `\A\` occurs twice before the concept path `\B\`. -/
def repeatedConceptRows : List ShrineOntology :=
  [mkRow "\\A\\" "concept_cd", mkRow "\\A\\" "CONCEPT_CD", mkRow "\\B\\" "concept_cd"]

/-- The sensitive list that goes with `repeatedConceptRows`. -/
def repeatedConceptSensitive : List GoString := ["\\A\\".toList, "\\B\\".toList]

/-- The rows that take the modifier branch and have the path `P`, in input order. -/
def modifierRowsOf (toLower : GoString → GoString) (sens : List GoString)
    (rows : List ShrineOntology) (P : GoString) : List ShrineOntology :=
  rows.filter (fun so => isModifierRow toLower sens so && decide (so.Fullname = P))

/-- The modifier table and counter in terms of the rows read so far: the keys are the distinct
modifier paths in the order of their first occurrence, the counter is the number of keys, and
the bucket of the n-th key (from 0) holds the modifier rows of that path stamped with `n`. -/
def ModifierSpec (toLower : GoString → GoString) (sens : List GoString)
    (rows : List ShrineOntology) (st : Index) : Prop :=
  mapKeys st.TableShrineOntologyModifierEnc = distinctPaths (modifierPaths toLower sens rows) ∧
  st.IDModifiers = (mapKeys st.TableShrineOntologyModifierEnc).length ∧
  ∀ n P, (mapKeys st.TableShrineOntologyModifierEnc)[n]? = some P →
    mapGet st.TableShrineOntologyModifierEnc P =
      some ((modifierRowsOf toLower sens rows P).map (fun so => stamp so n))

/-- Slice-valued lookup `m[k]`: the zero value (a nil slice) when the key is absent. -/
def bucketOf (m : GoMap (List ShrineOntology)) (k : GoString) : List ShrineOntology :=
  (mapGet m k).getD []

/-- Two rows of the modifier path `\M\`, told apart by their tooltip. -/
def twoModifierRows : List ShrineOntology :=
  [mkRow "\\M\\" "modifier_cd", { mkRow "\\M\\" "modifier_cd" with Tooltip := "second".toList }]

/-- The statement `val.ChildrenEncryptIDs = append(val.ChildrenEncryptIDs, id)`. -/
def appendChild (val : ShrineOntology) (id : Nat) : ShrineOntology :=
  { val with ChildrenEncryptIDs := val.ChildrenEncryptIDs ++ [id] }

/-- The inner loop `for len(pathContainer) > 0` of the concept part of
`UpdateChildrenEncryptIDs`, for a node with `NodeEncryptID` `id`.  The first argument is an
iteration bound; the loop is entered with the bound `len(pathContainer)`, which every iteration
lowers by one together with the length of the container. -/
def walkConcepts (id : Nat) :
    Nat → List GoString → GoMap ShrineOntology → GoMap ShrineOntology
  | 0, _, tbl => tbl
  | bound + 1, pathContainer, tbl =>
    if pathContainer.length > 0 then
      let pathContainer := pathContainer.take (pathContainer.length - 1)
      let conceptPath := Join pathContainer [delim]
      match mapGet tbl ([delim] ++ conceptPath ++ [delim]) with
      | some val =>
        walkConcepts id bound pathContainer
          (mapSet tbl ([delim] ++ conceptPath ++ [delim]) (appendChild val id))
      | none => walkConcepts id bound pathContainer tbl
    else tbl

/-- The loop `for _,so := range TableShrineOntologyEnc` of `UpdateChildrenEncryptIDs`, visiting
the keys in the given order. -/
def linkConcepts : List GoString → GoMap ShrineOntology → Option (GoMap ShrineOntology)
  | [], tbl => some tbl
  | k :: order, tbl =>
    match mapGet tbl k with
    | none => linkConcepts order tbl
    | some so =>
      match goSlice so.Fullname 1 ((so.Fullname.length : Int) - 1) with
      | none => none
      | some path =>
        let pathContainer := Split path delim
        linkConcepts order (walkConcepts so.NodeEncryptID pathContainer.length pathContainer tbl)

/-- The inner loop `for len(pathContainer) > 0` of the modifier part of
`UpdateChildrenEncryptIDs`, for the bucket `soArr`.  `soArr[0]` is evaluated once per row of a
bucket that is found, and panics when `soArr` is empty. -/
def walkModifiers (soArr : List ShrineOntology) :
    Nat → List GoString → GoMap (List ShrineOntology) → Option (GoMap (List ShrineOntology))
  | 0, _, tbl => some tbl
  | bound + 1, pathContainer, tbl =>
    if pathContainer.length > 0 then
      let pathContainer := pathContainer.take (pathContainer.length - 1)
      let conceptPath := Join pathContainer [delim]
      match mapGet tbl ([delim] ++ conceptPath ++ [delim]) with
      | some (el :: val) =>
        match soArr with
        | [] => none
        | so0 :: _ =>
          walkModifiers soArr bound pathContainer
            (mapSet tbl ([delim] ++ conceptPath ++ [delim])
              ((el :: val).map (fun e => appendChild e so0.NodeEncryptID)))
      | some [] => walkModifiers soArr bound pathContainer tbl
      | none => walkModifiers soArr bound pathContainer tbl
    else some tbl

/-- The loop `for path,soArr := range TableShrineOntologyModifierEnc` of
`UpdateChildrenEncryptIDs`, visiting the keys in the given order. -/
def linkModifiers :
    List GoString → GoMap (List ShrineOntology) → Option (GoMap (List ShrineOntology))
  | [], tbl => some tbl
  | k :: order, tbl =>
    match mapGet tbl k with
    | none => linkModifiers order tbl
    | some soArr =>
      match goSlice k 1 ((k.length : Int) - 1) with
      | none => none
      | some path =>
        let pathContainer := Split path delim
        match walkModifiers soArr pathContainer.length pathContainer tbl with
        | none => none
        | some tbl' => linkModifiers order tbl'

/-- Source `UpdateChildrenEncryptIDs`; `orderEnc` and `orderModifierEnc` are the orders in which
the two `range` loops visit the keys of their tables. -/
def UpdateChildrenEncryptIDs (orderEnc orderModifierEnc : List GoString) (st : Index) :
    Option Index :=
  match linkConcepts orderEnc st.TableShrineOntologyEnc with
  | none => none
  | some enc =>
    match linkModifiers orderModifierEnc st.TableShrineOntologyModifierEnc with
    | none => none
    | some modifierEnc =>
      some { st with
        TableShrineOntologyEnc := enc
        TableShrineOntologyModifierEnc := modifierEnc }

/-- The key probed by the upward walk when `j` segments of the container are left:
`"\\" + strings.Join(pathContainer[:j], "\\") + "\\"`. -/
def ancestorKey (pathContainer : List GoString) (j : Nat) : GoString :=
  [delim] ++ Join (pathContainer.take j) [delim] ++ [delim]

/-- The number of `j < n` for which the key probed with `j` segments left is `k`. -/
def hitsUpTo (pathContainer : List GoString) (k : GoString) : Nat → Nat
  | 0 => 0
  | n + 1 => hitsUpTo pathContainer k n + (if ancestorKey pathContainer n = k then 1 else 0)

/-- The segments of a path: the path without its first and last byte, split at the delimiter. -/
def segmentsOf (full : GoString) : List GoString :=
  Split ((goSlice full 1 ((full.length : Int) - 1)).getD []) delim

/-- A node with further IDs appended to its `ChildrenEncryptIDs`. -/
def addChildren (val : ShrineOntology) (extra : List Nat) : ShrineOntology :=
  { val with ChildrenEncryptIDs := val.ChildrenEncryptIDs ++ extra }

/-- The IDs that a run of the concept loop over `order` appends to the node filed under `k`:
for every visited node, its ID once for each time its walk probes `k`. -/
def addedChildren (tbl : GoMap ShrineOntology) : List GoString → GoString → List Nat
  | [], _ => []
  | q :: order, k =>
    (match mapGet tbl q with
      | none => []
      | some so =>
        List.replicate (hitsUpTo (segmentsOf so.Fullname) k (segmentsOf so.Fullname).length)
          so.NodeEncryptID) ++ addedChildren tbl order k

/-- The path starts and ends with the delimiter and has length at least 2. -/
def WellFormedPath (s : GoString) : Prop :=
  2 ≤ s.length ∧ s.head? = some delim ∧ s.getLast? = some delim

/-- The path `"\\\\"` made of two delimiters, which every upward walk probes last. -/
def rootKey : GoString := [delim, delim]

/-- The three nested concept paths `\A\`, `\A\B\`, `\A\B\C\`. -/
def chainSensitive : List GoString :=
  ["\\A\\".toList, "\\A\\B\\".toList, "\\A\\B\\C\\".toList]

/-- One concept row for each path of `chainSensitive`. -/
def chainRows : List ShrineOntology :=
  [mkRow "\\A\\" "concept_cd", mkRow "\\A\\B\\" "concept_cd", mkRow "\\A\\B\\C\\" "concept_cd"]

/-- The index after parsing `chainRows`. -/
def chainIndex : Index :=
  (ParseShrineOntology asciiToLower chainSensitive [] chainRows).getD (initIndex [])

/-- The index after parsing `sampleRows`. -/
def sampleIndex : Index :=
  (ParseShrineOntology asciiToLower sampleSensitive [] sampleRows).getD (initIndex [])

/-- The path, ID and child list of every node of a concept table. -/
def summary (tbl : GoMap ShrineOntology) : List (GoString × Nat × List Nat) :=
  tbl.map (fun e => (e.1, e.2.NodeEncryptID, e.2.ChildrenEncryptIDs))

/-- Two sensitive concept rows: the two-delimiter path `\\` and the path `\A\`. -/
def rootRows : List ShrineOntology :=
  [mkRow "\\\\" "concept_cd", mkRow "\\A\\" "concept_cd"]

/-- The sensitive list that goes with `rootRows`. -/
def rootSensitive : List GoString := [rootKey, "\\A\\".toList]

/-- The double-quote byte. -/
def dquote : Char := Char.ofNat 34

/-- The string the header loop appends for one column: the name in double quotes, then a
comma. -/
def headerCell (header : GoString) : GoString := [dquote] ++ header ++ [dquote, ',']

/-- The loop `for _,header := range HeaderShrineOntology \x7b headerString += ... \x7d` of
`ConvertShrineOntology`, started from the string `acc`. -/
def headerLoop : GoString → List GoString → GoString
  | acc, [] => acc
  | acc, header :: headers => headerLoop (acc ++ headerCell header) headers

/-- The header line written by `ConvertShrineOntology`: `headerString[:len(headerString)-1]`
followed by a newline.  The slice expression panics on the empty string. -/
def shrineHeaderLine (HeaderShrineOntology : List GoString) : Option GoString :=
  let headerString := headerLoop [] HeaderShrineOntology
  match goSlice headerString 0 ((headerString.length : Int) - 1) with
  | none => none
  | some line => some (line ++ ['\n'])

/-- The header line written by `ConvertPatientDimension`, built by the same statements from
`HeaderPatientDimension`. -/
def patientHeaderLine (HeaderPatientDimension : List GoString) : Option GoString :=
  let headerString := headerLoop [] HeaderPatientDimension
  match goSlice headerString 0 ((headerString.length : Int) - 1) with
  | none => none
  | some line => some (line ++ ['\n'])

/-- A column name wrapped in double quotes. -/
def quoted (header : GoString) : GoString := [dquote] ++ header ++ [dquote]

/-- A string without its first and last byte. -/
def unquoted (s : GoString) : GoString := (s.drop 1).dropLast

/-- The constant `"\\SHRINE\\ONTOLOGYVERSION\\"` of `ConvertShrineOntology`. -/
def versionMarker : GoString := "\\SHRINE\\ONTOLOGYVERSION\\".toList

/-- The constant `"_Converted\\"` of `ConvertShrineOntology`. -/
def convertedSuffix : GoString := "_Converted\\".toList

/-- The body of the loop `for _,so := range TableShrineOntologyClear` of
`ConvertShrineOntology`, for the node `so`. -/
def renameVersion (so : ShrineOntology) : Option ShrineOntology :=
  if HasPrefix so.Fullname versionMarker && decide (so.Fullname.length > versionMarker.length) then
    match goSlice so.Fullname 0 ((so.Fullname.length : Int) - 1) with
    | none => none
    | some front =>
      let newName := front ++ convertedSuffix
      some { so with Fullname := newName, Name := newName, DimCode := newName, Tooltip := newName }
  else some so

/-- The loop `for _,so := range TableShrineOntologyClear` of `ConvertShrineOntology`.  An
iteration writes to the node it visits only, and the keys of the table are not touched, so the
result does not depend on the visiting order. -/
def renameLoop : GoMap ShrineOntology → Option (GoMap ShrineOntology)
  | [] => some []
  | (k, so) :: m =>
    match renameVersion so with
    | none => none
    | some so' =>
      match renameLoop m with
      | none => none
      | some m' => some ((k, so') :: m')

/-- The path lies exactly one segment below the version marker:
`\SHRINE\ONTOLOGYVERSION\<label>\` for a non-empty `<label>` without a delimiter. -/
def OneSegmentBelowMarker (s : GoString) : Prop :=
  ∃ label : GoString, label ≠ [] ∧ delim ∉ label ∧ s = versionMarker ++ label ++ [delim]

/-- A public table with the version marker node, a version label, a node two segments below
the marker and an unrelated node. -/
def versionTable : GoMap ShrineOntology :=
  [("\\SHRINE\\ONTOLOGYVERSION\\".toList, mkRow "\\SHRINE\\ONTOLOGYVERSION\\" "concept_cd"),
   ("\\SHRINE\\ONTOLOGYVERSION\\v1\\".toList,
     mkRow "\\SHRINE\\ONTOLOGYVERSION\\v1\\" "concept_cd"),
   ("\\SHRINE\\ONTOLOGYVERSION\\v1\\x\\".toList,
     mkRow "\\SHRINE\\ONTOLOGYVERSION\\v1\\x\\" "concept_cd"),
   ("\\SHRINE\\Demographics\\".toList, mkRow "\\SHRINE\\Demographics\\" "concept_cd")]

/-- Every bucket of the modifier table is non-empty and filed under a key of length at least
2. -/
def ModifierBucketsSound (tbl : GoMap (List ShrineOntology)) : Prop :=
  ∀ k b, mapGet tbl k = some b → b ≠ [] ∧ 2 ≤ k.length

/-- The strings written for the concept table, visited in the given order: the text of each
node followed by a newline. -/
def emitConcepts (ToCSVText : ShrineOntology → GoString) (order : List GoString)
    (tbl : GoMap ShrineOntology) : List GoString :=
  order.filterMap (fun k => (mapGet tbl k).map (fun so => ToCSVText so ++ ['\n']))

/-- The strings written for the modifier table, its buckets visited in the given order: the
text of each row of each bucket followed by a newline. -/
def emitModifiers (ToCSVText : ShrineOntology → GoString) (order : List GoString)
    (tbl : GoMap (List ShrineOntology)) : List GoString :=
  order.flatMap (fun k => (bucketOf tbl k).map (fun so => ToCSVText so ++ ['\n']))

/-- Source `ConvertShrineOntology`, as the index it leaves and the strings it writes to the
output file, in order.  `ToCSVText` is the method of `ShrineOntology` of that name, declared
outside `loaderI2B2.go`; the four lists are the orders in which the `range` loops visit
the sensitive tables (twice each: in `UpdateChildrenEncryptIDs` and when writing).  The file is
taken to be creatable, and the logging calls are left out. -/
def ConvertShrineOntology (ToCSVText : ShrineOntology → GoString)
    (orderEnc orderModifierEnc writeEnc writeModifierEnc : List GoString) (st : Index) :
    Option (Index × List GoString) :=
  match shrineHeaderLine st.HeaderShrineOntology with
  | none => none
  | some headerLine =>
    match UpdateChildrenEncryptIDs orderEnc orderModifierEnc st with
    | none => none
    | some st1 =>
      match renameLoop st1.TableShrineOntologyClear with
      | none => none
      | some clear =>
        some ({ st1 with TableShrineOntologyClear := clear },
          headerLine :: (emitConcepts ToCSVText writeEnc st1.TableShrineOntologyEnc ++
            emitModifiers ToCSVText writeModifierEnc st1.TableShrineOntologyModifierEnc))

/-- Sensitive rows whose fact-table column is spelled in upper and in mixed case. -/
def mixedCaseRows : List ShrineOntology :=
  [mkRow "\\A\\" "CONCEPT_CD", mkRow "\\M\\" "Modifier_Cd", mkRow "\\A\\B\\" "Concept_CD"]

/-- Library `strings.SplitN(s, sep, n)` for a one-byte separator and `n ≥ 0`: at most `n`
pieces, the last one being the unsplit remainder. -/
def SplitN : GoString → Char → Nat → List GoString
  | _, _, 0 => []
  | s, _, 1 => [s]
  | [], _, _ + 2 => [[]]
  | c :: s, sep, n + 2 =>
    if c = sep then [] :: SplitN s sep (n + 1)
    else
      match SplitN s sep (n + 2) with
      | [] => [[c]]
      | seg :: rest => (c :: seg) :: rest

/-- Modelled from the spec: the declaration of the `Entry` record of the adapter mappings, which
lives outside `loaderI2B2.go`.  The loader reads `Key` only; the values mapped to the key are
kept in `Value`. -/
structure Entry where
  Key : GoString
  Value : List GoString
  deriving DecidableEq, Repr

/-- Modelled from the spec: the declaration of the `AdapterMappings` record, which lives outside
`loaderI2B2.go`.  The loader uses the slice `ListEntries` only; the other fields are kept in
`Rest`. -/
structure AdapterMappings where
  ListEntries : List Entry
  Rest : List GoString
  deriving DecidableEq, Repr

/-- The expression `"\\"+strings.SplitN((m[j].Key)[2:],"\\",2)[1]` of `FilterSensitiveEntries`.
The slice expression panics on a key shorter than 2, and the index expression panics when the
rest of the key has no delimiter. -/
def strippedKey (key : GoString) : Option GoString :=
  match goSlice key 2 (key.length : Int) with
  | none => none
  | some rest =>
    match (SplitN rest delim 2)[1]? with
    | none => none
    | some tail => some ([delim] ++ tail)

/-- The built-in `copy(m[j:], m[j+1:])` on the array behind a slice `m` of length `len`: the
number of elements copied and the array afterwards. -/
def copyDown (backing : List Entry) (len j : Nat) : Nat × List Entry :=
  let copied := min (len - j) (len - (j + 1))
  (copied, backing.take j ++ (backing.drop (j + 1)).take copied ++ backing.drop (j + copied))

/-- The variables of the loop of `FilterSensitiveEntries`: the array shared by the local slice
`m` and by `am.ListEntries`, the length of `m`, and `deleted`. -/
structure FilterState where
  backing : List Entry
  len : Nat
  deleted : Nat
  deriving DecidableEq, Repr

/-- One iteration of the loop `for i := range m` of `FilterSensitiveEntries`. -/
def filterStep (ListSensitiveConcepts : List GoString) (st : FilterState) (i : Nat) :
    Option FilterState :=
  let j : Int := (i : Int) - (st.deleted : Int)
  if 0 ≤ j ∧ j < (st.len : Int) then
    match st.backing[j.toNat]? with
    | none => none
    | some e =>
      match strippedKey e.Key with
      | none => none
      | some k =>
        if containsArrayString ListSensitiveConcepts k then
          some { backing := (copyDown st.backing st.len j.toNat).2
                 len := j.toNat + (copyDown st.backing st.len j.toNat).1
                 deleted := st.deleted + 1 }
        else some st
  else none

/-- The loop `for i := range m`, over the indices still to be visited. -/
def filterLoop (ListSensitiveConcepts : List GoString) :
    List Nat → FilterState → Option FilterState
  | [], st => some st
  | i :: is, st =>
    match filterStep ListSensitiveConcepts st i with
    | none => none
    | some st' => filterLoop ListSensitiveConcepts is st'

/-- Source `FilterSensitiveEntries`: the mapping as the caller sees it after the call, and the
returned count.  The range expression is evaluated once, so the loop visits the indices
`0 .. len(am.ListEntries)-1`; the assignments to `m` rebind the local slice only, so
`am.ListEntries` keeps its length and shows the array as the loop left it. -/
def FilterSensitiveEntries (ListSensitiveConcepts : List GoString) (am : AdapterMappings) :
    Option (AdapterMappings × Nat) :=
  match filterLoop ListSensitiveConcepts (List.range am.ListEntries.length)
      { backing := am.ListEntries, len := am.ListEntries.length, deleted := 0 } with
  | none => none
  | some st => some ({ am with ListEntries := st.backing }, st.deleted)

/-- The entry is one that the loop deletes: its stripped key is an element of the sensitive
list. -/
def isSensitiveEntry (sens : List GoString) (e : Entry) : Bool :=
  match strippedKey e.Key with
  | none => false
  | some k => containsArrayString sens k

/-- The key has at least two bytes, followed by text that contains a delimiter. -/
def KeyWellFormed (key : GoString) : Prop :=
  2 ≤ key.length ∧ delim ∈ key.drop 2

/-- Everything after the first delimiter of a string. -/
def afterFirstDelim (s : GoString) : GoString :=
  (s.dropWhile (fun c => decide (c ≠ delim))).drop 1

/-- An adapter-mapping entry with the given key and one value. -/
def mkEntry (key value : String) : Entry where
  Key := key.toList
  Value := [value.toList]

/-- Four adapter mappings; the second and the fourth are under the sensitive path `\A\`. -/
def sampleMappings : AdapterMappings where
  ListEntries :=
    [mkEntry "\\\\SHRINE\\B\\" "b", mkEntry "\\\\SHRINE\\A\\" "a1",
     mkEntry "\\\\SHRINE\\C\\" "c", mkEntry "\\\\i2b2_DEMO\\A\\" "a2"]
  Rest := []

/-- A bucket in which every row has further IDs appended to its `ChildrenEncryptIDs`. -/
def bucketAdd (extra : List Nat) (b : List ShrineOntology) : List ShrineOntology :=
  b.map (fun e => addChildren e extra)

/-- The IDs that a run of the modifier loop over `order` appends to every row of the bucket
filed under `k`: for every visited bucket, the ID of its first row once for each time the walk
of its key probes `k`. -/
def addedModifierChildren (tbl : GoMap (List ShrineOntology)) :
    List GoString → GoString → List Nat
  | [], _ => []
  | q :: order, k =>
    (match mapGet tbl q with
      | some (so0 :: _) =>
        List.replicate (hitsUpTo (segmentsOf q) k (segmentsOf q).length) so0.NodeEncryptID
      | _ => []) ++ addedModifierChildren tbl order k

/-- The path has no empty segment between its first and last byte. -/
def NoEmptySegment (k : GoString) : Prop := [] ∉ segmentsOf k

/-- The modifier table as the classification loop leaves it: distinct keys, non-empty buckets
whose rows have no children yet, and rows filed under different keys have different IDs. -/
def ModifierFresh (tbl : GoMap (List ShrineOntology)) : Prop :=
  (mapKeys tbl).Nodup ∧
  (∀ k b, mapGet tbl k = some b → b ≠ [] ∧ ∀ e ∈ b, e.ChildrenEncryptIDs = []) ∧
  (∀ k1 k2 b1 b2 e1 e2, mapGet tbl k1 = some b1 → mapGet tbl k2 = some b2 →
    e1 ∈ b1 → e2 ∈ b2 → (e1.NodeEncryptID = e2.NodeEncryptID ↔ k1 = k2))

/-- Two modifier rows of the path `\M\`, one of `\M\N\` and three of `\M\N\O\`. -/
def modifierChainRows : List ShrineOntology :=
  [mkRow "\\M\\N\\O\\" "modifier_cd", mkRow "\\M\\" "modifier_cd",
   mkRow "\\M\\N\\O\\" "modifier_cd", mkRow "\\M\\N\\" "modifier_cd",
   mkRow "\\M\\" "modifier_cd", mkRow "\\M\\N\\O\\" "modifier_cd"]

/-- The sensitive list that goes with `modifierChainRows`. -/
def modifierChainSensitive : List GoString :=
  ["\\M\\".toList, "\\M\\N\\".toList, "\\M\\N\\O\\".toList]

/-- The index after parsing `modifierChainRows`. -/
def modifierChainIndex : Index :=
  (ParseShrineOntology asciiToLower modifierChainSensitive [] modifierChainRows).getD
    (initIndex [])

/-- The path, ID and child list of every row of every bucket of a modifier table. -/
def bucketSummary (tbl : GoMap (List ShrineOntology)) :
    List (GoString × List (Nat × List Nat)) :=
  tbl.map (fun e => (e.1, e.2.map (fun so => (so.NodeEncryptID, so.ChildrenEncryptIDs))))

/-- The path `M` lies strictly below the path `N`: `N` is a prefix of `M` and `M ≠ N`. -/
def liesStrictlyBelow (N M : GoString) : Bool :=
  HasPrefix M N && decide (M ≠ N)

/-- The `NodeEncryptID` of the node filed under `k` (0 when there is none). -/
def idOf (tbl : GoMap ShrineOntology) (k : GoString) : Nat :=
  match mapGet tbl k with
  | some v => v.NodeEncryptID
  | none => 0

/-- Two sensitive concept rows: the two-delimiter path `\\` and the path `\\A\`, whose first
segment is empty. -/
def emptySegmentRows : List ShrineOntology :=
  [mkRow "\\\\" "concept_cd", mkRow "\\\\A\\" "concept_cd"]

/-- The sensitive list that goes with `emptySegmentRows`. -/
def emptySegmentSensitive : List GoString := [rootKey, "\\\\A\\".toList]

/-- The keys probed by the loop `for len(pathContainer) > 0` of `UpdateChildrenEncryptIDs`, one
per iteration, in the order of the iterations.  The first argument is the iteration bound of
`walkConcepts` and `walkModifiers`. -/
def walkProbes : Nat → List GoString → List GoString
  | 0, _ => []
  | bound + 1, pathContainer =>
    if pathContainer.length > 0 then
      let pathContainer := pathContainer.take (pathContainer.length - 1)
      let conceptPath := Join pathContainer [delim]
      ([delim] ++ conceptPath ++ [delim]) :: walkProbes bound pathContainer
    else []

/-- The body of one iteration of the concept walk, for the probed key. -/
def probeConcept (id : Nat) (tbl : GoMap ShrineOntology) (key : GoString) :
    GoMap ShrineOntology :=
  match mapGet tbl key with
  | some val => mapSet tbl key (appendChild val id)
  | none => tbl

/-- The bodies of the iterations of the modifier walk, for the probed keys in order. -/
def probeModifiers (soArr : List ShrineOntology) :
    List GoString → GoMap (List ShrineOntology) → Option (GoMap (List ShrineOntology))
  | [], tbl => some tbl
  | key :: keys, tbl =>
    match mapGet tbl key with
    | some (el :: val) =>
      match soArr with
      | [] => none
      | so0 :: _ =>
        probeModifiers soArr keys
          (mapSet tbl key ((el :: val).map (fun e => appendChild e so0.NodeEncryptID)))
    | some [] => probeModifiers soArr keys tbl
    | none => probeModifiers soArr keys tbl

/-- The strings that `ConvertShrineOntology` has written to the output file when it returns or
panics: the header line is written before `UpdateChildrenEncryptIDs` is called, the rows after
the rename loop. -/
def writtenByConvertShrineOntology (ToCSVText : ShrineOntology → GoString)
    (orderEnc orderModifierEnc writeEnc writeModifierEnc : List GoString) (st : Index) :
    List GoString :=
  match shrineHeaderLine st.HeaderShrineOntology with
  | none => []
  | some headerLine =>
    match UpdateChildrenEncryptIDs orderEnc orderModifierEnc st with
    | none => [headerLine]
    | some st1 =>
      match renameLoop st1.TableShrineOntologyClear with
      | none => [headerLine]
      | some _ =>
        headerLine :: (emitConcepts ToCSVText writeEnc st1.TableShrineOntologyEnc ++
          emitModifiers ToCSVText writeModifierEnc st1.TableShrineOntologyModifierEnc)

/-- The index after parsing, under the header `c_fullname`, one sensitive concept row whose
path is the one-byte string `x`. -/
def shortPathIndex : Index :=
  (ParseShrineOntology asciiToLower ["x".toList] ["c_fullname".toList]
    [mkRow "x" "concept_cd"]).getD (initIndex [])

/-- A stand-in for `ToCSVText` in the examples: the path of the node. -/
def pathText (so : ShrineOntology) : GoString := so.Fullname

/-- An index whose concept table files, under the key `\A\`, a node whose `Fullname` is the
one-byte string `x`. -/
def misfiledIndex : Index :=
  { initIndex [] with
    TableShrineOntologyEnc := [("\\A\\".toList, mkRow "x" "concept_cd")] }

/-- An index whose modifier table holds a bucket of one row under `\M\` and an empty bucket
under `\M\N\`. -/
def emptyBucketIndex : Index :=
  { initIndex [] with
    TableShrineOntologyModifierEnc :=
      [("\\M\\".toList, [mkRow "\\M\\" "modifier_cd"]), ("\\M\\N\\".toList, [])] }

/-! ## Maps -/

theorem mapGet_cons {V : Type} (k1 : GoString) (v1 : V) (m : GoMap V) (k : GoString) :
    mapGet ((k1, v1) :: m) k = if k1 = k then some v1 else mapGet m k := rfl

theorem mapSet_cons {V : Type} (k1 : GoString) (v1 : V) (m : GoMap V) (k : GoString) (v : V) :
    mapSet ((k1, v1) :: m) k v = if k1 = k then (k, v) :: m else (k1, v1) :: mapSet m k v := rfl

theorem mapKeys_cons {V : Type} (k1 : GoString) (v1 : V) (m : GoMap V) :
    mapKeys ((k1, v1) :: m) = k1 :: mapKeys m := rfl

theorem mapGet_mapSet_same {V : Type} (m : GoMap V) (k : GoString) (v : V) :
    mapGet (mapSet m k v) k = some v := by
  induction m with
  | nil => simp [mapSet, mapGet]
  | cons e m ih =>
    obtain ⟨k', v'⟩ := e
    rw [mapSet_cons]
    by_cases h : k' = k
    · rw [if_pos h, mapGet_cons, if_pos rfl]
    · rw [if_neg h, mapGet_cons, if_neg h, ih]

theorem mapGet_mapSet_ne {V : Type} (m : GoMap V) (k k' : GoString) (v : V) (h : k ≠ k') :
    mapGet (mapSet m k v) k' = mapGet m k' := by
  induction m with
  | nil => simp [mapSet, mapGet, h]
  | cons e m ih =>
    obtain ⟨k1, v1⟩ := e
    rw [mapSet_cons]
    by_cases h1 : k1 = k
    · subst h1
      rw [if_pos rfl, mapGet_cons, if_neg h, mapGet_cons, if_neg h]
    · rw [if_neg h1, mapGet_cons, mapGet_cons, ih]

theorem mapGet_eq_none_iff {V : Type} (m : GoMap V) (k : GoString) :
    mapGet m k = none ↔ k ∉ mapKeys m := by
  induction m with
  | nil => simp [mapGet, mapKeys]
  | cons e m ih =>
    obtain ⟨k1, v1⟩ := e
    rw [mapGet_cons, mapKeys_cons, List.mem_cons, not_or]
    by_cases h1 : k1 = k
    · rw [if_pos h1]
      constructor
      · intro h; cases h
      · intro h; exact absurd h1.symm h.1
    · rw [if_neg h1, ih]
      constructor
      · intro h; exact ⟨fun h' => h1 h'.symm, h⟩
      · intro h; exact h.2

theorem mem_mapKeys_iff {V : Type} (m : GoMap V) (k : GoString) :
    k ∈ mapKeys m ↔ ∃ v, mapGet m k = some v := by
  rcases hg : mapGet m k with _ | v
  · have := (mapGet_eq_none_iff m k).1 hg
    constructor
    · intro h; exact absurd h this
    · rintro ⟨v, hv⟩; cases hv
  · constructor
    · intro _; exact ⟨v, rfl⟩
    · intro _
      by_contra hk
      rw [(mapGet_eq_none_iff m k).2 hk] at hg
      cases hg

theorem mapKeys_mapSet {V : Type} (m : GoMap V) (k : GoString) (v : V) :
    mapKeys (mapSet m k v) = if k ∈ mapKeys m then mapKeys m else mapKeys m ++ [k] := by
  induction m with
  | nil => rfl
  | cons e m ih =>
    obtain ⟨k1, v1⟩ := e
    rw [mapSet_cons, mapKeys_cons]
    by_cases h1 : k1 = k
    · subst h1
      rw [if_pos rfl, if_pos (List.mem_cons_self _ _), mapKeys_cons]
    · rw [if_neg h1, mapKeys_cons, ih]
      by_cases h2 : k ∈ mapKeys m
      · rw [if_pos h2, if_pos (List.mem_cons_of_mem _ h2)]
      · have h3 : k ∉ k1 :: mapKeys m := by
          rw [List.mem_cons, not_or]
          exact ⟨fun h => h1 h.symm, h2⟩
        rw [if_neg h2, if_neg h3, List.cons_append]

theorem mem_mapKeys_mapSet {V : Type} (m : GoMap V) (k k' : GoString) (v : V) :
    k' ∈ mapKeys (mapSet m k v) ↔ k' = k ∨ k' ∈ mapKeys m := by
  rw [mapKeys_mapSet]
  split
  · constructor
    · exact fun h => Or.inr h
    · rintro (rfl | h)
      · assumption
      · exact h
  · rw [List.mem_append, List.mem_singleton, or_comm]

theorem mapKeys_nodup_mapSet {V : Type} (m : GoMap V) (k : GoString) (v : V)
    (h : (mapKeys m).Nodup) : (mapKeys (mapSet m k v)).Nodup := by
  rw [mapKeys_mapSet]
  split
  · exact h
  · rename_i hk
    refine List.Nodup.append h (List.nodup_singleton k) ?_
    intro a ha hb
    rw [List.mem_singleton] at hb
    subst hb
    exact hk ha

theorem containsArrayString_iff (s : List GoString) (e : GoString) :
    containsArrayString s e = true ↔ e ∈ s := by
  induction s with
  | nil => simp [containsArrayString]
  | cons a s ih =>
    rw [containsArrayString, List.mem_cons]
    by_cases h : a = e
    · rw [if_pos h]
      exact ⟨fun _ => Or.inl h.symm, fun _ => rfl⟩
    · rw [if_neg h, ih]
      exact ⟨fun h' => Or.inr h', fun h' => h'.resolve_left (fun h'' => h h''.symm)⟩

theorem conceptCd_ne_modifierCd : conceptCd ≠ modifierCd := by decide

/-! ## The classification loop, row by row -/

theorem parseRow_public (toLower : GoString → GoString) (sens : List GoString) (st : Index)
    (so : ShrineOntology) (h : so.Fullname ∉ sens) :
    parseRow toLower sens st so = some { st with
      TableShrineOntologyClear := mapSet st.TableShrineOntologyClear so.Fullname so } := by
  have hc : containsArrayString sens so.Fullname = false := by
    rw [← Bool.not_eq_true, containsArrayString_iff]
    exact h
  simp [parseRow, hc]

theorem parseRow_concept (toLower : GoString → GoString) (sens : List GoString) (st : Index)
    (so : ShrineOntology) (h : so.Fullname ∈ sens) (hk : toLower so.FactTableColumn = conceptCd) :
    parseRow toLower sens st so = some { st with
      IDConcepts := st.IDConcepts + 1
      TableShrineOntologyEnc :=
        mapSet st.TableShrineOntologyEnc so.Fullname (stamp so st.IDConcepts) } := by
  have hc : containsArrayString sens so.Fullname = true := (containsArrayString_iff _ _).2 h
  simp [parseRow, hc, hk, conceptCd_ne_modifierCd, stamp]

theorem parseRow_modifier_new (toLower : GoString → GoString) (sens : List GoString)
    (st : Index) (so : ShrineOntology) (h : so.Fullname ∈ sens)
    (hk : toLower so.FactTableColumn = modifierCd)
    (hg : mapGet st.TableShrineOntologyModifierEnc so.Fullname = none) :
    parseRow toLower sens st so = some { st with
      IDModifiers := st.IDModifiers + 1
      TableShrineOntologyModifierEnc :=
        mapSet st.TableShrineOntologyModifierEnc so.Fullname [stamp so st.IDModifiers] } := by
  have hc : containsArrayString sens so.Fullname = true := (containsArrayString_iff _ _).2 h
  simp [parseRow, hc, hk, hg, stamp]

theorem parseRow_modifier_old (toLower : GoString → GoString) (sens : List GoString)
    (st : Index) (so v0 : ShrineOntology) (vs : List ShrineOntology) (h : so.Fullname ∈ sens)
    (hk : toLower so.FactTableColumn = modifierCd)
    (hg : mapGet st.TableShrineOntologyModifierEnc so.Fullname = some (v0 :: vs)) :
    parseRow toLower sens st so = some { st with
      TableShrineOntologyModifierEnc :=
        mapSet st.TableShrineOntologyModifierEnc so.Fullname
          ((v0 :: vs) ++ [stamp so v0.NodeEncryptID]) } := by
  have hc : containsArrayString sens so.Fullname = true := (containsArrayString_iff _ _).2 h
  simp [parseRow, hc, hk, hg, stamp]

theorem parseRow_modifier_empty (toLower : GoString → GoString) (sens : List GoString)
    (st : Index) (so : ShrineOntology) (h : so.Fullname ∈ sens)
    (hk : toLower so.FactTableColumn = modifierCd)
    (hg : mapGet st.TableShrineOntologyModifierEnc so.Fullname = some []) :
    parseRow toLower sens st so = none := by
  have hc : containsArrayString sens so.Fullname = true := (containsArrayString_iff _ _).2 h
  simp [parseRow, hc, hk, hg]

theorem parseRow_fatal (toLower : GoString → GoString) (sens : List GoString)
    (st : Index) (so : ShrineOntology) (h : so.Fullname ∈ sens)
    (hm : toLower so.FactTableColumn ≠ modifierCd) (hk : toLower so.FactTableColumn ≠ conceptCd) :
    parseRow toLower sens st so = none := by
  have hc : containsArrayString sens so.Fullname = true := (containsArrayString_iff _ _).2 h
  simp [parseRow, hc, hk, hm]

theorem isModifierRow_iff (toLower : GoString → GoString) (sens : List GoString)
    (so : ShrineOntology) :
    isModifierRow toLower sens so = true ↔
      so.Fullname ∈ sens ∧ toLower so.FactTableColumn = modifierCd := by
  simp [isModifierRow, containsArrayString_iff]

theorem isConceptRow_iff (toLower : GoString → GoString) (sens : List GoString)
    (so : ShrineOntology) :
    isConceptRow toLower sens so = true ↔
      so.Fullname ∈ sens ∧ toLower so.FactTableColumn = conceptCd := by
  simp [isConceptRow, containsArrayString_iff]

theorem parseRows_cons (toLower : GoString → GoString) (sens : List GoString) (st : Index)
    (so : ShrineOntology) (rows : List ShrineOntology) :
    parseRows toLower sens st (so :: rows) =
      (parseRow toLower sens st so).bind (fun st' => parseRows toLower sens st' rows) := by
  rw [parseRows]
  cases parseRow toLower sens st so <;> rfl

theorem parseRows_append (toLower : GoString → GoString) (sens : List GoString)
    (rows1 rows2 : List ShrineOntology) (st : Index) :
    parseRows toLower sens st (rows1 ++ rows2) =
      (parseRows toLower sens st rows1).bind (fun st' => parseRows toLower sens st' rows2) := by
  induction rows1 generalizing st with
  | nil => rfl
  | cons so rows1 ih =>
    rw [List.cons_append, parseRows_cons, parseRows_cons]
    cases parseRow toLower sens st so with
    | none => rfl
    | some st1 => exact ih st1

/-- The four ways in which an iteration of the loop can complete. -/
theorem parseRow_cases (toLower : GoString → GoString) (sens : List GoString)
    (st st' : Index) (so : ShrineOntology) (h : parseRow toLower sens st so = some st') :
    (so.Fullname ∉ sens ∧ st' = { st with
        TableShrineOntologyClear := mapSet st.TableShrineOntologyClear so.Fullname so }) ∨
    (isConceptRow toLower sens so = true ∧ st' = { st with
        IDConcepts := st.IDConcepts + 1
        TableShrineOntologyEnc :=
          mapSet st.TableShrineOntologyEnc so.Fullname (stamp so st.IDConcepts) }) ∨
    (isModifierRow toLower sens so = true ∧
      mapGet st.TableShrineOntologyModifierEnc so.Fullname = none ∧ st' = { st with
        IDModifiers := st.IDModifiers + 1
        TableShrineOntologyModifierEnc :=
          mapSet st.TableShrineOntologyModifierEnc so.Fullname [stamp so st.IDModifiers] }) ∨
    (isModifierRow toLower sens so = true ∧ ∃ v0 vs,
      mapGet st.TableShrineOntologyModifierEnc so.Fullname = some (v0 :: vs) ∧ st' = { st with
        TableShrineOntologyModifierEnc :=
          mapSet st.TableShrineOntologyModifierEnc so.Fullname
            ((v0 :: vs) ++ [stamp so v0.NodeEncryptID]) }) := by
  by_cases hs : so.Fullname ∈ sens
  · by_cases hm : toLower so.FactTableColumn = modifierCd
    · have hmr : isModifierRow toLower sens so = true := (isModifierRow_iff _ _ _).2 ⟨hs, hm⟩
      rcases hg : mapGet st.TableShrineOntologyModifierEnc so.Fullname with _ | b
      · rw [parseRow_modifier_new toLower sens st so hs hm hg] at h
        exact Or.inr (Or.inr (Or.inl ⟨hmr, rfl, (Option.some.inj h).symm⟩))
      · cases b with
        | nil =>
          rw [parseRow_modifier_empty toLower sens st so hs hm hg] at h
          cases h
        | cons v0 vs =>
          rw [parseRow_modifier_old toLower sens st so v0 vs hs hm hg] at h
          exact Or.inr (Or.inr (Or.inr ⟨hmr, v0, vs, rfl, (Option.some.inj h).symm⟩))
    · by_cases hc : toLower so.FactTableColumn = conceptCd
      · rw [parseRow_concept toLower sens st so hs hc] at h
        exact Or.inr (Or.inl ⟨(isConceptRow_iff _ _ _).2 ⟨hs, hc⟩, (Option.some.inj h).symm⟩)
      · rw [parseRow_fatal toLower sens st so hs hm hc] at h
        cases h
  · rw [parseRow_public toLower sens st so hs] at h
    exact Or.inl ⟨hs, (Option.some.inj h).symm⟩

theorem not_concept_and_modifier (toLower : GoString → GoString) (sens : List GoString)
    (so : ShrineOntology) (hc : isConceptRow toLower sens so = true)
    (hm : isModifierRow toLower sens so = true) : False := by
  rw [isConceptRow_iff] at hc
  rw [isModifierRow_iff] at hm
  exact conceptCd_ne_modifierCd (hc.2.symm.trans hm.2)

theorem mapGet_mapSet {V : Type} (m : GoMap V) (k k' : GoString) (v : V) :
    mapGet (mapSet m k v) k' = if k = k' then some v else mapGet m k' := by
  by_cases h : k = k'
  · subst h
    rw [if_pos rfl, mapGet_mapSet_same]
  · rw [if_neg h, mapGet_mapSet_ne m k k' v h]

theorem parseRow_bucketsNonempty (toLower : GoString → GoString) (sens : List GoString)
    (st st' : Index) (so : ShrineOntology) (h : parseRow toLower sens st so = some st')
    (hb : BucketsNonempty st) : BucketsNonempty st' := by
  rcases parseRow_cases toLower sens st st' so h with
    ⟨_, rfl⟩ | ⟨_, rfl⟩ | ⟨_, _, rfl⟩ | ⟨_, v0, vs, _, rfl⟩
  · exact hb
  · exact hb
  · intro k b hg
    simp only [mapGet_mapSet] at hg
    split at hg
    · cases hg
      exact List.cons_ne_nil _ _
    · exact hb k b hg
  · intro k b hg
    simp only [mapGet_mapSet] at hg
    split at hg
    · cases hg
      exact List.cons_ne_nil _ _
    · exact hb k b hg

theorem parseRows_bucketsNonempty (toLower : GoString → GoString) (sens : List GoString)
    (rows : List ShrineOntology) (st st' : Index)
    (h : parseRows toLower sens st rows = some st') (hb : BucketsNonempty st) :
    BucketsNonempty st' := by
  induction rows generalizing st with
  | nil =>
    cases h
    exact hb
  | cons so rows ih =>
    rw [parseRows_cons] at h
    rcases h1 : parseRow toLower sens st so with _ | st1
    · rw [h1] at h
      cases h
    · rw [h1] at h
      exact ih st1 h (parseRow_bucketsNonempty toLower sens st st1 so h1 hb)

theorem bucketsNonempty_init (header : List GoString) : BucketsNonempty (initIndex header) := by
  intro k b hg
  cases hg

/-- The loop runs to completion when every sensitive row has a recognised kind. -/
theorem parseRows_isSome (toLower : GoString → GoString) (sens : List GoString)
    (rows : List ShrineOntology) (st : Index) (hb : BucketsNonempty st)
    (hkind : ∀ so ∈ rows, so.Fullname ∈ sens →
      toLower so.FactTableColumn = conceptCd ∨ toLower so.FactTableColumn = modifierCd) :
    ∃ st', parseRows toLower sens st rows = some st' := by
  induction rows generalizing st with
  | nil => exact ⟨st, rfl⟩
  | cons so rows ih =>
    rw [parseRows_cons]
    have hstep : ∃ st1, parseRow toLower sens st so = some st1 := by
      by_cases hs : so.Fullname ∈ sens
      · rcases hkind so (List.mem_cons_self _ _) hs with hc | hm
        · exact ⟨_, parseRow_concept toLower sens st so hs hc⟩
        · rcases hg : mapGet st.TableShrineOntologyModifierEnc so.Fullname with _ | b
          · exact ⟨_, parseRow_modifier_new toLower sens st so hs hm hg⟩
          · cases b with
            | nil => exact absurd rfl (hb _ _ hg)
            | cons v0 vs => exact ⟨_, parseRow_modifier_old toLower sens st so v0 vs hs hm hg⟩
      · exact ⟨_, parseRow_public toLower sens st so hs⟩
    obtain ⟨st1, h1⟩ := hstep
    rw [h1]
    exact ih st1 (parseRow_bucketsNonempty toLower sens st st1 so h1 hb)
      (fun x hx => hkind x (List.mem_cons_of_mem _ hx))

/-- The keys of the three tables after one iteration. -/
theorem parseRow_keys (toLower : GoString → GoString) (sens : List GoString)
    (st st' : Index) (so : ShrineOntology) (h : parseRow toLower sens st so = some st')
    (k : GoString) :
    (k ∈ mapKeys st'.TableShrineOntologyClear ↔
      k ∈ mapKeys st.TableShrineOntologyClear ∨ (so.Fullname ∉ sens ∧ so.Fullname = k)) ∧
    (k ∈ mapKeys st'.TableShrineOntologyEnc ↔
      k ∈ mapKeys st.TableShrineOntologyEnc ∨
        (isConceptRow toLower sens so = true ∧ so.Fullname = k)) ∧
    (k ∈ mapKeys st'.TableShrineOntologyModifierEnc ↔
      k ∈ mapKeys st.TableShrineOntologyModifierEnc ∨
        (isModifierRow toLower sens so = true ∧ so.Fullname = k)) := by
  have hcs : isConceptRow toLower sens so = true → so.Fullname ∈ sens :=
    fun hc => ((isConceptRow_iff _ _ _).1 hc).1
  have hms : isModifierRow toLower sens so = true → so.Fullname ∈ sens :=
    fun hm => ((isModifierRow_iff _ _ _).1 hm).1
  rcases parseRow_cases toLower sens st st' so h with
    ⟨hs, rfl⟩ | ⟨hc, rfl⟩ | ⟨hm, _, rfl⟩ | ⟨hm, v0, vs, _, rfl⟩
  · refine ⟨?_, ?_, ?_⟩
    · simp only [mem_mapKeys_mapSet]
      constructor
      · rintro (rfl | h')
        · exact Or.inr ⟨hs, rfl⟩
        · exact Or.inl h'
      · rintro (h' | ⟨_, rfl⟩)
        · exact Or.inr h'
        · exact Or.inl rfl
    · exact ⟨Or.inl, fun h' => h'.elim id (fun h'' => absurd (hcs h''.1) hs)⟩
    · exact ⟨Or.inl, fun h' => h'.elim id (fun h'' => absurd (hms h''.1) hs)⟩
  · refine ⟨?_, ?_, ?_⟩
    · exact ⟨Or.inl, fun h' => h'.elim id (fun h'' => absurd (hcs hc) h''.1)⟩
    · simp only [mem_mapKeys_mapSet]
      constructor
      · rintro (rfl | h')
        · exact Or.inr ⟨hc, rfl⟩
        · exact Or.inl h'
      · rintro (h' | ⟨_, rfl⟩)
        · exact Or.inr h'
        · exact Or.inl rfl
    · exact ⟨Or.inl, fun h' => h'.elim id
        (fun h'' => (not_concept_and_modifier toLower sens so hc h''.1).elim)⟩
  · refine ⟨?_, ?_, ?_⟩
    · exact ⟨Or.inl, fun h' => h'.elim id (fun h'' => absurd (hms hm) h''.1)⟩
    · exact ⟨Or.inl, fun h' => h'.elim id
        (fun h'' => (not_concept_and_modifier toLower sens so h''.1 hm).elim)⟩
    · simp only [mem_mapKeys_mapSet]
      constructor
      · rintro (rfl | h')
        · exact Or.inr ⟨hm, rfl⟩
        · exact Or.inl h'
      · rintro (h' | ⟨_, rfl⟩)
        · exact Or.inr h'
        · exact Or.inl rfl
  · refine ⟨?_, ?_, ?_⟩
    · exact ⟨Or.inl, fun h' => h'.elim id (fun h'' => absurd (hms hm) h''.1)⟩
    · exact ⟨Or.inl, fun h' => h'.elim id
        (fun h'' => (not_concept_and_modifier toLower sens so h''.1 hm).elim)⟩
    · simp only [mem_mapKeys_mapSet]
      constructor
      · rintro (rfl | h')
        · exact Or.inr ⟨hm, rfl⟩
        · exact Or.inl h'
      · rintro (h' | ⟨_, rfl⟩)
        · exact Or.inr h'
        · exact Or.inl rfl

/-- The keys of the three tables after the loop. -/
theorem parseRows_keys (toLower : GoString → GoString) (sens : List GoString)
    (rows : List ShrineOntology) (st st' : Index)
    (h : parseRows toLower sens st rows = some st') (k : GoString) :
    (k ∈ mapKeys st'.TableShrineOntologyClear ↔
      k ∈ mapKeys st.TableShrineOntologyClear ∨
        ∃ so ∈ rows, so.Fullname ∉ sens ∧ so.Fullname = k) ∧
    (k ∈ mapKeys st'.TableShrineOntologyEnc ↔
      k ∈ mapKeys st.TableShrineOntologyEnc ∨
        ∃ so ∈ rows, isConceptRow toLower sens so = true ∧ so.Fullname = k) ∧
    (k ∈ mapKeys st'.TableShrineOntologyModifierEnc ↔
      k ∈ mapKeys st.TableShrineOntologyModifierEnc ∨
        ∃ so ∈ rows, isModifierRow toLower sens so = true ∧ so.Fullname = k) := by
  induction rows generalizing st with
  | nil =>
    cases h
    simp
  | cons so rows ih =>
    rw [parseRows_cons] at h
    rcases h1 : parseRow toLower sens st so with _ | st1
    · rw [h1] at h
      cases h
    · rw [h1] at h
      obtain ⟨a1, a2, a3⟩ := ih st1 h
      obtain ⟨b1, b2, b3⟩ := parseRow_keys toLower sens st st1 so h1 k
      refine ⟨?_, ?_, ?_⟩
      · rw [a1, b1, List.exists_mem_cons_iff, or_assoc]
      · rw [a2, b2, List.exists_mem_cons_iff, or_assoc]
      · rw [a3, b3, List.exists_mem_cons_iff, or_assoc]

/-- Where the values of the three tables come from, after one iteration. -/
theorem parseRow_origin (toLower : GoString → GoString) (sens : List GoString)
    (st st' : Index) (so : ShrineOntology) (h : parseRow toLower sens st so = some st')
    (k : GoString) :
    (∀ v, mapGet st'.TableShrineOntologyClear k = some v →
      mapGet st.TableShrineOntologyClear k = some v ∨
        (so.Fullname ∉ sens ∧ so.Fullname = k ∧ v = so)) ∧
    (∀ v, mapGet st'.TableShrineOntologyEnc k = some v →
      mapGet st.TableShrineOntologyEnc k = some v ∨
        (isConceptRow toLower sens so = true ∧ so.Fullname = k ∧ ∃ id, v = stamp so id)) ∧
    (∀ b, mapGet st'.TableShrineOntologyModifierEnc k = some b → ∀ v ∈ b,
      (∃ b0, mapGet st.TableShrineOntologyModifierEnc k = some b0 ∧ v ∈ b0) ∨
        (isModifierRow toLower sens so = true ∧ so.Fullname = k ∧ ∃ id, v = stamp so id)) := by
  rcases parseRow_cases toLower sens st st' so h with
    ⟨hs, rfl⟩ | ⟨hc, rfl⟩ | ⟨hm, _, rfl⟩ | ⟨hm, v0, vs, hg, rfl⟩
  · refine ⟨?_, fun v hv => Or.inl hv, fun b hb v hv => Or.inl ⟨b, hb, hv⟩⟩
    intro v hv
    simp only [mapGet_mapSet] at hv
    split at hv
    · rename_i hk
      cases hv
      exact Or.inr ⟨hs, hk, rfl⟩
    · exact Or.inl hv
  · refine ⟨fun v hv => Or.inl hv, ?_, fun b hb v hv => Or.inl ⟨b, hb, hv⟩⟩
    intro v hv
    simp only [mapGet_mapSet] at hv
    split at hv
    · rename_i hk
      cases hv
      exact Or.inr ⟨hc, hk, _, rfl⟩
    · exact Or.inl hv
  · refine ⟨fun v hv => Or.inl hv, fun v hv => Or.inl hv, ?_⟩
    intro b hb v hv
    simp only [mapGet_mapSet] at hb
    split at hb
    · rename_i hk
      cases hb
      rw [List.mem_singleton] at hv
      exact Or.inr ⟨hm, hk, _, hv⟩
    · exact Or.inl ⟨b, hb, hv⟩
  · refine ⟨fun v hv => Or.inl hv, fun v hv => Or.inl hv, ?_⟩
    intro b hb v hv
    simp only [mapGet_mapSet] at hb
    split at hb
    · rename_i hk
      cases hb
      rw [List.mem_append, List.mem_singleton] at hv
      rcases hv with hv | hv
      · exact Or.inl ⟨_, hk ▸ hg, hv⟩
      · exact Or.inr ⟨hm, hk, _, hv⟩
    · exact Or.inl ⟨b, hb, hv⟩

/-- Where the values of the three tables come from, after the loop. -/
theorem parseRows_origin (toLower : GoString → GoString) (sens : List GoString)
    (rows : List ShrineOntology) (st st' : Index)
    (h : parseRows toLower sens st rows = some st') (k : GoString) :
    (∀ v, mapGet st'.TableShrineOntologyClear k = some v →
      mapGet st.TableShrineOntologyClear k = some v ∨
        (v ∈ rows ∧ v.Fullname ∉ sens ∧ v.Fullname = k)) ∧
    (∀ v, mapGet st'.TableShrineOntologyEnc k = some v →
      mapGet st.TableShrineOntologyEnc k = some v ∨
        ∃ so ∈ rows, isConceptRow toLower sens so = true ∧ so.Fullname = k ∧
          ∃ id, v = stamp so id) ∧
    (∀ b, mapGet st'.TableShrineOntologyModifierEnc k = some b → ∀ v ∈ b,
      (∃ b0, mapGet st.TableShrineOntologyModifierEnc k = some b0 ∧ v ∈ b0) ∨
        ∃ so ∈ rows, isModifierRow toLower sens so = true ∧ so.Fullname = k ∧
          ∃ id, v = stamp so id) := by
  induction rows generalizing st with
  | nil =>
    cases h
    exact ⟨fun v hv => Or.inl hv, fun v hv => Or.inl hv, fun b hb v hv => Or.inl ⟨b, hb, hv⟩⟩
  | cons so rows ih =>
    rw [parseRows_cons] at h
    rcases h1 : parseRow toLower sens st so with _ | st1
    · rw [h1] at h
      cases h
    · rw [h1] at h
      obtain ⟨a1, a2, a3⟩ := ih st1 h
      obtain ⟨b1, b2, b3⟩ := parseRow_origin toLower sens st st1 so h1 k
      refine ⟨?_, ?_, ?_⟩
      · intro v hv
        rcases a1 v hv with h2 | ⟨h2, h3, h4⟩
        · rcases b1 v h2 with h5 | ⟨h5, h6, h7⟩
          · exact Or.inl h5
          · subst h7
            exact Or.inr ⟨List.mem_cons_self _ _, h5, h6⟩
        · exact Or.inr ⟨List.mem_cons_of_mem _ h2, h3, h4⟩
      · intro v hv
        rcases a2 v hv with h2 | ⟨x, hx, h3⟩
        · rcases b2 v h2 with h5 | h5
          · exact Or.inl h5
          · exact Or.inr ⟨so, List.mem_cons_self _ _, h5⟩
        · exact Or.inr ⟨x, List.mem_cons_of_mem _ hx, h3⟩
      · intro b hb v hv
        rcases a3 b hb v hv with ⟨b0, h2, h3⟩ | ⟨x, hx, h4⟩
        · rcases b3 b0 h2 v h3 with h5 | h5
          · exact Or.inl h5
          · exact Or.inr ⟨so, List.mem_cons_self _ _, h5⟩
        · exact Or.inr ⟨x, List.mem_cons_of_mem _ hx, h4⟩

/-- C1: when every sensitive row has a fact-table column that lowercases to `"concept_cd"` or
`"modifier_cd"`, the classification loop of `ParseShrineOntology` runs to completion and puts a
row into the public table exactly when its `Fullname` is not an element of the sensitive list
(so a row that only has a sensitive path as a prefix is public); a row whose `Fullname` is an
element goes to the concept table when its column lowercases to `"concept_cd"` and to the
modifier table when it lowercases to `"modifier_cd"`, never to the public table.  Conversely the
public table holds only input rows with a non-sensitive path, the concept table only stamped
concept rows and the modifier buckets only stamped modifier rows. -/
theorem parse_classifies_by_exact_membership (toLower : GoString → GoString)
    (ListSensitiveConcepts header : List GoString) (rows : List ShrineOntology)
    (hkind : ∀ so ∈ rows, so.Fullname ∈ ListSensitiveConcepts →
      toLower so.FactTableColumn = conceptCd ∨ toLower so.FactTableColumn = modifierCd) :
    ∃ st, ParseShrineOntology toLower ListSensitiveConcepts header rows = some st ∧
      (∀ so ∈ rows, (so.Fullname ∈ mapKeys st.TableShrineOntologyClear ↔
        so.Fullname ∉ ListSensitiveConcepts)) ∧
      (∀ so ∈ rows, so.Fullname ∈ ListSensitiveConcepts →
        toLower so.FactTableColumn = conceptCd →
        so.Fullname ∈ mapKeys st.TableShrineOntologyEnc ∧
          so.Fullname ∉ mapKeys st.TableShrineOntologyClear) ∧
      (∀ so ∈ rows, so.Fullname ∈ ListSensitiveConcepts →
        toLower so.FactTableColumn = modifierCd →
        so.Fullname ∈ mapKeys st.TableShrineOntologyModifierEnc ∧
          so.Fullname ∉ mapKeys st.TableShrineOntologyClear) ∧
      (∀ so ∈ rows, so.Fullname ∉ ListSensitiveConcepts →
        (∃ s ∈ ListSensitiveConcepts, s <+: so.Fullname) →
        so.Fullname ∈ mapKeys st.TableShrineOntologyClear) ∧
      (∀ k v, mapGet st.TableShrineOntologyClear k = some v →
        v ∈ rows ∧ v.Fullname = k ∧ k ∉ ListSensitiveConcepts) ∧
      (∀ k v, mapGet st.TableShrineOntologyEnc k = some v →
        ∃ so ∈ rows, so.Fullname = k ∧ k ∈ ListSensitiveConcepts ∧
          toLower so.FactTableColumn = conceptCd ∧ ∃ id, v = stamp so id) ∧
      (∀ k b, mapGet st.TableShrineOntologyModifierEnc k = some b → ∀ v ∈ b,
        ∃ so ∈ rows, so.Fullname = k ∧ k ∈ ListSensitiveConcepts ∧
          toLower so.FactTableColumn = modifierCd ∧ ∃ id, v = stamp so id) := by
  obtain ⟨st, hst⟩ := parseRows_isSome toLower ListSensitiveConcepts rows (initIndex header)
    (bucketsNonempty_init header) hkind
  have hkeys := parseRows_keys toLower ListSensitiveConcepts rows (initIndex header) st hst
  have horig := parseRows_origin toLower ListSensitiveConcepts rows (initIndex header) st hst
  have hclear : ∀ k, k ∈ mapKeys st.TableShrineOntologyClear → k ∉ ListSensitiveConcepts := by
    intro k hk
    rcases (hkeys k).1.1 hk with h | ⟨so, _, h1, h2⟩
    · cases h
    · exact h2 ▸ h1
  have hpub : ∀ so ∈ rows, so.Fullname ∉ ListSensitiveConcepts →
      so.Fullname ∈ mapKeys st.TableShrineOntologyClear :=
    fun so hso hs => (hkeys so.Fullname).1.2 (Or.inr ⟨so, hso, hs, rfl⟩)
  refine ⟨st, hst, ?_, ?_, ?_, ?_, ?_, ?_, ?_⟩
  · intro so hso
    exact ⟨hclear _, hpub so hso⟩
  · intro so hso hs hc
    exact ⟨(hkeys so.Fullname).2.1.2
      (Or.inr ⟨so, hso, (isConceptRow_iff _ _ _).2 ⟨hs, hc⟩, rfl⟩), fun h => hclear _ h hs⟩
  · intro so hso hs hm
    exact ⟨(hkeys so.Fullname).2.2.2
      (Or.inr ⟨so, hso, (isModifierRow_iff _ _ _).2 ⟨hs, hm⟩, rfl⟩), fun h => hclear _ h hs⟩
  · intro so hso hs _
    exact hpub so hso hs
  · intro k v hv
    rcases (horig k).1 v hv with h | ⟨h1, h2, h3⟩
    · cases h
    · exact ⟨h1, h3, h3 ▸ h2⟩
  · intro k v hv
    rcases (horig k).2.1 v hv with h | ⟨so, hso, hc, h3, h4⟩
    · cases h
    · rw [isConceptRow_iff] at hc
      exact ⟨so, hso, h3, h3 ▸ hc.1, hc.2, h4⟩
  · intro k b hb v hv
    rcases (horig k).2.2 b hb v hv with ⟨b0, h, _⟩ | ⟨so, hso, hm, h3, h4⟩
    · cases h
    · rw [isModifierRow_iff] at hm
      exact ⟨so, hso, h3, h3 ▸ hm.1, hm.2, h4⟩

/-- Witness for C1: the loop on the sample rows. -/
theorem parse_classifies_by_exact_membership_witness :
    ∃ st, ParseShrineOntology asciiToLower sampleSensitive [] sampleRows = some st ∧
      (∀ so ∈ sampleRows, (so.Fullname ∈ mapKeys st.TableShrineOntologyClear ↔
        so.Fullname ∉ sampleSensitive)) :=
  let ⟨st, h, h1, _⟩ := parse_classifies_by_exact_membership asciiToLower sampleSensitive []
    sampleRows (by decide)
  ⟨st, h, h1⟩

/-! ## Sensitive concepts -/

theorem exists_last_split {α : Type} (p : α → Bool) (l : List α) (h : ∃ x ∈ l, p x = true) :
    ∃ pre x post, l = pre ++ x :: post ∧ p x = true ∧ ∀ y ∈ post, p y = false := by
  induction l with
  | nil =>
    obtain ⟨x, hx, _⟩ := h
    cases hx
  | cons a l ih =>
    by_cases hl : ∃ x ∈ l, p x = true
    · obtain ⟨pre, x, post, h1, h2, h3⟩ := ih hl
      exact ⟨a :: pre, x, post, by rw [h1, List.cons_append], h2, h3⟩
    · obtain ⟨x, hx, hpx⟩ := h
      rcases List.mem_cons.1 hx with rfl | hx'
      · refine ⟨[], x, l, rfl, hpx, ?_⟩
        intro y hy
        by_contra hpy
        exact hl ⟨y, hy, by simpa using hpy⟩
      · exact absurd ⟨x, hx', hpx⟩ hl

theorem filter_get_split {α : Type} (p : α → Bool) (l : List α) (n : Nat) (x : α)
    (h : (l.filter p)[n]? = some x) :
    ∃ pre post, l = pre ++ x :: post ∧ (pre.filter p).length = n ∧ p x = true := by
  induction l generalizing n with
  | nil => simp at h
  | cons a l ih =>
    by_cases hpa : p a = true
    · rw [List.filter_cons_of_pos hpa] at h
      cases n with
      | zero =>
        simp only [List.getElem?_cons_zero, Option.some.injEq] at h
        subst h
        exact ⟨[], l, rfl, rfl, hpa⟩
      | succ n =>
        rw [List.getElem?_cons_succ] at h
        obtain ⟨pre, post, h1, h2, h3⟩ := ih n h
        refine ⟨a :: pre, post, by rw [h1, List.cons_append], ?_, h3⟩
        rw [List.filter_cons_of_pos hpa, List.length_cons, h2]
    · rw [List.filter_cons_of_neg hpa] at h
      obtain ⟨pre, post, h1, h2, h3⟩ := ih n h
      refine ⟨a :: pre, post, by rw [h1, List.cons_append], ?_, h3⟩
      rw [List.filter_cons_of_neg hpa, h2]

/-- The concept counter advances by one for every row that takes the concept branch. -/
theorem parseRows_IDConcepts (toLower : GoString → GoString) (sens : List GoString)
    (rows : List ShrineOntology) (st st' : Index)
    (h : parseRows toLower sens st rows = some st') :
    st'.IDConcepts = st.IDConcepts + (rows.filter (isConceptRow toLower sens)).length := by
  induction rows generalizing st with
  | nil =>
    cases h
    rfl
  | cons so rows ih =>
    rw [parseRows_cons] at h
    rcases h1 : parseRow toLower sens st so with _ | st1
    · rw [h1] at h
      cases h
    · rw [h1] at h
      rw [ih st1 h]
      rcases parseRow_cases toLower sens st st1 so h1 with
        ⟨hs, rfl⟩ | ⟨hc, rfl⟩ | ⟨hm, _, rfl⟩ | ⟨hm, v0, vs, _, rfl⟩
      · have : isConceptRow toLower sens so = false := by
          rw [← Bool.not_eq_true, isConceptRow_iff]
          exact fun h' => hs h'.1
        rw [List.filter_cons_of_neg (by simp [this])]
      · rw [List.filter_cons_of_pos hc, List.length_cons]
        simp only
        omega
      · have : isConceptRow toLower sens so = false := by
          rw [← Bool.not_eq_true]
          exact fun h' => not_concept_and_modifier toLower sens so h' hm
        rw [List.filter_cons_of_neg (by simp [this])]
      · have : isConceptRow toLower sens so = false := by
          rw [← Bool.not_eq_true]
          exact fun h' => not_concept_and_modifier toLower sens so h' hm
        rw [List.filter_cons_of_neg (by simp [this])]

/-- The slot of a path in the concept table is left alone by rows that are not concept rows of
that path. -/
theorem parseRows_Enc_frame (toLower : GoString → GoString) (sens : List GoString)
    (rows : List ShrineOntology) (st st' : Index) (P : GoString)
    (h : parseRows toLower sens st rows = some st')
    (hP : ∀ x ∈ rows, isConceptRow toLower sens x = true → x.Fullname ≠ P) :
    mapGet st'.TableShrineOntologyEnc P = mapGet st.TableShrineOntologyEnc P := by
  induction rows generalizing st with
  | nil =>
    cases h
    rfl
  | cons so rows ih =>
    rw [parseRows_cons] at h
    rcases h1 : parseRow toLower sens st so with _ | st1
    · rw [h1] at h
      cases h
    · rw [h1] at h
      rw [ih st1 h (fun x hx => hP x (List.mem_cons_of_mem _ hx))]
      rcases parseRow_cases toLower sens st st1 so h1 with
        ⟨hs, rfl⟩ | ⟨hc, rfl⟩ | ⟨hm, _, rfl⟩ | ⟨hm, v0, vs, _, rfl⟩
      · rfl
      · exact mapGet_mapSet_ne _ _ _ _ (hP so (List.mem_cons_self _ _) hc)
      · rfl
      · rfl

theorem parseRow_encFresh (toLower : GoString → GoString) (sens : List GoString)
    (st st' : Index) (so : ShrineOntology) (h : parseRow toLower sens st so = some st')
    (hf : EncFresh st) : EncFresh st' := by
  rcases parseRow_cases toLower sens st st' so h with
    ⟨hs, rfl⟩ | ⟨hc, rfl⟩ | ⟨hm, _, rfl⟩ | ⟨hm, v0, vs, _, rfl⟩
  · exact hf
  · obtain ⟨hf1, hf2⟩ := hf
    have key : ∀ k v, mapGet (mapSet st.TableShrineOntologyEnc so.Fullname
        (stamp so st.IDConcepts)) k = some v →
        (k = so.Fullname ∧ v = stamp so st.IDConcepts) ∨
          (k ≠ so.Fullname ∧ mapGet st.TableShrineOntologyEnc k = some v) := by
      intro k v hv
      rw [mapGet_mapSet] at hv
      split at hv
      · rename_i hk
        exact Or.inl ⟨hk.symm, (Option.some.inj hv).symm⟩
      · rename_i hk
        exact Or.inr ⟨fun h' => hk h'.symm, hv⟩
    constructor
    · intro k v hv
      rcases key k v hv with ⟨rfl, rfl⟩ | ⟨_, hold⟩
      · exact ⟨rfl, rfl, Nat.lt_succ_self _⟩
      · obtain ⟨a, b, c⟩ := hf1 k v hold
        exact ⟨a, b, Nat.lt_succ_of_lt c⟩
    · intro k1 k2 v1 v2 h1 h2 hid
      rcases key k1 v1 h1 with ⟨rfl, rfl⟩ | ⟨_, hold1⟩
      · rcases key k2 v2 h2 with ⟨rfl, rfl⟩ | ⟨_, hold2⟩
        · rfl
        · have := (hf1 k2 v2 hold2).2.2
          simp only [stamp] at hid
          omega
      · rcases key k2 v2 h2 with ⟨rfl, rfl⟩ | ⟨_, hold2⟩
        · have := (hf1 k1 v1 hold1).2.2
          simp only [stamp] at hid
          omega
        · exact hf2 k1 k2 v1 v2 hold1 hold2 hid
  · exact hf
  · exact hf

theorem parseRows_encFresh (toLower : GoString → GoString) (sens : List GoString)
    (rows : List ShrineOntology) (st st' : Index)
    (h : parseRows toLower sens st rows = some st') (hf : EncFresh st) : EncFresh st' := by
  induction rows generalizing st with
  | nil =>
    cases h
    exact hf
  | cons so rows ih =>
    rw [parseRows_cons] at h
    rcases h1 : parseRow toLower sens st so with _ | st1
    · rw [h1] at h
      cases h
    · rw [h1] at h
      exact ih st1 h (parseRow_encFresh toLower sens st st1 so h1 hf)

theorem encFresh_init (header : List GoString) : EncFresh (initIndex header) :=
  ⟨fun _ _ h => (by cases h), fun _ _ _ _ h => (by cases h)⟩

/-- The concept slot written by the last concept row of a path. -/
theorem parse_Enc_of_split (toLower : GoString → GoString) (sens header : List GoString)
    (pre post : List ShrineOntology) (so : ShrineOntology) (st : Index)
    (h : ParseShrineOntology toLower sens header (pre ++ so :: post) = some st)
    (hso : isConceptRow toLower sens so = true)
    (hpost : ∀ x ∈ post, isConceptRow toLower sens x = true → x.Fullname ≠ so.Fullname) :
    mapGet st.TableShrineOntologyEnc so.Fullname =
      some (stamp so (pre.filter (isConceptRow toLower sens)).length) := by
  rw [ParseShrineOntology, parseRows_append] at h
  rcases h1 : parseRows toLower sens (initIndex header) pre with _ | st1
  · rw [h1] at h
    cases h
  · rw [h1, Option.some_bind, parseRows_cons] at h
    rcases h2 : parseRow toLower sens st1 so with _ | st2
    · rw [h2] at h
      cases h
    · rw [h2, Option.some_bind] at h
      rw [parseRows_Enc_frame toLower sens post st2 st so.Fullname h hpost]
      have hid := parseRows_IDConcepts toLower sens pre (initIndex header) st1 h1
      rw [isConceptRow_iff] at hso
      rw [parseRow_concept toLower sens st1 so hso.1 hso.2] at h2
      cases h2
      simp only [mapGet_mapSet_same]
      rw [hid]
      simp [initIndex]

theorem mem_distinctPaths (l : List GoString) (q : GoString) :
    q ∈ distinctPaths l ↔ q ∈ l := by
  induction l with
  | nil => simp [distinctPaths]
  | cons p ps ih =>
    rw [distinctPaths, List.mem_cons, List.mem_cons, List.mem_filter, ih]
    by_cases h : q = p
    · simp [h]
    · simp [h]

theorem distinctPaths_of_nodup (l : List GoString) (h : l.Nodup) : distinctPaths l = l := by
  induction l with
  | nil => rfl
  | cons p ps ih =>
    rw [List.nodup_cons] at h
    rw [distinctPaths, ih h.2, List.filter_eq_self.2]
    intro q hq
    have : q ≠ p := fun h' => h.1 (h' ▸ hq)
    simpa using this

theorem distinctPaths_append_singleton (l : List GoString) (x : GoString) :
    distinctPaths (l ++ [x]) = if x ∈ l then distinctPaths l else distinctPaths l ++ [x] := by
  induction l with
  | nil => simp [distinctPaths]
  | cons p ps ih =>
    rw [List.cons_append, distinctPaths, ih, distinctPaths]
    by_cases h1 : x ∈ ps
    · rw [if_pos h1, if_pos (List.mem_cons_of_mem _ h1)]
    · rw [if_neg h1]
      by_cases h2 : x = p
      · subst h2
        rw [if_pos (List.mem_cons_self _ _), List.filter_append]
        simp
      · have h3 : x ∉ p :: ps := by
          rw [List.mem_cons, not_or]
          exact ⟨h2, h1⟩
        rw [if_neg h3, List.filter_append]
        simp [h2]

theorem nodup_distinctPaths (l : List GoString) : (distinctPaths l).Nodup := by
  induction l with
  | nil => exact List.nodup_nil
  | cons p ps ih =>
    rw [distinctPaths, List.nodup_cons]
    refine ⟨?_, ih.filter _⟩
    rw [List.mem_filter]
    rintro ⟨_, h⟩
    simp at h

/-- C5: after a completed run of the classification loop, the slot of every path `P` that
occurs on a sensitive concept row holds the last such row (stamped), and its `NodeEncryptID` is
the number of sensitive concept rows before that row; entries under different keys carry
different IDs, and the final `IDConcepts` is the number of sensitive concept rows. -/
theorem concept_table_last_write_wins (toLower : GoString → GoString)
    (ListSensitiveConcepts header : List GoString) (rows : List ShrineOntology) (st : Index)
    (h : ParseShrineOntology toLower ListSensitiveConcepts header rows = some st) :
    (∀ P, (∃ x ∈ rows, isConceptRow toLower ListSensitiveConcepts x = true ∧ x.Fullname = P) →
      ∃ pre so post, rows = pre ++ so :: post ∧
        isConceptRow toLower ListSensitiveConcepts so = true ∧ so.Fullname = P ∧
        (∀ y ∈ post, ¬ (isConceptRow toLower ListSensitiveConcepts y = true ∧ y.Fullname = P)) ∧
        mapGet st.TableShrineOntologyEnc P =
          some (stamp so (pre.filter (isConceptRow toLower ListSensitiveConcepts)).length) ∧
        (stamp so (pre.filter (isConceptRow toLower ListSensitiveConcepts)).length).NodeEncryptID
          = (pre.filter (isConceptRow toLower ListSensitiveConcepts)).length) ∧
    (∀ k1 k2 v1 v2, mapGet st.TableShrineOntologyEnc k1 = some v1 →
      mapGet st.TableShrineOntologyEnc k2 = some v2 → k1 ≠ k2 →
      v1.NodeEncryptID ≠ v2.NodeEncryptID) ∧
    st.IDConcepts = (rows.filter (isConceptRow toLower ListSensitiveConcepts)).length := by
  refine ⟨?_, ?_, ?_⟩
  · intro P hP
    obtain ⟨pre, so, post, h1, h2, h3⟩ := exists_last_split
      (fun x => isConceptRow toLower ListSensitiveConcepts x && decide (x.Fullname = P)) rows
      (by
        obtain ⟨x, hx, hc, hn⟩ := hP
        exact ⟨x, hx, by simp [hc, hn]⟩)
    simp only [Bool.and_eq_true, decide_eq_true_eq] at h2
    have h3' : ∀ y ∈ post,
        ¬ (isConceptRow toLower ListSensitiveConcepts y = true ∧ y.Fullname = P) := by
      intro y hy
      have := h3 y hy
      simpa using this
    refine ⟨pre, so, post, h1, h2.1, h2.2, h3', ?_, rfl⟩
    subst h1
    have := parse_Enc_of_split toLower ListSensitiveConcepts header pre post so st h h2.1
      (fun x hx hc hn => h3' x hx ⟨hc, hn.trans h2.2⟩)
    rw [h2.2] at this
    exact this
  · intro k1 k2 v1 v2 h1 h2 hne hid
    exact hne ((parseRows_encFresh toLower ListSensitiveConcepts rows (initIndex header) st h
      (encFresh_init header)).2 k1 k2 v1 v2 h1 h2 hid)
  · have := parseRows_IDConcepts toLower ListSensitiveConcepts rows (initIndex header) st h
    simpa [initIndex] using this

/-- Witness for C5: the loop on rows that repeat a concept path; the counter ends at 3. -/
theorem concept_table_last_write_wins_witness :
    ∃ st, ParseShrineOntology asciiToLower repeatedConceptSensitive [] repeatedConceptRows
        = some st ∧
      st.IDConcepts = (repeatedConceptRows.filter
        (isConceptRow asciiToLower repeatedConceptSensitive)).length :=
  let ⟨st, hst⟩ := parseRows_isSome asciiToLower repeatedConceptSensitive repeatedConceptRows
    (initIndex []) (bucketsNonempty_init []) (by decide)
  ⟨st, hst, (concept_table_last_write_wins asciiToLower repeatedConceptSensitive []
    repeatedConceptRows st hst).2.2⟩

/-- C4, as stated, fails: on the rows `\A\`, `\A\`, `\B\` (all sensitive concepts) the distinct
concept paths are `\A\` then `\B\`, yet `\A\` is stored with ID 1 and `\B\` with ID 2. -/
theorem concept_id_allocated_per_row_counterexample :
    distinctPaths (conceptPaths asciiToLower repeatedConceptSensitive repeatedConceptRows)
        = ["\\A\\".toList, "\\B\\".toList] ∧
      ((ParseShrineOntology asciiToLower repeatedConceptSensitive [] repeatedConceptRows).bind
        (fun st => (mapGet st.TableShrineOntologyEnc "\\A\\".toList).map
          (fun v => v.NodeEncryptID))) = some 1 ∧
      ((ParseShrineOntology asciiToLower repeatedConceptSensitive [] repeatedConceptRows).bind
        (fun st => (mapGet st.TableShrineOntologyEnc "\\B\\".toList).map
          (fun v => v.NodeEncryptID))) = some 2 := by
  decide

/-- C4, amended: when no two sensitive concept rows of the input share a path, the n-th distinct
path among the sensitive concept rows (counted from 1) is stored in the concept table with
`NodeEncryptID` n-1. -/
theorem concept_ids_dense_without_repeats (toLower : GoString → GoString)
    (ListSensitiveConcepts header : List GoString) (rows : List ShrineOntology) (st : Index)
    (h : ParseShrineOntology toLower ListSensitiveConcepts header rows = some st)
    (hnd : (conceptPaths toLower ListSensitiveConcepts rows).Nodup) (n : Nat) (P : GoString)
    (hn : (distinctPaths (conceptPaths toLower ListSensitiveConcepts rows))[n]? = some P) :
    ∃ v, mapGet st.TableShrineOntologyEnc P = some v ∧ v.NodeEncryptID = n ∧
      v.Fullname = P := by
  rw [distinctPaths_of_nodup _ hnd, conceptPaths, List.getElem?_map] at hn
  rcases hso : (rows.filter (isConceptRow toLower ListSensitiveConcepts))[n]? with _ | so
  · rw [hso] at hn
    cases hn
  · rw [hso] at hn
    simp only [Option.map_some', Option.some.injEq] at hn
    obtain ⟨pre, post, h1, h2, h3⟩ := filter_get_split _ rows n so hso
    subst h1
    have hpost : ∀ x ∈ post, isConceptRow toLower ListSensitiveConcepts x = true →
        x.Fullname ≠ so.Fullname := by
      intro x hx hc hname
      rw [conceptPaths, List.filter_append, List.filter_cons_of_pos h3, List.map_append,
        List.map_cons, List.nodup_append] at hnd
      have := (List.nodup_cons.1 hnd.2.1).1
      apply this
      rw [List.mem_map]
      exact ⟨x, List.mem_filter.2 ⟨hx, hc⟩, hname⟩
    have := parse_Enc_of_split toLower ListSensitiveConcepts header pre post so st h h3 hpost
    rw [hn, h2] at this
    exact ⟨_, this, rfl, hn⟩

/-- Witness for the amended C4: the sample rows have no repeated concept path. -/
theorem concept_ids_dense_without_repeats_witness :
    ∃ st, ParseShrineOntology asciiToLower sampleSensitive [] sampleRows = some st ∧
      ∃ v, mapGet st.TableShrineOntologyEnc "\\A\\B\\".toList = some v ∧ v.NodeEncryptID = 1 ∧
        v.Fullname = "\\A\\B\\".toList :=
  let ⟨st, hst⟩ := parseRows_isSome asciiToLower sampleSensitive sampleRows
    (initIndex []) (bucketsNonempty_init []) (by decide)
  ⟨st, hst, concept_ids_dense_without_repeats asciiToLower sampleSensitive [] sampleRows st hst
    (by decide) 1 "\\A\\B\\".toList (by decide)⟩

/-! ## Sensitive modifiers -/

theorem modifierPaths_append_singleton (toLower : GoString → GoString) (sens : List GoString)
    (rows : List ShrineOntology) (so : ShrineOntology) :
    modifierPaths toLower sens (rows ++ [so]) =
      if isModifierRow toLower sens so = true then modifierPaths toLower sens rows ++ [so.Fullname]
      else modifierPaths toLower sens rows := by
  unfold modifierPaths
  rw [List.filter_append]
  by_cases h : isModifierRow toLower sens so = true
  · rw [if_pos h, List.filter_cons_of_pos h, List.filter_nil, List.map_append]
    rfl
  · rw [if_neg h, List.filter_cons_of_neg h, List.filter_nil, List.append_nil]

theorem modifierRowsOf_append_singleton (toLower : GoString → GoString) (sens : List GoString)
    (rows : List ShrineOntology) (so : ShrineOntology) (P : GoString) :
    modifierRowsOf toLower sens (rows ++ [so]) P =
      if isModifierRow toLower sens so = true ∧ so.Fullname = P then
        modifierRowsOf toLower sens rows P ++ [so]
      else modifierRowsOf toLower sens rows P := by
  unfold modifierRowsOf
  rw [List.filter_append]
  by_cases h : isModifierRow toLower sens so = true ∧ so.Fullname = P
  · rw [if_pos h, List.filter_cons_of_pos (by simp [h.1, h.2]), List.filter_nil]
  · rw [if_neg h, List.filter_cons_of_neg (by simpa using h), List.filter_nil, List.append_nil]

theorem modifierRowsOf_eq_nil (toLower : GoString → GoString) (sens : List GoString)
    (rows : List ShrineOntology) (P : GoString) (h : P ∉ modifierPaths toLower sens rows) :
    modifierRowsOf toLower sens rows P = [] := by
  unfold modifierRowsOf
  rw [List.filter_eq_nil_iff]
  intro x hx hp
  simp only [Bool.and_eq_true, decide_eq_true_eq] at hp
  apply h
  unfold modifierPaths
  rw [List.mem_map]
  exact ⟨x, List.mem_filter.2 ⟨hx, hp.1⟩, hp.2⟩

theorem modifierSpec_unchanged (toLower : GoString → GoString) (sens : List GoString)
    (rows : List ShrineOntology) (so : ShrineOntology) (st st' : Index)
    (hso : ¬ isModifierRow toLower sens so = true)
    (hid : st'.IDModifiers = st.IDModifiers)
    (htab : st'.TableShrineOntologyModifierEnc = st.TableShrineOntologyModifierEnc)
    (h : ModifierSpec toLower sens rows st) : ModifierSpec toLower sens (rows ++ [so]) st' := by
  obtain ⟨h1, h2, h3⟩ := h
  refine ⟨?_, ?_, ?_⟩
  · rw [htab, modifierPaths_append_singleton, if_neg hso, h1]
  · rw [htab, hid, h2]
  · intro n P hn
    rw [htab] at hn ⊢
    rw [modifierRowsOf_append_singleton, if_neg (fun h' => hso h'.1)]
    exact h3 n P hn

theorem parseRow_modifierSpec (toLower : GoString → GoString) (sens : List GoString)
    (rows : List ShrineOntology) (st st' : Index) (so : ShrineOntology)
    (hstep : parseRow toLower sens st so = some st')
    (h : ModifierSpec toLower sens rows st) : ModifierSpec toLower sens (rows ++ [so]) st' := by
  rcases parseRow_cases toLower sens st st' so hstep with
    ⟨hs, rfl⟩ | ⟨hc, rfl⟩ | ⟨hm, hg, rfl⟩ | ⟨hm, v0, vs, hg, rfl⟩
  · exact modifierSpec_unchanged toLower sens rows so st _
      (fun h' => hs ((isModifierRow_iff _ _ _).1 h').1) rfl rfl h
  · exact modifierSpec_unchanged toLower sens rows so st _
      (fun h' => not_concept_and_modifier toLower sens so hc h') rfl rfl h
  · obtain ⟨h1, h2, h3⟩ := h
    have hk : so.Fullname ∉ mapKeys st.TableShrineOntologyModifierEnc :=
      (mapGet_eq_none_iff _ _).1 hg
    have hk' : so.Fullname ∉ modifierPaths toLower sens rows := by
      rw [← mem_distinctPaths, ← h1]
      exact hk
    have hkeys : mapKeys (mapSet st.TableShrineOntologyModifierEnc so.Fullname
        [stamp so st.IDModifiers]) = mapKeys st.TableShrineOntologyModifierEnc ++ [so.Fullname] := by
      rw [mapKeys_mapSet, if_neg hk]
    refine ⟨?_, ?_, ?_⟩
    · show mapKeys (mapSet _ _ _) = _
      rw [hkeys, modifierPaths_append_singleton, if_pos hm, distinctPaths_append_singleton,
        if_neg hk', h1]
    · show st.IDModifiers + 1 = (mapKeys (mapSet _ _ _)).length
      rw [hkeys, List.length_append, List.length_singleton, h2]
    · intro n P hn
      change (mapKeys (mapSet _ _ _))[n]? = some P at hn
      show mapGet (mapSet _ _ _) P = _
      rw [hkeys, List.getElem?_append] at hn
      split at hn
      · have hPk : P ∈ mapKeys st.TableShrineOntologyModifierEnc :=
          List.mem_iff_getElem?.2 ⟨n, hn⟩
        have hne : so.Fullname ≠ P := fun h' => hk (h' ▸ hPk)
        rw [mapGet_mapSet_ne _ _ _ _ hne, modifierRowsOf_append_singleton,
          if_neg (fun h' => hne h'.2)]
        exact h3 n P hn
      · rename_i hlt
        have hn0 : n - (mapKeys st.TableShrineOntologyModifierEnc).length = 0 := by
          by_contra hne
          obtain ⟨m, hm'⟩ := Nat.exists_eq_succ_of_ne_zero hne
          rw [hm'] at hn
          simp at hn
        rw [hn0] at hn
        simp only [List.getElem?_cons_zero, Option.some.injEq] at hn
        subst hn
        have hneq : n = st.IDModifiers := by omega
        rw [mapGet_mapSet_same, modifierRowsOf_append_singleton, if_pos ⟨hm, rfl⟩,
          modifierRowsOf_eq_nil toLower sens rows _ hk', hneq]
        rfl
  · obtain ⟨h1, h2, h3⟩ := h
    have hk : so.Fullname ∈ mapKeys st.TableShrineOntologyModifierEnc :=
      (mem_mapKeys_iff _ _).2 ⟨_, hg⟩
    have hk' : so.Fullname ∈ modifierPaths toLower sens rows := by
      rw [← mem_distinctPaths, ← h1]
      exact hk
    have hnd : (mapKeys st.TableShrineOntologyModifierEnc).Nodup := by
      rw [h1]
      exact nodup_distinctPaths _
    have hkeys : mapKeys (mapSet st.TableShrineOntologyModifierEnc so.Fullname
        ((v0 :: vs) ++ [stamp so v0.NodeEncryptID])) =
        mapKeys st.TableShrineOntologyModifierEnc := by
      rw [mapKeys_mapSet, if_pos hk]
    obtain ⟨n0, hn0⟩ := List.getElem?_of_mem hk
    have hb := h3 n0 so.Fullname hn0
    rw [hg] at hb
    have hb' := Option.some.inj hb
    have hv0 : v0.NodeEncryptID = n0 := by
      cases hrows : modifierRowsOf toLower sens rows so.Fullname with
      | nil =>
        rw [hrows] at hb'
        cases hb'
      | cons x xs =>
        rw [hrows, List.map_cons] at hb'
        have := (List.cons.inj hb').1
        rw [this]
        rfl
    refine ⟨?_, ?_, ?_⟩
    · show mapKeys (mapSet _ _ _) = _
      rw [hkeys, modifierPaths_append_singleton, if_pos hm, distinctPaths_append_singleton,
        if_pos hk', h1]
    · show st.IDModifiers = (mapKeys (mapSet _ _ _)).length
      rw [hkeys, h2]
    · intro n P hn
      change (mapKeys (mapSet _ _ _))[n]? = some P at hn
      show mapGet (mapSet _ _ _) P = _
      rw [hkeys] at hn
      by_cases hP : so.Fullname = P
      · subst hP
        have hnn : n0 = n := by
          have hlt : n0 < (mapKeys st.TableShrineOntologyModifierEnc).length :=
            (List.getElem?_eq_some.1 hn0).1
          exact List.getElem?_inj hlt hnd (hn0.trans hn.symm)
        subst hnn
        rw [mapGet_mapSet_same, modifierRowsOf_append_singleton, if_pos ⟨hm, rfl⟩,
          List.map_append, hb', hv0]
        rfl
      · rw [mapGet_mapSet_ne _ _ _ _ hP, modifierRowsOf_append_singleton,
          if_neg (fun h' => hP h'.2)]
        exact h3 n P hn

theorem parseRows_snoc (toLower : GoString → GoString) (sens : List GoString)
    (rows : List ShrineOntology) (so : ShrineOntology) (st st' : Index)
    (h : parseRows toLower sens st (rows ++ [so]) = some st') :
    ∃ st1, parseRows toLower sens st rows = some st1 ∧
      parseRow toLower sens st1 so = some st' := by
  rw [parseRows_append] at h
  rcases h1 : parseRows toLower sens st rows with _ | st1
  · rw [h1] at h
    cases h
  · rw [h1, Option.some_bind, parseRows_cons] at h
    refine ⟨st1, rfl, ?_⟩
    rcases h2 : parseRow toLower sens st1 so with _ | st2
    · rw [h2] at h
      cases h
    · rw [h2] at h
      exact h

/-- The modifier table after a completed run, in terms of the input rows. -/
theorem parse_modifierSpec (toLower : GoString → GoString) (sens header : List GoString)
    (rows : List ShrineOntology) (st : Index)
    (h : ParseShrineOntology toLower sens header rows = some st) :
    ModifierSpec toLower sens rows st := by
  unfold ParseShrineOntology at h
  induction rows using List.reverseRecOn generalizing st with
  | nil =>
    cases h
    refine ⟨rfl, rfl, ?_⟩
    intro n P hn
    simp [initIndex, mapKeys] at hn
  | append_singleton rows so ih =>
    obtain ⟨st1, h1, h2⟩ := parseRows_snoc toLower sens rows so _ st h
    exact parseRow_modifierSpec toLower sens rows st1 st so h2 (ih st1 h1)

theorem modifierRowsOf_ne_nil (toLower : GoString → GoString) (sens : List GoString)
    (rows : List ShrineOntology) (P : GoString) (h : P ∈ modifierPaths toLower sens rows) :
    modifierRowsOf toLower sens rows P ≠ [] := by
  unfold modifierPaths at h
  rw [List.mem_map] at h
  obtain ⟨x, hx, hn⟩ := h
  rw [List.mem_filter] at hx
  intro hnil
  have : x ∈ modifierRowsOf toLower sens rows P := by
    unfold modifierRowsOf
    rw [List.mem_filter]
    exact ⟨hx.1, by simp [hx.2, hn]⟩
  rw [hnil] at this
  cases this

/-- C2: after a completed run of the classification loop, the n-th distinct path met among the
sensitive modifier rows (n from 1, in input order) has a non-empty bucket whose rows all carry
`NodeEncryptID` n-1, whatever other rows are interleaved; the final `IDModifiers` is the number
of keys of the modifier table; rows filed under two different modifier paths never share an
ID. -/
theorem modifier_ids_dense (toLower : GoString → GoString)
    (ListSensitiveConcepts header : List GoString) (rows : List ShrineOntology) (st : Index)
    (h : ParseShrineOntology toLower ListSensitiveConcepts header rows = some st) :
    (∀ n P, (distinctPaths (modifierPaths toLower ListSensitiveConcepts rows))[n]? = some P →
      ∃ b, mapGet st.TableShrineOntologyModifierEnc P = some b ∧ b ≠ [] ∧
        ∀ v ∈ b, v.NodeEncryptID = n) ∧
    st.IDModifiers = (mapKeys st.TableShrineOntologyModifierEnc).length ∧
    (∀ P Q b c v w, mapGet st.TableShrineOntologyModifierEnc P = some b →
      mapGet st.TableShrineOntologyModifierEnc Q = some c → v ∈ b → w ∈ c → P ≠ Q →
      v.NodeEncryptID ≠ w.NodeEncryptID) := by
  obtain ⟨h1, h2, h3⟩ := parse_modifierSpec toLower ListSensitiveConcepts header rows st h
  have hid : ∀ n P b v, (mapKeys st.TableShrineOntologyModifierEnc)[n]? = some P →
      mapGet st.TableShrineOntologyModifierEnc P = some b → v ∈ b → v.NodeEncryptID = n := by
    intro n P b v hn hb hv
    rw [h3 n P hn] at hb
    cases hb
    rw [List.mem_map] at hv
    obtain ⟨x, _, rfl⟩ := hv
    rfl
  refine ⟨?_, h2, ?_⟩
  · intro n P hn
    rw [← h1] at hn
    refine ⟨_, h3 n P hn, ?_, fun v hv => hid n P _ v hn (h3 n P hn) hv⟩
    have hP : P ∈ modifierPaths toLower ListSensitiveConcepts rows := by
      rw [← mem_distinctPaths, ← h1]
      exact List.mem_iff_getElem?.2 ⟨n, hn⟩
    intro hnil
    rw [List.map_eq_nil_iff] at hnil
    exact modifierRowsOf_ne_nil toLower ListSensitiveConcepts rows P hP hnil
  · intro P Q b c v w hb hc hv hw hne hideq
    obtain ⟨n, hn⟩ := List.getElem?_of_mem ((mem_mapKeys_iff _ _).2 ⟨b, hb⟩)
    obtain ⟨m, hm⟩ := List.getElem?_of_mem ((mem_mapKeys_iff _ _).2 ⟨c, hc⟩)
    have e1 := hid n P b v hn hb hv
    have e2 := hid m Q c w hm hc hw
    have : n = m := by omega
    subst this
    rw [hn] at hm
    exact hne (Option.some.inj hm)

/-- Witness for C2: on the sample rows the modifier counter ends at the number of keys. -/
theorem modifier_ids_dense_witness :
    ∃ st, ParseShrineOntology asciiToLower sampleSensitive [] sampleRows = some st ∧
      st.IDModifiers = (mapKeys st.TableShrineOntologyModifierEnc).length :=
  let ⟨st, hst⟩ := parseRows_isSome asciiToLower sampleSensitive sampleRows
    (initIndex []) (bucketsNonempty_init []) (by decide)
  ⟨st, hst, (modifier_ids_dense asciiToLower sampleSensitive [] sampleRows st hst).2.1⟩

/-- C3: after a completed run of the classification loop, the bucket of every path `P` in the
modifier table holds exactly the sensitive modifier rows of the input whose `Fullname` is `P`,
in input order (each stamped with the bucket's ID, which is the rank of `P` among the distinct
modifier paths); a path without such rows has no bucket; the bucket size is the number of such
rows; and every row of a bucket carries the `NodeEncryptID` of the bucket's first row. -/
theorem modifier_bucket_contents (toLower : GoString → GoString)
    (ListSensitiveConcepts header : List GoString) (rows : List ShrineOntology) (st : Index)
    (h : ParseShrineOntology toLower ListSensitiveConcepts header rows = some st) :
    (∀ n P, (distinctPaths (modifierPaths toLower ListSensitiveConcepts rows))[n]? = some P →
      bucketOf st.TableShrineOntologyModifierEnc P =
        (modifierRowsOf toLower ListSensitiveConcepts rows P).map (fun so => stamp so n)) ∧
    (∀ P, P ∉ modifierPaths toLower ListSensitiveConcepts rows →
      mapGet st.TableShrineOntologyModifierEnc P = none) ∧
    (∀ P, (bucketOf st.TableShrineOntologyModifierEnc P).length =
      (modifierRowsOf toLower ListSensitiveConcepts rows P).length) ∧
    (∀ P v v0, v ∈ bucketOf st.TableShrineOntologyModifierEnc P →
      (bucketOf st.TableShrineOntologyModifierEnc P).head? = some v0 →
      v.NodeEncryptID = v0.NodeEncryptID) := by
  obtain ⟨h1, h2, h3⟩ := parse_modifierSpec toLower ListSensitiveConcepts header rows st h
  have hnone : ∀ P, P ∉ modifierPaths toLower ListSensitiveConcepts rows →
      mapGet st.TableShrineOntologyModifierEnc P = none := by
    intro P hP
    rw [mapGet_eq_none_iff, h1, mem_distinctPaths]
    exact hP
  have hall : ∀ P, ∃ n, bucketOf st.TableShrineOntologyModifierEnc P =
      (modifierRowsOf toLower ListSensitiveConcepts rows P).map (fun so => stamp so n) := by
    intro P
    by_cases hP : P ∈ modifierPaths toLower ListSensitiveConcepts rows
    · rw [← mem_distinctPaths, ← h1] at hP
      obtain ⟨n, hn⟩ := List.getElem?_of_mem hP
      exact ⟨n, by rw [bucketOf, h3 n P hn]; rfl⟩
    · refine ⟨0, ?_⟩
      rw [bucketOf, hnone P hP, modifierRowsOf_eq_nil _ _ _ _ hP]
      rfl
  refine ⟨?_, hnone, ?_, ?_⟩
  · intro n P hn
    rw [← h1] at hn
    rw [bucketOf, h3 n P hn]
    rfl
  · intro P
    obtain ⟨n, hn⟩ := hall P
    rw [hn, List.length_map]
  · intro P v v0 hv hv0
    obtain ⟨n, hn⟩ := hall P
    rw [hn] at hv hv0
    rw [List.mem_map] at hv
    obtain ⟨x, _, rfl⟩ := hv
    have hv0' := List.mem_of_mem_head? hv0
    rw [List.mem_map] at hv0'
    obtain ⟨y, _, rfl⟩ := hv0'
    rfl

/-- Witness for C3: two rows of the modifier path `\M\` both receive ID 0 and make up one
bucket of size 2, in input order. -/
theorem modifier_bucket_contents_witness :
    ∃ st, ParseShrineOntology asciiToLower ["\\M\\".toList] [] twoModifierRows = some st ∧
      bucketOf st.TableShrineOntologyModifierEnc "\\M\\".toList =
        [stamp (mkRow "\\M\\" "modifier_cd") 0,
         stamp { mkRow "\\M\\" "modifier_cd" with Tooltip := "second".toList } 0] ∧
      (bucketOf st.TableShrineOntologyModifierEnc "\\M\\".toList).length = 2 :=
  let ⟨st, hst⟩ := parseRows_isSome asciiToLower ["\\M\\".toList] twoModifierRows
    (initIndex []) (bucketsNonempty_init []) (by decide)
  have hb := (modifier_bucket_contents asciiToLower ["\\M\\".toList] [] twoModifierRows st
    hst).1 0 "\\M\\".toList (by decide)
  ⟨st, hst, hb.trans (by decide), by rw [hb]; decide⟩

/-! ## Strings -/

theorem Split_ne_nil (s : GoString) (d : Char) : Split s d ≠ [] := by
  induction s with
  | nil => simp [Split]
  | cons c s ih =>
    rw [Split]
    split
    · exact List.cons_ne_nil _ _
    · split <;> exact List.cons_ne_nil _ _

theorem Split_cons_ne (c d : Char) (s : GoString) (seg : GoString) (rest : List GoString)
    (h : c ≠ d) (hs : Split s d = seg :: rest) : Split (c :: s) d = (c :: seg) :: rest := by
  rw [Split, if_neg h, hs]

theorem Split_cons_eq (d : Char) (s : GoString) : Split (d :: s) d = [] :: Split s d := by
  rw [Split, if_pos rfl]

theorem Join_cons_cons (a b : GoString) (rest : List GoString) (sep : GoString) :
    Join (a :: b :: rest) sep = a ++ sep ++ Join (b :: rest) sep := rfl

theorem Join_head_cons (c : Char) (a : GoString) (rest : List GoString) (sep : GoString) :
    Join ((c :: a) :: rest) sep = c :: Join (a :: rest) sep := by
  cases rest with
  | nil => rfl
  | cons b rest => simp [Join]

/-- Joining the pieces of a split gives the string back. -/
theorem Join_Split (s : GoString) (d : Char) : Join (Split s d) [d] = s := by
  induction s with
  | nil => rfl
  | cons c s ih =>
    by_cases h : c = d
    · subst h
      rw [Split_cons_eq]
      rcases hs : Split s c with _ | ⟨x, xs⟩
      · exact absurd hs (Split_ne_nil s c)
      · rw [Join_cons_cons, ← hs, ih]
        rfl
    · rcases hs : Split s d with _ | ⟨x, xs⟩
      · exact absurd hs (Split_ne_nil s d)
      · rw [Split_cons_ne c d s x xs h hs, Join_head_cons, ← hs, ih]

/-- Splitting a string that has a delimiter in the middle. -/
theorem Split_append_delim (a b : GoString) (d : Char) :
    Split (a ++ d :: b) d = Split a d ++ Split b d := by
  induction a with
  | nil =>
    rw [List.nil_append, Split_cons_eq]
    rfl
  | cons c a ih =>
    rw [List.cons_append]
    by_cases h : c = d
    · subst h
      rw [Split_cons_eq, Split_cons_eq, ih, List.cons_append]
    · rcases hs : Split a d with _ | ⟨x, xs⟩
      · exact absurd hs (Split_ne_nil a d)
      · rw [Split_cons_ne c d a x xs h hs,
          Split_cons_ne c d (a ++ d :: b) x (xs ++ Split b d) h (by rw [ih, hs, List.cons_append]),
          List.cons_append]

theorem Join_append (l1 l2 : List GoString) (sep : GoString) (h1 : l1 ≠ []) (h2 : l2 ≠ []) :
    Join (l1 ++ l2) sep = Join l1 sep ++ sep ++ Join l2 sep := by
  induction l1 with
  | nil => exact absurd rfl h1
  | cons a l1 ih =>
    cases l1 with
    | nil =>
      cases l2 with
      | nil => exact absurd rfl h2
      | cons b l2 => rfl
    | cons a' l1 =>
      rw [List.cons_append, List.cons_append, Join_cons_cons, Join_cons_cons,
        ← List.cons_append, ih (List.cons_ne_nil _ _)]
      simp only [List.append_assoc]

theorem goSlice_strip (c1 c2 : Char) (mid : GoString) :
    goSlice (c1 :: (mid ++ [c2])) 1 (((c1 :: (mid ++ [c2])).length : Int) - 1) = some mid := by
  have hlen : (((c1 :: (mid ++ [c2])).length : Int) - 1) = ((mid.length + 1 : Nat) : Int) := by
    simp
  rw [goSlice, hlen, if_pos]
  · simp only [Int.toNat_ofNat, Int.toNat_one]
    rw [List.take_succ_cons, List.drop_succ_cons, List.drop_zero, List.take_left' rfl]
  · refine ⟨by decide, ?_, ?_⟩
    · omega
    · simp

theorem wellFormedPath_iff (s : GoString) :
    WellFormedPath s ↔ ∃ mid, s = delim :: (mid ++ [delim]) := by
  constructor
  · rintro ⟨h1, h2, h3⟩
    cases s with
    | nil => simp at h1
    | cons c s =>
      simp only [List.head?_cons, Option.some.injEq] at h2
      subst h2
      have hs : s ≠ [] := by
        intro h'
        subst h'
        simp at h1
      obtain ⟨b, s', rfl⟩ := List.exists_cons_of_ne_nil hs
      rw [List.getLast?_cons_cons, List.getLast?_eq_getLast _ hs, Option.some.injEq] at h3
      refine ⟨(b :: s').dropLast, ?_⟩
      rw [← h3, List.dropLast_append_getLast hs]
  · rintro ⟨mid, rfl⟩
    refine ⟨by simp, rfl, ?_⟩
    rw [← List.cons_append, List.getLast?_append]
    rfl

/-! ## The upward walk for concepts -/

theorem ancestorKey_take (pc : List GoString) (n j : Nat) (h : j ≤ n) :
    ancestorKey (pc.take n) j = ancestorKey pc j := by
  unfold ancestorKey
  rw [List.take_take, Nat.min_eq_left h]

theorem hitsUpTo_take (pc : List GoString) (k : GoString) (n m : Nat) (h : m ≤ n) :
    hitsUpTo (pc.take n) k m = hitsUpTo pc k m := by
  induction m with
  | zero => rfl
  | succ m ih =>
    rw [hitsUpTo, hitsUpTo, ih (Nat.le_of_succ_le h), ancestorKey_take pc n m (Nat.le_of_succ_le h)]

theorem hitsUpTo_pos_iff (pc : List GoString) (k : GoString) (n : Nat) :
    0 < hitsUpTo pc k n ↔ ∃ j, j < n ∧ ancestorKey pc j = k := by
  induction n with
  | zero => simp [hitsUpTo]
  | succ n ih =>
    rw [hitsUpTo]
    constructor
    · intro h
      by_cases hk : ancestorKey pc n = k
      · exact ⟨n, Nat.lt_succ_self n, hk⟩
      · rw [if_neg hk, Nat.add_zero] at h
        obtain ⟨j, hj, hjk⟩ := ih.1 h
        exact ⟨j, Nat.lt_succ_of_lt hj, hjk⟩
    · rintro ⟨j, hj, hjk⟩
      by_cases hjn : j = n
      · subst hjn
        rw [if_pos hjk]
        omega
      · have : 0 < hitsUpTo pc k n := ih.2 ⟨j, by omega, hjk⟩
        omega

theorem addChildren_appendChild (val : ShrineOntology) (id c : Nat) :
    addChildren (appendChild val id) (List.replicate c id) =
      addChildren val (List.replicate (c + 1) id) := by
  simp only [addChildren, appendChild, List.append_assoc, List.replicate_succ,
    List.singleton_append]

theorem addChildren_nil (val : ShrineOntology) : addChildren val [] = val := by
  simp [addChildren]

theorem addChildren_addChildren (val : ShrineOntology) (a b : List Nat) :
    addChildren (addChildren val a) b = addChildren val (a ++ b) := by
  simp [addChildren]

/-- The table after the upward walk of a node: the node filed under `k` has the walking node's
ID appended once for each time the walk probed `k`; nothing else changes. -/
theorem walkConcepts_get (id : Nat) (n : Nat) (pc : List GoString) (tbl : GoMap ShrineOntology)
    (hn : pc.length = n) (k : GoString) :
    mapGet (walkConcepts id n pc tbl) k =
      (mapGet tbl k).map (fun v => addChildren v (List.replicate (hitsUpTo pc k n) id)) := by
  induction n generalizing pc tbl with
  | zero =>
    simp only [walkConcepts, hitsUpTo, List.replicate_zero, addChildren_nil]
    exact Option.map_id'.symm
  | succ n ih =>
    have hpos : pc.length > 0 := by omega
    have hlen : (pc.take (pc.length - 1)).length = n := by
      rw [List.length_take]
      omega
    have hkey : [delim] ++ Join (pc.take (pc.length - 1)) [delim] ++ [delim]
        = ancestorKey pc n := by
      rw [hn]
      rfl
    have hhit : hitsUpTo (pc.take (pc.length - 1)) k n = hitsUpTo pc k n := by
      rw [hn]
      exact hitsUpTo_take pc k n n (Nat.le_refl n)
    rw [walkConcepts, if_pos hpos]
    simp only [hkey]
    rcases hg : mapGet tbl (ancestorKey pc n) with _ | val
    · simp only
      rw [ih _ tbl hlen, hhit, hitsUpTo]
      by_cases hk : ancestorKey pc n = k
      · rw [← hk, hg]
        rfl
      · rw [if_neg hk, Nat.add_zero]
    · simp only
      rw [ih _ _ hlen, hhit, hitsUpTo, mapGet_mapSet]
      by_cases hk : ancestorKey pc n = k
      · rw [if_pos hk, if_pos hk, ← hk, hg]
        simp only [Option.map_some', addChildren_appendChild]
      · rw [if_neg hk, if_neg hk, Nat.add_zero]

theorem addedChildren_congr (tbl tbl1 : GoMap ShrineOntology) (order : List GoString)
    (k : GoString)
    (h : ∀ q, ∃ extra, mapGet tbl1 q = (mapGet tbl q).map (fun v => addChildren v extra)) :
    addedChildren tbl1 order k = addedChildren tbl order k := by
  induction order with
  | nil => rfl
  | cons q order ih =>
    rw [addedChildren, addedChildren, ih]
    congr 1
    obtain ⟨extra, hf⟩ := h q
    rw [hf]
    cases mapGet tbl q <;> rfl

/-- The concept table after the loop over `order`: the node filed under `k` has the IDs
`addedChildren tbl order k` appended, and nothing else changes. -/
theorem linkConcepts_get (order : List GoString) (tbl tbl' : GoMap ShrineOntology)
    (h : linkConcepts order tbl = some tbl') (k : GoString) :
    mapGet tbl' k = (mapGet tbl k).map (fun v => addChildren v (addedChildren tbl order k)) := by
  induction order generalizing tbl with
  | nil =>
    cases h
    simp only [addedChildren, addChildren_nil]
    exact Option.map_id'.symm
  | cons q order ih =>
    rw [linkConcepts] at h
    rcases hq : mapGet tbl q with _ | so
    · rw [hq] at h
      simp only at h
      rw [ih tbl h, addedChildren, hq]
      rfl
    · rw [hq] at h
      simp only at h
      rcases hsl : goSlice so.Fullname 1 ((so.Fullname.length : Int) - 1) with _ | path
      · rw [hsl] at h
        cases h
      · rw [hsl] at h
        simp only at h
        have hseg : segmentsOf so.Fullname = Split path delim := by
          rw [segmentsOf, hsl]
          rfl
        rw [ih _ h, walkConcepts_get _ _ _ _ rfl, addedChildren, hq]
        simp only [hseg]
        rw [addedChildren_congr tbl _ order k (fun q' =>
          ⟨List.replicate (hitsUpTo (Split path delim) q' (Split path delim).length)
            so.NodeEncryptID, walkConcepts_get _ _ _ _ rfl q'⟩)]
        cases mapGet tbl k with
        | none => rfl
        | some v => simp only [Option.map_some', addChildren_addChildren]

theorem mem_addedChildren (tbl : GoMap ShrineOntology) (order : List GoString) (k : GoString)
    (id : Nat) :
    id ∈ addedChildren tbl order k ↔ ∃ q ∈ order, ∃ so, mapGet tbl q = some so ∧
      so.NodeEncryptID = id ∧
      0 < hitsUpTo (segmentsOf so.Fullname) k (segmentsOf so.Fullname).length := by
  induction order with
  | nil => simp [addedChildren]
  | cons q order ih =>
    rw [addedChildren, List.mem_append, ih, List.exists_mem_cons_iff]
    apply or_congr_left
    rcases hq : mapGet tbl q with _ | so
    · simp
    · simp only [List.mem_replicate, Option.some.injEq, exists_eq_left']
      constructor
      · rintro ⟨h1, h2⟩
        exact ⟨h2.symm, Nat.pos_of_ne_zero h1⟩
      · rintro ⟨h1, h2⟩
        exact ⟨Nat.pos_iff_ne_zero.1 h2, h1.symm⟩

theorem goSlice_strip_isSome (s : GoString) (h : 2 ≤ s.length) :
    ∃ path, goSlice s 1 ((s.length : Int) - 1) = some path := by
  rw [goSlice, if_pos]
  · exact ⟨_, rfl⟩
  · refine ⟨by decide, ?_, ?_⟩ <;> omega

/-- The concept loop runs to completion when every node of the table has a path of length at
least 2. -/
theorem linkConcepts_isSome (order : List GoString) (tbl : GoMap ShrineOntology)
    (hlen : ∀ k v, mapGet tbl k = some v → 2 ≤ v.Fullname.length) :
    ∃ tbl', linkConcepts order tbl = some tbl' := by
  induction order generalizing tbl with
  | nil => exact ⟨tbl, rfl⟩
  | cons q order ih =>
    rw [linkConcepts]
    rcases hq : mapGet tbl q with _ | so
    · exact ih tbl hlen
    · obtain ⟨path, hp⟩ := goSlice_strip_isSome so.Fullname (hlen q so hq)
      simp only [hp]
      apply ih
      intro k v hv
      rw [walkConcepts_get _ _ _ _ rfl] at hv
      rcases hk : mapGet tbl k with _ | v0
      · rw [hk] at hv
        cases hv
      · rw [hk] at hv
        cases hv
        exact hlen k v0 hk

theorem ancestorKey_zero (pc : List GoString) : ancestorKey pc 0 = rootKey := rfl

/-- With between one and all-but-one segments left, the probed key is a proper initial part of
the wrapped path. -/
theorem ancestorKey_strict (pc : List GoString) (j : Nat) (h1 : 1 ≤ j) (h2 : j < pc.length) :
    ∃ t, t ≠ [] ∧ [delim] ++ Join pc [delim] ++ [delim] = ancestorKey pc j ++ t := by
  have ht : pc.take j ≠ [] := by
    intro h
    rw [List.take_eq_nil_iff] at h
    rcases h with h | h
    · omega
    · rw [h] at h2
      simp at h2
  have hd : pc.drop j ≠ [] := by
    intro h
    rw [List.drop_eq_nil_iff] at h
    omega
  refine ⟨Join (pc.drop j) [delim] ++ [delim], by simp, ?_⟩
  have := Join_append (pc.take j) (pc.drop j) [delim] ht hd
  rw [List.take_append_drop] at this
  rw [this, ancestorKey]
  simp only [List.append_assoc]

theorem segmentsOf_wrap (mid : GoString) :
    segmentsOf (delim :: (mid ++ [delim])) = Split mid delim := by
  rw [segmentsOf, goSlice_strip]
  rfl

/-- The walk of a well-formed path probes each of its well-formed proper initial parts. -/
theorem ancestor_probed (P Q : GoString) (hP : WellFormedPath P) (hQ : WellFormedPath Q)
    (hpre : P <+: Q) (hne : P ≠ Q) :
    0 < hitsUpTo (segmentsOf Q) P (segmentsOf Q).length := by
  obtain ⟨p, rfl⟩ := (wellFormedPath_iff P).1 hP
  obtain ⟨mq, rfl⟩ := (wellFormedPath_iff Q).1 hQ
  obtain ⟨t, ht⟩ := hpre
  have htne : t ≠ [] := by
    intro h
    rw [h, List.append_nil] at ht
    exact hne ht
  rw [List.cons_append, List.cons.injEq] at ht
  have ht2 := ht.2
  rw [← List.dropLast_append_getLast htne, ← List.append_assoc] at ht2
  have hlast := List.append_inj' ht2 rfl
  have hmq : mq = p ++ delim :: t.dropLast := by
    rw [← hlast.1]
    simp
  rw [segmentsOf_wrap, hitsUpTo_pos_iff, hmq, Split_append_delim]
  refine ⟨(Split p delim).length, ?_, ?_⟩
  · rw [List.length_append]
    have := List.length_pos.2 (Split_ne_nil t.dropLast delim)
    omega
  · rw [ancestorKey, List.take_left' rfl, Join_Split]
    rfl

theorem UpdateChildrenEncryptIDs_Enc (orderEnc orderModifierEnc : List GoString)
    (st st' : Index) (enc : GoMap ShrineOntology)
    (hl : linkConcepts orderEnc st.TableShrineOntologyEnc = some enc)
    (h : UpdateChildrenEncryptIDs orderEnc orderModifierEnc st = some st') :
    st'.TableShrineOntologyEnc = enc := by
  rw [UpdateChildrenEncryptIDs, hl] at h
  simp only at h
  rcases hm : linkModifiers orderModifierEnc st.TableShrineOntologyModifierEnc with _ | m
  · rw [hm] at h
    cases h
  · rw [hm] at h
    cases h
    rfl

theorem parse_encFresh (toLower : GoString → GoString) (sens header : List GoString)
    (rows : List ShrineOntology) (st : Index)
    (h : ParseShrineOntology toLower sens header rows = some st) : EncFresh st :=
  parseRows_encFresh toLower sens rows (initIndex header) st h (encFresh_init header)

/-- The upward walk for a non-empty bucket never panics. -/
theorem walkModifiers_isSome (soArr : List ShrineOntology) (hs : soArr ≠ []) (n : Nat)
    (pc : List GoString) (tbl : GoMap (List ShrineOntology)) (h : ModifierBucketsSound tbl) :
    ∃ tbl', walkModifiers soArr n pc tbl = some tbl' ∧ ModifierBucketsSound tbl' := by
  induction n generalizing pc tbl with
  | zero => exact ⟨tbl, rfl, h⟩
  | succ n ih =>
    rw [walkModifiers]
    by_cases hpos : pc.length > 0
    · rw [if_pos hpos]
      simp only
      rcases hg : mapGet tbl ([delim] ++ Join (pc.take (pc.length - 1)) [delim] ++ [delim])
        with _ | b
      · exact ih _ tbl h
      · cases b with
        | nil => exact ih _ tbl h
        | cons el val =>
          obtain ⟨so0, rest, rfl⟩ := List.exists_cons_of_ne_nil hs
          simp only
          apply ih
          intro k b hb
          rw [mapGet_mapSet] at hb
          split at hb
          · rename_i hk
            cases hb
            exact ⟨by simp, hk ▸ (h _ _ hg).2⟩
          · exact h k b hb
    · rw [if_neg hpos]
      exact ⟨tbl, rfl, h⟩

/-- The modifier loop runs to completion on a table of non-empty buckets whose keys have
length at least 2. -/
theorem linkModifiers_isSome (order : List GoString) (tbl : GoMap (List ShrineOntology))
    (h : ModifierBucketsSound tbl) : ∃ tbl', linkModifiers order tbl = some tbl' := by
  induction order generalizing tbl with
  | nil => exact ⟨tbl, rfl⟩
  | cons q order ih =>
    rw [linkModifiers]
    rcases hq : mapGet tbl q with _ | soArr
    · exact ih tbl h
    · obtain ⟨path, hp⟩ := goSlice_strip_isSome q (h q soArr hq).2
      obtain ⟨tbl1, h1, h2⟩ := walkModifiers_isSome soArr (h q soArr hq).1
        (Split path delim).length (Split path delim) tbl h
      simp only [hp, h1]
      exact ih tbl1 h2

/-- `UpdateChildrenEncryptIDs` runs to completion on a freshly parsed index in which the keys
of both sensitive tables have length at least 2. -/
theorem UpdateChildrenEncryptIDs_isSome (toLower : GoString → GoString)
    (sens header : List GoString) (rows : List ShrineOntology) (st : Index)
    (orderEnc orderModifierEnc : List GoString)
    (hparse : ParseShrineOntology toLower sens header rows = some st)
    (hc : ∀ k ∈ mapKeys st.TableShrineOntologyEnc, 2 ≤ k.length)
    (hm : ∀ k ∈ mapKeys st.TableShrineOntologyModifierEnc, 2 ≤ k.length) :
    ∃ st', UpdateChildrenEncryptIDs orderEnc orderModifierEnc st = some st' := by
  have hf := parse_encFresh toLower sens header rows st hparse
  obtain ⟨enc, henc⟩ := linkConcepts_isSome orderEnc st.TableShrineOntologyEnc (by
    intro k v hv
    rw [(hf.1 k v hv).1]
    exact hc k ((mem_mapKeys_iff _ _).2 ⟨v, hv⟩))
  have hb := parseRows_bucketsNonempty toLower sens rows (initIndex header) st hparse
    (bucketsNonempty_init header)
  obtain ⟨m, hmod⟩ := linkModifiers_isSome orderModifierEnc st.TableShrineOntologyModifierEnc
    (fun k b hkb => ⟨hb k b hkb, hm k ((mem_mapKeys_iff _ _).2 ⟨b, hkb⟩)⟩)
  exact ⟨_, by rw [UpdateChildrenEncryptIDs, henc, hmod]⟩

theorem encFresh_length (st : Index) (hf : EncFresh st)
    (hwf : ∀ k ∈ mapKeys st.TableShrineOntologyEnc, WellFormedPath k) :
    ∀ k v, mapGet st.TableShrineOntologyEnc k = some v → 2 ≤ v.Fullname.length := by
  intro k v hv
  rw [(hf.1 k v hv).1]
  exact (hwf k ((mem_mapKeys_iff _ _).2 ⟨v, hv⟩)).1

/-- C6: on a freshly parsed index whose sensitive concept paths all start and end with the
delimiter and have length at least 2, the concept loop of `UpdateChildrenEncryptIDs` runs to
completion in whatever order it visits the table, every completed run of
`UpdateChildrenEncryptIDs` leaves exactly the concept table of that loop (and the run does
complete when the modifier paths have length at least 2 as well), and in that table, for any
two entries `P` and `Q` with `P` a strict prefix of `Q`, the `ChildrenEncryptIDs` of `P`
contains the `NodeEncryptID` of `Q` (at any depth). -/
theorem ancestor_linking_complete (toLower : GoString → GoString)
    (ListSensitiveConcepts header : List GoString) (rows : List ShrineOntology) (st : Index)
    (orderEnc orderModifierEnc : List GoString)
    (hparse : ParseShrineOntology toLower ListSensitiveConcepts header rows = some st)
    (hwf : ∀ k ∈ mapKeys st.TableShrineOntologyEnc, WellFormedPath k)
    (horder : orderEnc.Perm (mapKeys st.TableShrineOntologyEnc)) :
    ∃ enc, linkConcepts orderEnc st.TableShrineOntologyEnc = some enc ∧
      (∀ st', UpdateChildrenEncryptIDs orderEnc orderModifierEnc st = some st' →
        st'.TableShrineOntologyEnc = enc) ∧
      ((∀ k ∈ mapKeys st.TableShrineOntologyModifierEnc, 2 ≤ k.length) →
        ∃ st', UpdateChildrenEncryptIDs orderEnc orderModifierEnc st = some st') ∧
      ∀ P Q vP vQ, mapGet st.TableShrineOntologyEnc P = some vP →
        mapGet st.TableShrineOntologyEnc Q = some vQ → P <+: Q → P ≠ Q →
        ∃ vP' vQ', mapGet enc P = some vP' ∧ mapGet enc Q = some vQ' ∧
          vQ'.NodeEncryptID = vQ.NodeEncryptID ∧
          vQ'.NodeEncryptID ∈ vP'.ChildrenEncryptIDs := by
  have hf := parse_encFresh toLower ListSensitiveConcepts header rows st hparse
  obtain ⟨enc, henc⟩ := linkConcepts_isSome orderEnc st.TableShrineOntologyEnc
    (encFresh_length st hf hwf)
  refine ⟨enc, henc, fun st' h' =>
    UpdateChildrenEncryptIDs_Enc orderEnc orderModifierEnc st st' enc henc h',
    fun hm => UpdateChildrenEncryptIDs_isSome toLower ListSensitiveConcepts header rows st
      orderEnc orderModifierEnc hparse (fun k hk => (hwf k hk).1) hm, ?_⟩
  intro P Q vP vQ hP hQ hpre hne
  have hPk : P ∈ mapKeys st.TableShrineOntologyEnc := (mem_mapKeys_iff _ _).2 ⟨vP, hP⟩
  have hQk : Q ∈ mapKeys st.TableShrineOntologyEnc := (mem_mapKeys_iff _ _).2 ⟨vQ, hQ⟩
  refine ⟨addChildren vP (addedChildren st.TableShrineOntologyEnc orderEnc P),
    addChildren vQ (addedChildren st.TableShrineOntologyEnc orderEnc Q),
    by rw [linkConcepts_get orderEnc _ enc henc P, hP]; rfl,
    by rw [linkConcepts_get orderEnc _ enc henc Q, hQ]; rfl, rfl, ?_⟩
  show vQ.NodeEncryptID ∈ vP.ChildrenEncryptIDs ++ _
  rw [List.mem_append]
  right
  rw [mem_addedChildren]
  refine ⟨Q, horder.mem_iff.2 hQk, vQ, hQ, rfl, ?_⟩
  rw [(hf.1 Q vQ hQ).1]
  exact ancestor_probed P Q (hwf P hPk) (hwf Q hQk) hpre hne

theorem chain_parse :
    ParseShrineOntology asciiToLower chainSensitive [] chainRows = some chainIndex := by
  decide

theorem sample_parse :
    ParseShrineOntology asciiToLower sampleSensitive [] sampleRows = some sampleIndex := by
  decide

/-- Witness for C6: with `\A\`, `\A\B\`, `\A\B\C\` registered (IDs 0, 1, 2) and the table
visited in reverse order, `\A\` lists the ID of `\A\B\C\`; the full child lists are `\A\`: 2, 1,
`\A\B\`: 2, `\A\B\C\`: none.  With only `\A\` (ID 0) and `\A\B\` (ID 1) registered, `\A\` gets
`[1]` and `\A\B\` gets `[]`. -/
theorem ancestor_linking_complete_witness :
    (∃ enc, linkConcepts (mapKeys chainIndex.TableShrineOntologyEnc).reverse
        chainIndex.TableShrineOntologyEnc = some enc ∧
      ∃ vP' vQ', mapGet enc "\\A\\".toList = some vP' ∧
        mapGet enc "\\A\\B\\C\\".toList = some vQ' ∧ vQ'.NodeEncryptID = 2 ∧
        vQ'.NodeEncryptID ∈ vP'.ChildrenEncryptIDs) ∧
    (UpdateChildrenEncryptIDs (mapKeys chainIndex.TableShrineOntologyEnc).reverse [] chainIndex).map
        (fun st => summary st.TableShrineOntologyEnc) =
      some [("\\A\\".toList, 0, [2, 1]), ("\\A\\B\\".toList, 1, [2]),
        ("\\A\\B\\C\\".toList, 2, [])] ∧
    (UpdateChildrenEncryptIDs (mapKeys sampleIndex.TableShrineOntologyEnc)
        (mapKeys sampleIndex.TableShrineOntologyModifierEnc) sampleIndex).map
        (fun st => summary st.TableShrineOntologyEnc) =
      some [("\\A\\".toList, 0, [1]), ("\\A\\B\\".toList, 1, [])] :=
  ⟨(ancestor_linking_complete asciiToLower chainSensitive [] chainRows
      chainIndex (mapKeys chainIndex.TableShrineOntologyEnc).reverse [] chain_parse
      (by simp only [WellFormedPath]; decide) (List.reverse_perm _)).imp
    (fun _ h => ⟨h.1, h.2.2.2 "\\A\\".toList "\\A\\B\\C\\".toList
      (stamp (mkRow "\\A\\" "concept_cd") 0) (stamp (mkRow "\\A\\B\\C\\" "concept_cd") 2)
      (by decide) (by decide) (by decide) (by decide)⟩),
   by decide, by decide⟩

/-- C7, as stated, fails: the two-delimiter path `\\` starts and ends with the delimiter and
has length 2, as `\A\` does; with both registered as sensitive concepts (IDs 0 and 1), the node
`\\` ends up listing its own ID 0 and the ID 1 of `\A\`, whose path does not have `\\` as a
prefix. -/
theorem ancestor_linking_root_counterexample :
    (∀ k ∈ rootSensitive, 2 ≤ k.length ∧ k.head? = some delim ∧ k.getLast? = some delim) ∧
    ¬ rootKey <+: "\\A\\".toList ∧
    ((ParseShrineOntology asciiToLower rootSensitive [] rootRows).bind
      (fun st => UpdateChildrenEncryptIDs (mapKeys st.TableShrineOntologyEnc)
        (mapKeys st.TableShrineOntologyModifierEnc) st)).map
      (fun st => summary st.TableShrineOntologyEnc) =
      some [(rootKey, 0, [0, 1]), ("\\A\\".toList, 1, [])] := by
  decide

/-- C7, amended: on a freshly parsed index whose sensitive concept paths all start and end with
the delimiter, have length at least 2 and are not the two-delimiter path `\\`, the concept loop
of `UpdateChildrenEncryptIDs` runs to completion in whatever order it visits the table, every
completed run of `UpdateChildrenEncryptIDs` leaves exactly the concept table of that loop (and
the run does complete when the modifier paths have length at least 2 as well), and in that
table every ID in the `ChildrenEncryptIDs` of a node `N` is the `NodeEncryptID` of
another entry whose path has `N` as a strict prefix, and is not the ID of `N` itself; a node
without such an entry below it keeps an empty list. -/
theorem ancestor_linking_sound (toLower : GoString → GoString)
    (ListSensitiveConcepts header : List GoString) (rows : List ShrineOntology) (st : Index)
    (orderEnc orderModifierEnc : List GoString)
    (hparse : ParseShrineOntology toLower ListSensitiveConcepts header rows = some st)
    (hwf : ∀ k ∈ mapKeys st.TableShrineOntologyEnc, WellFormedPath k)
    (hroot : rootKey ∉ mapKeys st.TableShrineOntologyEnc) :
    ∃ enc, linkConcepts orderEnc st.TableShrineOntologyEnc = some enc ∧
      (∀ st', UpdateChildrenEncryptIDs orderEnc orderModifierEnc st = some st' →
        st'.TableShrineOntologyEnc = enc) ∧
      ((∀ k ∈ mapKeys st.TableShrineOntologyModifierEnc, 2 ≤ k.length) →
        ∃ st', UpdateChildrenEncryptIDs orderEnc orderModifierEnc st = some st') ∧
      (∀ N vN, mapGet enc N = some vN → ∀ id ∈ vN.ChildrenEncryptIDs,
        id ≠ vN.NodeEncryptID ∧
          ∃ M vM, mapGet enc M = some vM ∧ vM.NodeEncryptID = id ∧ M ≠ N ∧ N <+: M) ∧
      (∀ N vN, mapGet enc N = some vN →
        (∀ M vM, mapGet enc M = some vM → N <+: M → M = N) →
        vN.ChildrenEncryptIDs = []) := by
  have hf := parse_encFresh toLower ListSensitiveConcepts header rows st hparse
  obtain ⟨enc, henc⟩ := linkConcepts_isSome orderEnc st.TableShrineOntologyEnc
    (encFresh_length st hf hwf)
  have hget := linkConcepts_get orderEnc _ enc henc
  have main : ∀ N vN, mapGet enc N = some vN → ∀ id ∈ vN.ChildrenEncryptIDs,
      id ≠ vN.NodeEncryptID ∧
        ∃ M vM, mapGet enc M = some vM ∧ vM.NodeEncryptID = id ∧ M ≠ N ∧ N <+: M := by
    intro N vN hN id hid
    rw [hget N] at hN
    rcases hN0 : mapGet st.TableShrineOntologyEnc N with _ | v0
    · rw [hN0] at hN
      cases hN
    · rw [hN0] at hN
      cases hN
      have hNk : N ∈ mapKeys st.TableShrineOntologyEnc := (mem_mapKeys_iff _ _).2 ⟨v0, hN0⟩
      change id ∈ v0.ChildrenEncryptIDs ++ _ at hid
      rw [(hf.1 N v0 hN0).2.1, List.nil_append, mem_addedChildren] at hid
      obtain ⟨q, _, so, hq, hso, hhit⟩ := hid
      have hqk : q ∈ mapKeys st.TableShrineOntologyEnc := (mem_mapKeys_iff _ _).2 ⟨so, hq⟩
      rw [(hf.1 q so hq).1] at hhit
      obtain ⟨mid, hmid⟩ := (wellFormedPath_iff q).1 (hwf q hqk)
      rw [hmid, segmentsOf_wrap, hitsUpTo_pos_iff] at hhit
      obtain ⟨j, hj, hjN⟩ := hhit
      have hj1 : 1 ≤ j := by
        rcases Nat.eq_zero_or_pos j with h0 | h0
        · subst h0
          rw [ancestorKey_zero] at hjN
          exact absurd (hjN ▸ hNk) hroot
        · exact h0
      obtain ⟨t, ht, hqt⟩ := ancestorKey_strict (Split mid delim) j hj1 hj
      rw [Join_Split, hjN] at hqt
      have hqN : q = N ++ t := by
        rw [hmid, ← hqt]
        rfl
      have hne : q ≠ N := by
        intro h'
        rw [h'] at hqN
        exact ht (List.append_right_eq_self.1 hqN.symm)
      refine ⟨?_, q, addChildren so (addedChildren st.TableShrineOntologyEnc orderEnc q),
        by rw [hget q, hq]; rfl, hso, hne, ⟨t, hqN.symm⟩⟩
      intro hsame
      apply hne
      exact hf.2 q N so v0 hq hN0 (hso.trans hsame)
  refine ⟨enc, henc, fun st' h' =>
    UpdateChildrenEncryptIDs_Enc orderEnc orderModifierEnc st st' enc henc h',
    fun hm => UpdateChildrenEncryptIDs_isSome toLower ListSensitiveConcepts header rows st
      orderEnc orderModifierEnc hparse (fun k hk => (hwf k hk).1) hm, main, ?_⟩
  intro N vN hN hleaf
  rcases hc : vN.ChildrenEncryptIDs with _ | ⟨id, ids⟩
  · rfl
  · obtain ⟨_, M, vM, hM, _, hMN, hpre⟩ := main N vN hN id (by rw [hc]; exact List.mem_cons_self _ _)
    exact absurd (hleaf M vM hM hpre) hMN

/-- Witness for the amended C7: on the chain `\A\`, `\A\B\`, `\A\B\C\` the node `\A\B\` lists
only the ID 2 of `\A\B\C\`. -/
theorem ancestor_linking_sound_witness :
    ∃ enc, linkConcepts (mapKeys chainIndex.TableShrineOntologyEnc)
        chainIndex.TableShrineOntologyEnc = some enc ∧
      ∀ N vN, mapGet enc N = some vN → ∀ id ∈ vN.ChildrenEncryptIDs,
        id ≠ vN.NodeEncryptID ∧
          ∃ M vM, mapGet enc M = some vM ∧ vM.NodeEncryptID = id ∧ M ≠ N ∧ N <+: M :=
  (ancestor_linking_sound asciiToLower chainSensitive [] chainRows chainIndex
    (mapKeys chainIndex.TableShrineOntologyEnc) [] chain_parse
    (by simp only [WellFormedPath]; decide) (by decide)).imp (fun _ h => ⟨h.1, h.2.2.2.1⟩)

/-! ## The version rename of `ConvertShrineOntology` -/

theorem HasPrefix_iff (s p : GoString) : HasPrefix s p = true ↔ p <+: s := by
  induction p generalizing s with
  | nil =>
    cases s <;> simp [HasPrefix]
  | cons c p ih =>
    cases s with
    | nil => simp [HasPrefix]
    | cons a s =>
      rw [HasPrefix, Bool.and_eq_true, ih, List.cons_prefix_cons, beq_iff_eq]
      exact ⟨fun h => ⟨h.1.symm, h.2⟩, fun h => ⟨h.1.symm, h.2⟩⟩

theorem goSlice_front (front : GoString) (c : Char) :
    goSlice (front ++ [c]) 0 (((front ++ [c]).length : Int) - 1) = some front := by
  have hlen : (((front ++ [c]).length : Int) - 1) = ((front.length : Nat) : Int) := by
    simp
  rw [goSlice, hlen, if_pos]
  · simp only [Int.toNat_ofNat, Int.toNat_zero, List.drop_zero]
    rw [List.take_left' rfl]
  · refine ⟨le_refl _, ?_, ?_⟩
    · omega
    · simp

/-- The guard of the rename, as a statement about the path. -/
theorem rename_guard_iff (s : GoString) :
    (HasPrefix s versionMarker && decide (s.length > versionMarker.length)) = true ↔
      (versionMarker <+: s ∧ s ≠ versionMarker) := by
  rw [Bool.and_eq_true, HasPrefix_iff, decide_eq_true_eq]
  constructor
  · rintro ⟨h1, h2⟩
    refine ⟨h1, ?_⟩
    intro h
    rw [h] at h2
    exact Nat.lt_irrefl _ h2
  · rintro ⟨h1, h2⟩
    refine ⟨h1, ?_⟩
    obtain ⟨t, ht⟩ := h1
    have htne : t ≠ [] := by
      intro h
      rw [h, List.append_nil] at ht
      exact h2 ht.symm
    rw [← ht, List.length_append]
    have := List.length_pos.2 htne
    omega

theorem renameVersion_unchanged (so : ShrineOntology)
    (h : ¬ (versionMarker <+: so.Fullname ∧ so.Fullname ≠ versionMarker)) :
    renameVersion so = some so := by
  rw [← rename_guard_iff] at h
  rw [renameVersion, if_neg h]

theorem renameVersion_renamed (so : ShrineOntology) (front : GoString) (c : Char)
    (hname : so.Fullname = front ++ [c])
    (h : versionMarker <+: so.Fullname ∧ so.Fullname ≠ versionMarker) :
    renameVersion so = some { so with
      Fullname := front ++ convertedSuffix
      Name := front ++ convertedSuffix
      DimCode := front ++ convertedSuffix
      Tooltip := front ++ convertedSuffix } := by
  rw [← rename_guard_iff] at h
  rw [renameVersion, if_pos h, hname, goSlice_front]

theorem renameVersion_isSome (so : ShrineOntology) : ∃ so', renameVersion so = some so' := by
  by_cases h : versionMarker <+: so.Fullname ∧ so.Fullname ≠ versionMarker
  · have hne : so.Fullname ≠ [] := by
      intro h'
      rw [h'] at h
      have := h.1.length_le
      simp [versionMarker] at this
    exact ⟨_, renameVersion_renamed so so.Fullname.dropLast (so.Fullname.getLast hne)
      (List.dropLast_append_getLast hne).symm h⟩
  · exact ⟨so, renameVersion_unchanged so h⟩

/-- The rename loop never fails. -/
theorem renameLoop_isSome (tbl : GoMap ShrineOntology) : ∃ tbl', renameLoop tbl = some tbl' := by
  induction tbl with
  | nil => exact ⟨[], rfl⟩
  | cons e tbl ih =>
    obtain ⟨k, so⟩ := e
    obtain ⟨so', hso⟩ := renameVersion_isSome so
    obtain ⟨tbl', htbl⟩ := ih
    exact ⟨(k, so') :: tbl', by rw [renameLoop, hso, htbl]⟩

/-- The rename loop keeps the keys and applies the loop body to every node. -/
theorem renameLoop_get (tbl tbl' : GoMap ShrineOntology) (h : renameLoop tbl = some tbl') :
    mapKeys tbl' = mapKeys tbl ∧
      ∀ k, mapGet tbl' k = (mapGet tbl k).bind renameVersion := by
  induction tbl generalizing tbl' with
  | nil =>
    cases h
    exact ⟨rfl, fun _ => rfl⟩
  | cons e tbl ih =>
    obtain ⟨k1, so⟩ := e
    rw [renameLoop] at h
    rcases hso : renameVersion so with _ | so'
    · rw [hso] at h
      cases h
    · rw [hso] at h
      simp only at h
      rcases hm : renameLoop tbl with _ | m'
      · rw [hm] at h
        cases h
      · rw [hm] at h
        cases h
        obtain ⟨a, b⟩ := ih m' hm
        refine ⟨by rw [mapKeys_cons, mapKeys_cons, a], ?_⟩
        intro k
        rw [mapGet_cons, mapGet_cons]
        by_cases hk : k1 = k
        · rw [if_pos hk, if_pos hk, Option.some_bind, hso]
        · rw [if_neg hk, if_neg hk, b k]

/-- C8, as stated, fails: the node `\SHRINE\ONTOLOGYVERSION\v1\x\` lies two segments below the
version marker, and the rename loop rewrites its path to
`\SHRINE\ONTOLOGYVERSION\v1\x_Converted\`. -/
theorem version_rename_deeper_node_counterexample :
    ¬ OneSegmentBelowMarker "\\SHRINE\\ONTOLOGYVERSION\\v1\\x\\".toList ∧
    ((renameLoop versionTable).bind
      (fun t => mapGet t "\\SHRINE\\ONTOLOGYVERSION\\v1\\x\\".toList)).map
        (fun so => so.Fullname) = some "\\SHRINE\\ONTOLOGYVERSION\\v1\\x_Converted\\".toList := by
  refine ⟨?_, by decide⟩
  rintro ⟨label, _, hnd, heq⟩
  have h1 : "\\SHRINE\\ONTOLOGYVERSION\\v1\\x\\".toList =
      versionMarker ++ "v1\\x".toList ++ [delim] := by decide
  rw [h1, List.append_assoc, List.append_assoc] at heq
  have h2 := List.append_cancel_right (List.append_cancel_left heq)
  apply hnd
  rw [← h2]
  decide

/-- C8, amended: the rename loop of `ConvertShrineOntology` never fails, keeps the keys of the
public table, and changes a public node only if its path starts with the version marker
`\SHRINE\ONTOLOGYVERSION\` and is longer than it (at any depth below the marker); every other
public node, in particular the marker node itself and every node outside that subtree, has all
of its fields unchanged after the loop. -/
theorem version_rename_frame (tbl : GoMap ShrineOntology) :
    ∃ tbl', renameLoop tbl = some tbl' ∧ mapKeys tbl' = mapKeys tbl ∧
      ∀ k so, mapGet tbl k = some so →
        ¬ (versionMarker <+: so.Fullname ∧ so.Fullname ≠ versionMarker) →
        mapGet tbl' k = some so := by
  obtain ⟨tbl', h⟩ := renameLoop_isSome tbl
  obtain ⟨a, b⟩ := renameLoop_get tbl tbl' h
  refine ⟨tbl', h, a, ?_⟩
  intro k so hk hnot
  rw [b k, hk, Option.some_bind, renameVersion_unchanged so hnot]

/-- Witness for the amended C8: in the sample public table the marker node and the
demographics node are the same after the loop. -/
theorem version_rename_frame_witness :
    ∃ tbl', renameLoop versionTable = some tbl' ∧
      mapGet tbl' "\\SHRINE\\ONTOLOGYVERSION\\".toList =
        some (mkRow "\\SHRINE\\ONTOLOGYVERSION\\" "concept_cd") ∧
      mapGet tbl' "\\SHRINE\\Demographics\\".toList =
        some (mkRow "\\SHRINE\\Demographics\\" "concept_cd") :=
  (version_rename_frame versionTable).imp (fun _ h =>
    ⟨h.1, h.2.2 _ _ (by decide) (by decide), h.2.2 _ _ (by decide) (by decide)⟩)

/-- C9: a public node whose path is `\SHRINE\ONTOLOGYVERSION\<label>\`, for a non-empty
`<label>` without a delimiter, comes out of the rename loop of `ConvertShrineOntology` with
`Fullname`, `Name`, `DimCode` and `Tooltip` all equal to
`\SHRINE\ONTOLOGYVERSION\<label>_Converted\` and every other field unchanged. -/
theorem version_rename_rewrites_label (tbl : GoMap ShrineOntology) (k : GoString)
    (so : ShrineOntology) (label : GoString) (hk : mapGet tbl k = some so)
    (_hne : label ≠ []) (_hnd : delim ∉ label)
    (hname : so.Fullname = versionMarker ++ label ++ [delim]) :
    ∃ tbl', renameLoop tbl = some tbl' ∧
      mapGet tbl' k = some { so with
        Fullname := versionMarker ++ (label ++ "_Converted".toList) ++ [delim]
        Name := versionMarker ++ (label ++ "_Converted".toList) ++ [delim]
        DimCode := versionMarker ++ (label ++ "_Converted".toList) ++ [delim]
        Tooltip := versionMarker ++ (label ++ "_Converted".toList) ++ [delim] } := by
  obtain ⟨tbl', h⟩ := renameLoop_isSome tbl
  refine ⟨tbl', h, ?_⟩
  have hguard : versionMarker <+: so.Fullname ∧ so.Fullname ≠ versionMarker := by
    rw [hname, List.append_assoc]
    refine ⟨List.prefix_append _ _, ?_⟩
    intro h'
    have := List.append_right_eq_self.1 h'
    simp at this
  have hnew : (versionMarker ++ label) ++ convertedSuffix =
      versionMarker ++ (label ++ "_Converted".toList) ++ [delim] := by
    have : convertedSuffix = "_Converted".toList ++ [delim] := by decide
    rw [this]
    simp only [List.append_assoc]
  rw [(renameLoop_get tbl tbl' h).2 k, hk, Option.some_bind,
    renameVersion_renamed so (versionMarker ++ label) delim hname hguard, hnew]

/-- Witness for C9: the version label `v1` of the sample public table. -/
theorem version_rename_rewrites_label_witness :
    ∃ tbl', renameLoop versionTable = some tbl' ∧
      mapGet tbl' "\\SHRINE\\ONTOLOGYVERSION\\v1\\".toList = some
        { mkRow "\\SHRINE\\ONTOLOGYVERSION\\v1\\" "concept_cd" with
          Fullname := versionMarker ++ ("v1".toList ++ "_Converted".toList) ++ [delim]
          Name := versionMarker ++ ("v1".toList ++ "_Converted".toList) ++ [delim]
          DimCode := versionMarker ++ ("v1".toList ++ "_Converted".toList) ++ [delim]
          Tooltip := versionMarker ++ ("v1".toList ++ "_Converted".toList) ++ [delim] } :=
  version_rename_rewrites_label versionTable "\\SHRINE\\ONTOLOGYVERSION\\v1\\".toList
    (mkRow "\\SHRINE\\ONTOLOGYVERSION\\v1\\" "concept_cd") "v1".toList (by decide) (by decide)
    (by decide) (by decide)

/-! ## The header line -/

theorem headerCell_eq (h : GoString) : headerCell h = quoted h ++ [','] := by
  simp [headerCell, quoted]

theorem headerLoop_eq (acc : GoString) (hs : List GoString) (hne : hs ≠ []) :
    headerLoop acc hs = acc ++ Join (hs.map quoted) [','] ++ [','] := by
  induction hs generalizing acc with
  | nil => exact absurd rfl hne
  | cons h hs ih =>
    cases hs with
    | nil =>
      rw [headerLoop, headerLoop, headerCell_eq]
      simp [Join]
    | cons h2 hs =>
      rw [headerLoop, ih _ (List.cons_ne_nil _ _), headerCell_eq]
      simp only [List.map_cons, Join_cons_cons, List.append_assoc]

theorem Split_of_not_mem (s : GoString) (d : Char) (h : d ∉ s) : Split s d = [s] := by
  induction s with
  | nil => rfl
  | cons c s ih =>
    rw [List.mem_cons, not_or] at h
    rw [Split_cons_ne c d s s [] (fun h' => h.1 h'.symm) (ih h.2)]

/-- Splitting the join of delimiter-free pieces gives the pieces back. -/
theorem Split_Join (l : List GoString) (d : Char) (hne : l ≠ []) (h : ∀ x ∈ l, d ∉ x) :
    Split (Join l [d]) d = l := by
  induction l with
  | nil => exact absurd rfl hne
  | cons a l ih =>
    cases l with
    | nil => exact Split_of_not_mem a d (h a (List.mem_cons_self _ _))
    | cons b l =>
      rw [Join_cons_cons, List.append_assoc, List.singleton_append, Split_append_delim,
        Split_of_not_mem a d (h a (List.mem_cons_self _ _)),
        ih (List.cons_ne_nil _ _) (fun x hx => h x (List.mem_cons_of_mem _ hx))]
      rfl

theorem unquoted_quoted (h : GoString) : unquoted (quoted h) = h := by
  simp [unquoted, quoted]

/-- C10: for a non-empty header list, the header line written by `ConvertShrineOntology`, and
likewise the one written by `ConvertPatientDimension`, is the column names, each in double
quotes, joined by single commas in the original order without a trailing comma (followed by the
newline); when no column name contains a comma or a double quote, splitting that line at the
commas and removing the first and last byte of each piece gives the column list back. -/
theorem header_line_round_trip (headers : List GoString) (hne : headers ≠ []) :
    shrineHeaderLine headers = some (Join (headers.map quoted) [','] ++ ['\n']) ∧
    patientHeaderLine headers = some (Join (headers.map quoted) [','] ++ ['\n']) ∧
    ((∀ h ∈ headers, ',' ∉ h ∧ dquote ∉ h) →
      (Split (Join (headers.map quoted) [',']) ',').map unquoted = headers) := by
  have hline : goSlice (headerLoop [] headers) 0 (((headerLoop [] headers).length : Int) - 1)
      = some (Join (headers.map quoted) [',']) := by
    rw [headerLoop_eq [] headers hne, List.nil_append, goSlice_front]
  refine ⟨?_, ?_, ?_⟩
  · simp only [shrineHeaderLine, hline]
  · simp only [patientHeaderLine, hline]
  · intro hclean
    rw [Split_Join _ ',' (by simpa using hne), List.map_map]
    · conv_rhs => rw [← List.map_id headers]
      apply List.map_congr_left
      intro h _
      exact unquoted_quoted h
    · intro x hx
      rw [List.mem_map] at hx
      obtain ⟨h, hh, rfl⟩ := hx
      intro hmem
      simp only [quoted, List.mem_append, List.mem_singleton] at hmem
      rcases hmem with (h1 | h1) | h1
      · exact absurd h1 (by decide)
      · exact (hclean h hh).1 h1
      · exact absurd h1 (by decide)

/-- Witness for C10: the header of three columns. -/
theorem header_line_round_trip_witness :
    shrineHeaderLine ["c_hlevel".toList, "c_fullname".toList, "c_name".toList] =
        some (Join (["c_hlevel".toList, "c_fullname".toList, "c_name".toList].map quoted) [',']
          ++ ['\n']) ∧
      (Split (Join (["c_hlevel".toList, "c_fullname".toList, "c_name".toList].map quoted)
        [',']) ',').map unquoted = ["c_hlevel".toList, "c_fullname".toList, "c_name".toList] :=
  have h := header_line_round_trip ["c_hlevel".toList, "c_fullname".toList, "c_name".toList]
    (by decide)
  ⟨h.1, h.2.2 (by decide)⟩

/-! ## Failure of the classification loop -/

/-- C11: the classification loop of `ParseShrineOntology` aborts exactly when some input row
has a `Fullname` that is an element of the sensitive list and a fact-table column whose
lowercase form is neither `"modifier_cd"` nor `"concept_cd"`; an iteration on a row whose path
is not an element of the list always completes, whatever its column; and the upper- and
mixed-case spellings `CONCEPT_CD`, `Modifier_Cd`, `Concept_CD` are accepted. -/
theorem parse_fails_iff_unknown_kind (toLower : GoString → GoString)
    (ListSensitiveConcepts header : List GoString) (rows : List ShrineOntology) :
    (ParseShrineOntology toLower ListSensitiveConcepts header rows = none ↔
      ∃ so ∈ rows, so.Fullname ∈ ListSensitiveConcepts ∧
        toLower so.FactTableColumn ≠ modifierCd ∧ toLower so.FactTableColumn ≠ conceptCd) ∧
    (∀ st so, so.Fullname ∉ ListSensitiveConcepts →
      ∃ st', parseRow toLower ListSensitiveConcepts st so = some st') ∧
    (asciiToLower "CONCEPT_CD".toList = conceptCd ∧
      asciiToLower "Modifier_Cd".toList = modifierCd ∧
      (ParseShrineOntology asciiToLower sampleSensitive [] mixedCaseRows).isSome = true) := by
  refine ⟨⟨?_, ?_⟩, fun st so hs => ⟨_, parseRow_public toLower _ st so hs⟩, by decide⟩
  · intro hnone
    by_contra hno
    have hkind : ∀ so ∈ rows, so.Fullname ∈ ListSensitiveConcepts →
        toLower so.FactTableColumn = conceptCd ∨ toLower so.FactTableColumn = modifierCd := by
      intro so hso hs
      by_contra hk
      rw [not_or] at hk
      exact hno ⟨so, hso, hs, hk.2, hk.1⟩
    obtain ⟨st, hst⟩ := parseRows_isSome toLower ListSensitiveConcepts rows (initIndex header)
      (bucketsNonempty_init header) hkind
    rw [ParseShrineOntology, hst] at hnone
    cases hnone
  · rintro ⟨so, hso, hs, hm, hc⟩
    obtain ⟨pre, post, rfl⟩ := List.append_of_mem hso
    rw [ParseShrineOntology, parseRows_append]
    rcases parseRows toLower ListSensitiveConcepts (initIndex header) pre with _ | st1
    · rfl
    · rw [Option.some_bind, parseRows_cons,
        parseRow_fatal toLower ListSensitiveConcepts st1 so hs hm hc]
      rfl

/-- Witness for C11: a sensitive row whose column is `patient_num` aborts the loop. -/
theorem parse_fails_iff_unknown_kind_witness :
    ParseShrineOntology asciiToLower sampleSensitive []
      [mkRow "\\A\\C\\" "patient_num", mkRow "\\A\\" "patient_num"] = none :=
  (parse_fails_iff_unknown_kind asciiToLower sampleSensitive []
    [mkRow "\\A\\C\\" "patient_num", mkRow "\\A\\" "patient_num"]).1.2
    ⟨mkRow "\\A\\" "patient_num", by decide, by decide, by decide, by decide⟩

/-! ## `FilterSensitiveEntries` -/

theorem SplitN_two (s : GoString) (h : delim ∈ s) :
    ∃ a, SplitN s delim 2 = [a, afterFirstDelim s] := by
  induction s with
  | nil => cases h
  | cons c s ih =>
    by_cases hc : c = delim
    · subst hc
      refine ⟨[], ?_⟩
      rw [SplitN, if_pos rfl]
      simp [SplitN, afterFirstDelim]
    · have hs : delim ∈ s := by
        rcases List.mem_cons.1 h with h' | h'
        · exact absurd h'.symm hc
        · exact h'
      obtain ⟨a, ha⟩ := ih hs
      refine ⟨c :: a, ?_⟩
      rw [SplitN, if_neg hc, ha]
      simp [afterFirstDelim, hc]

theorem goSlice_from_two (key : GoString) (h : 2 ≤ key.length) :
    goSlice key 2 (key.length : Int) = some (key.drop 2) := by
  rw [goSlice, if_pos]
  · simp
  · refine ⟨by decide, ?_, le_refl _⟩
    omega

/-- On a well-formed key the stripped key is a delimiter followed by everything after the first
delimiter of `Key[2:]`. -/
theorem strippedKey_of_wellFormed (key : GoString) (h : KeyWellFormed key) :
    strippedKey key = some (delim :: afterFirstDelim (key.drop 2)) := by
  obtain ⟨a, ha⟩ := SplitN_two (key.drop 2) h.2
  rw [strippedKey, goSlice_from_two key h.1]
  simp only [ha]
  rfl

theorem drop_length_pred_append {α : Type} (l t : List α) (h : l ≠ []) :
    (l ++ t).drop (l.length - 1) = l.getLast h :: t := by
  have hlen : l.dropLast.length = l.length - 1 := List.length_dropLast l
  have key : (l.dropLast ++ ([l.getLast h] ++ t)).drop l.dropLast.length =
      [l.getLast h] ++ t := List.drop_left _ _
  have hl : l ++ t = l.dropLast ++ ([l.getLast h] ++ t) := by
    rw [← List.append_assoc, List.dropLast_append_getLast]
  rw [hlen] at key
  rw [hl]
  exact key

theorem copyDown_eq (kept tail stale : List Entry) (x : Entry) :
    copyDown (kept ++ x :: tail ++ stale) (kept.length + (tail.length + 1)) kept.length =
      (tail.length, kept ++ tail ++
        (x :: tail).getLast (List.cons_ne_nil _ _) :: stale) := by
  have hc : min (kept.length + (tail.length + 1) - kept.length)
      (kept.length + (tail.length + 1) - (kept.length + 1)) = tail.length := by omega
  rw [copyDown]
  simp only [hc]
  have h1 : (kept ++ x :: tail ++ stale).take kept.length = kept := by
    rw [List.append_assoc, List.take_left]
  have h2 : ((kept ++ x :: tail ++ stale).drop (kept.length + 1)).take tail.length = tail := by
    rw [List.append_assoc, ← List.drop_drop, List.drop_left]
    simp
  have h3 : (kept ++ x :: tail ++ stale).drop (kept.length + tail.length) =
      (x :: tail).getLast (List.cons_ne_nil _ _) :: stale := by
    rw [List.append_assoc, ← List.drop_drop, List.drop_left]
    exact drop_length_pred_append (x :: tail) stale (List.cons_ne_nil _ _)
  rw [h1, h2, h3]

/-- One iteration of the filter loop when the slice `m` is `kept ++ x :: tail` and `x` is the
entry at index `i - deleted`. -/
theorem filterStep_at (sens : List GoString) (kept tail stale : List Entry) (x : Entry)
    (d : Nat) (k : GoString) (hk : strippedKey x.Key = some k) :
    filterStep sens ⟨kept ++ x :: tail ++ stale, kept.length + (tail.length + 1), d⟩
        (kept.length + d) =
      if containsArrayString sens k = true then
        some ⟨kept ++ tail ++ (x :: tail).getLast (List.cons_ne_nil _ _) :: stale,
          kept.length + tail.length, d + 1⟩
      else some ⟨kept ++ x :: tail ++ stale, kept.length + (tail.length + 1), d⟩ := by
  have hj : ((kept.length + d : Nat) : Int) - (d : Int) = (kept.length : Int) := by
    push_cast
    omega
  have hget : (kept ++ x :: tail ++ stale)[kept.length]? = some x := by
    rw [List.append_assoc, List.getElem?_append_right (le_refl _)]
    simp
  rw [filterStep]
  simp only [hj, Int.toNat_ofNat]
  rw [if_pos ⟨by omega, by push_cast; omega⟩, hget]
  simp only [hk, copyDown_eq]

theorem getLast?_cons_of_some {α : Type} (x y : α) (l : List α) (h : l.getLast? = some y) :
    (x :: l).getLast? = some y := by
  cases l with
  | nil => cases h
  | cons a l => rw [List.getLast?_cons_cons, h]

/-- The filter loop over a stretch `rest` of entries still to be visited, with the entries
`more` behind it: the non-sensitive entries of `rest` are moved up behind the kept ones, and
for every sensitive entry a copy of the last entry of the slice is left behind the slice. -/
theorem filterLoop_run (sens : List GoString) (rest more : List Entry) :
    ∀ (kept stale : List Entry) (d : Nat),
      (∀ e ∈ rest, ∃ k, strippedKey e.Key = some k) →
      ∃ added : List Entry,
        added.length = (rest.filter (isSensitiveEntry sens)).length ∧
        (∀ y ∈ added, (rest ++ more).getLast? = some y) ∧
        filterLoop sens (List.range' (kept.length + d) rest.length)
            ⟨kept ++ (rest ++ more) ++ stale, kept.length + (rest ++ more).length, d⟩ =
          some ⟨kept ++ rest.filter (fun e => !isSensitiveEntry sens e) ++ more ++ added ++ stale,
            kept.length + (rest.filter (fun e => !isSensitiveEntry sens e)).length + more.length,
            d + (rest.filter (isSensitiveEntry sens)).length⟩ := by
  induction rest with
  | nil =>
    intro kept stale d _
    refine ⟨[], rfl, fun y hy => (by cases hy), ?_⟩
    simp [filterLoop]
  | cons x rest ih =>
    intro kept stale d hkeys
    obtain ⟨k, hk⟩ := hkeys x (List.mem_cons_self _ _)
    have hkeys' : ∀ e ∈ rest, ∃ k, strippedKey e.Key = some k :=
      fun e he => hkeys e (List.mem_cons_of_mem _ he)
    have hstep := filterStep_at sens kept (rest ++ more) stale x d k hk
    have hstate : (⟨kept ++ (x :: rest ++ more) ++ stale,
        kept.length + (x :: rest ++ more).length, d⟩ : FilterState) =
        ⟨kept ++ x :: (rest ++ more) ++ stale, kept.length + ((rest ++ more).length + 1), d⟩ := by
      simp
    rw [List.length_cons, List.range'_succ, filterLoop, hstate, hstep]
    by_cases hs : containsArrayString sens k = true
    · have hsx : isSensitiveEntry sens x = true := by
        rw [isSensitiveEntry, hk]
        exact hs
      have hf1 : (x :: rest).filter (isSensitiveEntry sens) =
          x :: rest.filter (isSensitiveEntry sens) := by
        simp [List.filter_cons, hsx]
      have hf2 : (x :: rest).filter (fun e => !isSensitiveEntry sens e) =
          rest.filter (fun e => !isSensitiveEntry sens e) := by
        simp [List.filter_cons, hsx]
      obtain ⟨added, h1, h2, h3⟩ := ih kept
        ((x :: (rest ++ more)).getLast (List.cons_ne_nil _ _) :: stale) (d + 1) hkeys'
      refine ⟨added ++ [(x :: (rest ++ more)).getLast (List.cons_ne_nil _ _)], ?_, ?_, ?_⟩
      · rw [List.length_append, h1, hf1]
        rfl
      · intro y hy
        rw [List.mem_append, List.mem_singleton] at hy
        rcases hy with hy | hy
        · exact getLast?_cons_of_some x y _ (h2 y hy)
        · rw [hy]
          exact List.getLast?_eq_getLast _ _
      · rw [if_pos hs]
        simp only
        have hidx : kept.length + d + 1 = kept.length + (d + 1) := by omega
        rw [hidx, h3, hf1, hf2]
        simp only [List.append_assoc, List.length_cons, List.singleton_append,
          FilterState.mk.injEq, Option.some.injEq, true_and]
        omega
    · have hsx : isSensitiveEntry sens x = false := by
        rw [isSensitiveEntry, hk]
        simpa using hs
      have hf1 : (x :: rest).filter (isSensitiveEntry sens) =
          rest.filter (isSensitiveEntry sens) := by
        simp [List.filter_cons, hsx]
      have hf2 : (x :: rest).filter (fun e => !isSensitiveEntry sens e) =
          x :: rest.filter (fun e => !isSensitiveEntry sens e) := by
        simp [List.filter_cons, hsx]
      obtain ⟨added, h1, h2, h3⟩ := ih (kept ++ [x]) stale d hkeys'
      refine ⟨added, ?_, ?_, ?_⟩
      · rw [h1, hf1]
      · intro y hy
        exact getLast?_cons_of_some x y _ (h2 y hy)
      · rw [if_neg hs]
        simp only
        have hidx : kept.length + d + 1 = (kept ++ [x]).length + d := by
          rw [List.length_append, List.length_singleton]
          omega
        have hst : (⟨kept ++ x :: (rest ++ more) ++ stale,
            kept.length + ((rest ++ more).length + 1), d⟩ : FilterState) =
            ⟨(kept ++ [x]) ++ (rest ++ more) ++ stale,
              (kept ++ [x]).length + (rest ++ more).length, d⟩ := by
          simp
          omega
        rw [hidx, hst, h3, hf1, hf2]
        have hlen : (kept ++ [x]).length = kept.length + 1 := by
          rw [List.length_append, List.length_singleton]
        rw [hlen, List.length_cons, List.append_assoc kept [x], List.singleton_append]
        have hnum : kept.length + 1 +
            (rest.filter (fun e => !isSensitiveEntry sens e)).length + more.length =
            kept.length + ((rest.filter (fun e => !isSensitiveEntry sens e)).length + 1) +
              more.length := by omega
        rw [hnum]

theorem filter_length_add_not {α : Type} (p : α → Bool) (l : List α) :
    (l.filter (fun e => !p e)).length + (l.filter p).length = l.length := by
  induction l with
  | nil => rfl
  | cons a l ih =>
    by_cases h : p a = true
    · simp only [List.filter_cons, h, Bool.not_true, if_true, List.length_cons]
      simp only [Bool.false_eq_true, if_false]
      omega
    · simp only [Bool.not_eq_true] at h
      simp only [List.filter_cons, h, Bool.not_false, if_true, List.length_cons]
      simp only [Bool.false_eq_true, if_false]
      omega

theorem keys_strippable (l : List Entry) (hwf : ∀ e ∈ l, KeyWellFormed e.Key) :
    ∀ e ∈ l, ∃ k, strippedKey e.Key = some k :=
  fun e he => ⟨_, strippedKey_of_wellFormed e.Key (hwf e he)⟩

/-- The state of the filter loop after the entries `pre` have been visited, when the entries
`post` are still to come. -/
theorem filterLoop_prefix (sens : List GoString) (pre post : List Entry)
    (hwf : ∀ e ∈ pre, KeyWellFormed e.Key) :
    ∃ added : List Entry,
      added.length = (pre.filter (isSensitiveEntry sens)).length ∧
      (∀ y ∈ added, (pre ++ post).getLast? = some y) ∧
      filterLoop sens (List.range pre.length) ⟨pre ++ post, (pre ++ post).length, 0⟩ =
        some ⟨pre.filter (fun e => !isSensitiveEntry sens e) ++ post ++ added,
          (pre.filter (fun e => !isSensitiveEntry sens e)).length + post.length,
          (pre.filter (isSensitiveEntry sens)).length⟩ := by
  obtain ⟨added, h1, h2, h3⟩ := filterLoop_run sens pre post [] [] 0 (keys_strippable pre hwf)
  refine ⟨added, h1, h2, ?_⟩
  simp only [List.length_nil, Nat.zero_add, List.nil_append, List.append_nil] at h3
  rw [List.range_eq_range', h3]

/-- C13: when every key has at least two bytes followed by text containing a delimiter,
`FilterSensitiveEntries` runs to completion and returns the number of entries of the original
`am.ListEntries` whose stripped key (a delimiter followed by everything after the first
delimiter of `Key[2:]`) is an element of the sensitive list; the entry examined in iteration `i`
is the `i`-th original entry, so each entry is examined exactly once, and the index
`j = i - deleted` is non-negative and below the length of the shrinking slice. -/
theorem filter_returns_sensitive_count (ListSensitiveConcepts : List GoString)
    (am : AdapterMappings) (hwf : ∀ e ∈ am.ListEntries, KeyWellFormed e.Key) :
    (∃ am', FilterSensitiveEntries ListSensitiveConcepts am =
      some (am', (am.ListEntries.filter (isSensitiveEntry ListSensitiveConcepts)).length)) ∧
    (∀ e ∈ am.ListEntries, isSensitiveEntry ListSensitiveConcepts e =
      containsArrayString ListSensitiveConcepts (delim :: afterFirstDelim (e.Key.drop 2))) ∧
    (∀ i e, am.ListEntries[i]? = some e →
      ∃ st, filterLoop ListSensitiveConcepts (List.range i)
          ⟨am.ListEntries, am.ListEntries.length, 0⟩ = some st ∧
        st.deleted ≤ i ∧ i - st.deleted < st.len ∧ st.backing[i - st.deleted]? = some e) := by
  refine ⟨?_, ?_, ?_⟩
  · obtain ⟨added, _, _, h3⟩ := filterLoop_prefix ListSensitiveConcepts am.ListEntries [] (by
      simpa using hwf)
    rw [List.append_nil] at h3
    rw [FilterSensitiveEntries, h3]
    exact ⟨_, rfl⟩
  · intro e he
    rw [isSensitiveEntry, strippedKey_of_wellFormed e.Key (hwf e he)]
  · intro i e hi
    have hlt : i < am.ListEntries.length := (List.getElem?_eq_some.1 hi).1
    have hsplit : am.ListEntries.take i ++ am.ListEntries.drop i = am.ListEntries :=
      List.take_append_drop i _
    have hlen : (am.ListEntries.take i).length = i := by
      rw [List.length_take]
      omega
    obtain ⟨added, _, _, h3⟩ := filterLoop_prefix ListSensitiveConcepts
      (am.ListEntries.take i) (am.ListEntries.drop i)
      (fun x hx => hwf x (List.mem_of_mem_take hx))
    rw [hsplit, hlen] at h3
    have hcount := filter_length_add_not (isSensitiveEntry ListSensitiveConcepts)
      (am.ListEntries.take i)
    rw [hlen] at hcount
    have hdrop : (am.ListEntries.drop i)[0]? = some e := by
      rw [List.getElem?_drop]
      exact hi
    have hdlen : 0 < (am.ListEntries.drop i).length := by
      rw [List.length_drop]
      omega
    refine ⟨_, h3, ?_, ?_, ?_⟩
    · show (List.filter _ _).length ≤ i
      omega
    · show i - (List.filter _ _).length < (List.filter _ _).length + (List.drop _ _).length
      omega
    · show (_ ++ _ ++ added)[i - (List.filter _ _).length]? = some e
      have hj : i - ((am.ListEntries.take i).filter
          (isSensitiveEntry ListSensitiveConcepts)).length =
          ((am.ListEntries.take i).filter
            (fun e => !isSensitiveEntry ListSensitiveConcepts e)).length := by omega
      rw [hj, List.append_assoc, List.getElem?_append_right (le_refl _), Nat.sub_self,
        List.getElem?_append_left hdlen]
      exact hdrop

/-- Witness for C13: on the four sample mappings the function returns 2. -/
theorem filter_returns_sensitive_count_witness :
    ∃ am', FilterSensitiveEntries ["\\A\\".toList] sampleMappings = some (am', 2) :=
  (filter_returns_sensitive_count ["\\A\\".toList] sampleMappings
    (by simp only [KeyWellFormed]; decide)).1

/-- C17: on well-formed keys `FilterSensitiveEntries` runs to completion and leaves the caller's
`am.ListEntries` at its original length `n`; with `d` the returned count of sensitive entries,
the first `n - d` positions hold exactly the non-sensitive original entries in their original
order, and the last `d` positions hold stale copies, each of them equal to the last original
entry (the entry that stood at the end of the slice when an element was moved out). -/
theorem filter_compacts_in_place (ListSensitiveConcepts : List GoString)
    (am : AdapterMappings) (hwf : ∀ e ∈ am.ListEntries, KeyWellFormed e.Key) :
    ∃ am' d, FilterSensitiveEntries ListSensitiveConcepts am = some (am', d) ∧
      d = (am.ListEntries.filter (isSensitiveEntry ListSensitiveConcepts)).length ∧
      am'.ListEntries.length = am.ListEntries.length ∧
      am'.ListEntries.take (am.ListEntries.length - d) =
        am.ListEntries.filter (fun e => !isSensitiveEntry ListSensitiveConcepts e) ∧
      (am'.ListEntries.drop (am.ListEntries.length - d)).length = d ∧
      (∀ y ∈ am'.ListEntries.drop (am.ListEntries.length - d),
        am.ListEntries.getLast? = some y) ∧
      am'.Rest = am.Rest := by
  obtain ⟨added, h1, h2, h3⟩ := filterLoop_prefix ListSensitiveConcepts am.ListEntries [] (by
    simpa using hwf)
  rw [List.append_nil] at h3 h2
  have hcount := filter_length_add_not (isSensitiveEntry ListSensitiveConcepts) am.ListEntries
  have hnd : am.ListEntries.length -
      (am.ListEntries.filter (isSensitiveEntry ListSensitiveConcepts)).length =
      (am.ListEntries.filter (fun e => !isSensitiveEntry ListSensitiveConcepts e)).length := by
    omega
  refine ⟨{ am with ListEntries :=
      am.ListEntries.filter (fun e => !isSensitiveEntry ListSensitiveConcepts e) ++ [] ++ added },
    (am.ListEntries.filter (isSensitiveEntry ListSensitiveConcepts)).length,
    by rw [FilterSensitiveEntries, h3], rfl, ?_, ?_, ?_, ?_, rfl⟩
  · simp only [List.append_nil, List.length_append, h1]
    omega
  · simp only [hnd, List.append_nil, List.take_left]
  · simp only [hnd, List.append_nil, List.drop_left, h1]
  · intro y hy
    simp only [hnd, List.append_nil, List.drop_left] at hy
    exact h2 y hy

/-- Witness for C17: the four sample mappings after the call. -/
theorem filter_compacts_in_place_witness :
    ∃ am' d, FilterSensitiveEntries ["\\A\\".toList] sampleMappings = some (am', d) ∧
      d = 2 ∧ am'.ListEntries.length = 4 ∧
      am'.ListEntries.take (4 - d) =
        [mkEntry "\\\\SHRINE\\B\\" "b", mkEntry "\\\\SHRINE\\C\\" "c"] :=
  let ⟨am', d, h, hd, hl, ht, _⟩ := filter_compacts_in_place ["\\A\\".toList] sampleMappings
    (by simp only [KeyWellFormed]; decide)
  ⟨am', d, h, hd.trans (by decide), hl.trans (by decide), ht.trans (by decide)⟩

/-- C12, on the code: after the call on the four sample mappings, of which the second and the
fourth are sensitive, the caller's `am.ListEntries` still has four entries, and its last two
are the sensitive entry `\\i2b2_DEMO\A\`; only the returned count says 2. -/
theorem filter_leaves_sensitive_entry_in_list :
    (FilterSensitiveEntries ["\\A\\".toList] sampleMappings).map
        (fun r => (r.1.ListEntries.map (fun e => e.Key), r.2)) =
      some (["\\\\SHRINE\\B\\".toList, "\\\\SHRINE\\C\\".toList,
        "\\\\i2b2_DEMO\\A\\".toList, "\\\\i2b2_DEMO\\A\\".toList], 2) ∧
    isSensitiveEntry ["\\A\\".toList] (mkEntry "\\\\i2b2_DEMO\\A\\" "a2") = true := by
  decide

/-! ## The upward walk for modifiers -/

theorem bucketAdd_nil (b : List ShrineOntology) : bucketAdd [] b = b := by
  simp [bucketAdd, addChildren_nil]

theorem bucketAdd_bucketAdd (b : List ShrineOntology) (x y : List Nat) :
    bucketAdd y (bucketAdd x b) = bucketAdd (x ++ y) b := by
  simp [bucketAdd, addChildren_addChildren]

theorem bucketAdd_appendChild (b : List ShrineOntology) (id c : Nat) :
    bucketAdd (List.replicate c id) (b.map (fun e => appendChild e id)) =
      bucketAdd (List.replicate (c + 1) id) b := by
  simp [bucketAdd, addChildren_appendChild]

/-- The table after the upward walk of a non-empty bucket: the rows of the bucket filed under
`k` have the ID of the walking bucket's first row appended once for each time the walk probed
`k`; nothing else changes, and the walk does not panic. -/
theorem walkModifiers_get (so0 : ShrineOntology) (soRest : List ShrineOntology) (n : Nat)
    (pc : List GoString) (tbl : GoMap (List ShrineOntology)) (hn : pc.length = n) :
    ∃ tbl', walkModifiers (so0 :: soRest) n pc tbl = some tbl' ∧
      ∀ k, mapGet tbl' k = (mapGet tbl k).map
        (bucketAdd (List.replicate (hitsUpTo pc k n) so0.NodeEncryptID)) := by
  induction n generalizing pc tbl with
  | zero =>
    refine ⟨tbl, rfl, fun k => ?_⟩
    simp only [hitsUpTo, List.replicate_zero]
    cases mapGet tbl k with
    | none => rfl
    | some b => simp [bucketAdd_nil]
  | succ n ih =>
    have hpos : pc.length > 0 := by omega
    have hlen : (pc.take (pc.length - 1)).length = n := by
      rw [List.length_take]
      omega
    have hkey : [delim] ++ Join (pc.take (pc.length - 1)) [delim] ++ [delim]
        = ancestorKey pc n := by
      rw [hn]
      rfl
    have hhit : ∀ k, hitsUpTo (pc.take (pc.length - 1)) k n = hitsUpTo pc k n := by
      intro k
      rw [hn]
      exact hitsUpTo_take pc k n n (Nat.le_refl n)
    rw [walkModifiers, if_pos hpos]
    simp only [hkey]
    rcases hg : mapGet tbl (ancestorKey pc n) with _ | b
    · simp only
      obtain ⟨tbl', h1, h2⟩ := ih _ tbl hlen
      refine ⟨tbl', h1, fun k => ?_⟩
      rw [h2 k, hhit, hitsUpTo]
      by_cases hk : ancestorKey pc n = k
      · rw [← hk, hg]
        rfl
      · rw [if_neg hk, Nat.add_zero]
    · cases b with
      | nil =>
        simp only
        obtain ⟨tbl', h1, h2⟩ := ih _ tbl hlen
        refine ⟨tbl', h1, fun k => ?_⟩
        rw [h2 k, hhit, hitsUpTo]
        by_cases hk : ancestorKey pc n = k
        · rw [← hk, hg]
          rfl
        · rw [if_neg hk, Nat.add_zero]
      | cons el val =>
        simp only
        obtain ⟨tbl', h1, h2⟩ := ih _ (mapSet tbl (ancestorKey pc n)
          ((el :: val).map (fun e => appendChild e so0.NodeEncryptID))) hlen
        refine ⟨tbl', h1, fun k => ?_⟩
        rw [h2 k, hhit, hitsUpTo, mapGet_mapSet]
        by_cases hk : ancestorKey pc n = k
        · rw [if_pos hk, if_pos hk, ← hk, hg]
          simp only [Option.map_some', bucketAdd_appendChild]
        · rw [if_neg hk, if_neg hk, Nat.add_zero]

theorem addedModifierChildren_congr (tbl tbl1 : GoMap (List ShrineOntology))
    (order : List GoString) (k : GoString)
    (h : ∀ q, ∃ extra, mapGet tbl1 q = (mapGet tbl q).map (bucketAdd extra)) :
    addedModifierChildren tbl1 order k = addedModifierChildren tbl order k := by
  induction order with
  | nil => rfl
  | cons q order ih =>
    rw [addedModifierChildren, addedModifierChildren, ih]
    congr 1
    obtain ⟨extra, hf⟩ := h q
    rw [hf]
    rcases mapGet tbl q with _ | b
    · rfl
    · cases b with
      | nil => rfl
      | cons so0 r => rfl

/-- The modifier table after the loop over `order`, on a table of non-empty buckets: every row
of the bucket filed under `k` has the IDs `addedModifierChildren tbl order k` appended, and
nothing else changes. -/
theorem linkModifiers_get (order : List GoString) (tbl tbl' : GoMap (List ShrineOntology))
    (hne : ∀ k b, mapGet tbl k = some b → b ≠ [])
    (h : linkModifiers order tbl = some tbl') (k : GoString) :
    mapGet tbl' k = (mapGet tbl k).map (bucketAdd (addedModifierChildren tbl order k)) := by
  induction order generalizing tbl with
  | nil =>
    cases h
    simp only [addedModifierChildren]
    cases mapGet tbl' k with
    | none => rfl
    | some b => simp [bucketAdd_nil]
  | cons q order ih =>
    rw [linkModifiers] at h
    rcases hq : mapGet tbl q with _ | soArr
    · rw [hq] at h
      simp only at h
      rw [ih tbl hne h, addedModifierChildren, hq]
      rfl
    · rw [hq] at h
      simp only at h
      rcases hsl : goSlice q 1 ((q.length : Int) - 1) with _ | path
      · rw [hsl] at h
        cases h
      · rw [hsl] at h
        simp only at h
        obtain ⟨so0, soRest, rfl⟩ := List.exists_cons_of_ne_nil (hne q soArr hq)
        obtain ⟨tbl1, hw, hget⟩ := walkModifiers_get so0 soRest (Split path delim).length
          (Split path delim) tbl rfl
        rw [hw] at h
        simp only at h
        have hseg : segmentsOf q = Split path delim := by
          rw [segmentsOf, hsl]
          rfl
        have hne1 : ∀ k b, mapGet tbl1 k = some b → b ≠ [] := by
          intro k' b hb
          rw [hget k'] at hb
          rcases hk' : mapGet tbl k' with _ | b0
          · rw [hk'] at hb
            cases hb
          · rw [hk'] at hb
            cases hb
            intro hnil
            exact hne k' b0 hk' (List.map_eq_nil_iff.1 hnil)
        rw [ih tbl1 hne1 h, hget k, addedModifierChildren, hq]
        simp only [hseg]
        rw [addedModifierChildren_congr tbl tbl1 order k (fun q' => ⟨_, hget q'⟩)]
        cases mapGet tbl k with
        | none => rfl
        | some b => simp only [Option.map_some', bucketAdd_bucketAdd]

theorem UpdateChildrenEncryptIDs_ModifierEnc (orderEnc orderModifierEnc : List GoString)
    (st st' : Index) (m : GoMap (List ShrineOntology))
    (hl : linkModifiers orderModifierEnc st.TableShrineOntologyModifierEnc = some m)
    (h : UpdateChildrenEncryptIDs orderEnc orderModifierEnc st = some st') :
    st'.TableShrineOntologyModifierEnc = m := by
  rw [UpdateChildrenEncryptIDs] at h
  rcases hc : linkConcepts orderEnc st.TableShrineOntologyEnc with _ | enc
  · rw [hc] at h
    cases h
  · rw [hc, hl] at h
    cases h
    rfl

/-- Two different numbers of segments left, the smaller at least one, give different keys. -/
theorem ancestorKey_ne (pc : List GoString) (j m : Nat) (h1 : 1 ≤ j) (h2 : j < m)
    (h3 : m ≤ pc.length) : ancestorKey pc j ≠ ancestorKey pc m := by
  have hlen : (pc.take m).length = m := by
    rw [List.length_take]
    omega
  obtain ⟨t, ht, heq⟩ := ancestorKey_strict (pc.take m) j h1 (by rw [hlen]; exact h2)
  rw [ancestorKey_take pc m j (Nat.le_of_lt h2)] at heq
  intro h
  have hm : ancestorKey pc m = ancestorKey pc j ++ t := heq
  rw [← h] at hm
  exact ht (List.append_right_eq_self.1 hm.symm)

/-- A key other than `\\` is probed at most once by an upward walk. -/
theorem hitsUpTo_le_one (pc : List GoString) (k : GoString) (hk : k ≠ rootKey) (n : Nat)
    (hn : n ≤ pc.length) : hitsUpTo pc k n ≤ 1 := by
  induction n with
  | zero => simp [hitsUpTo]
  | succ n ih =>
    rw [hitsUpTo]
    have ih' := ih (Nat.le_of_succ_le hn)
    by_cases hkn : ancestorKey pc n = k
    · rw [if_pos hkn]
      have hzero : hitsUpTo pc k n = 0 := by
        by_contra hne
        obtain ⟨j, hj, hjk⟩ := (hitsUpTo_pos_iff pc k n).1 (Nat.pos_of_ne_zero hne)
        have hj1 : 1 ≤ j := by
          rcases Nat.eq_zero_or_pos j with h0 | h0
          · subst h0
            rw [ancestorKey_zero] at hjk
            exact absurd hjk.symm hk
          · exact h0
        exact ancestorKey_ne pc j n hj1 hj (Nat.le_of_succ_le hn) (hjk.trans hkn.symm)
      omega
    · rw [if_neg hkn]
      omega

theorem count_addedModifierChildren_zero (tbl : GoMap (List ShrineOntology))
    (order : List GoString) (k : GoString) (id : Nat)
    (h : ∀ q ∈ order, ∀ s0 sr, mapGet tbl q = some (s0 :: sr) → s0.NodeEncryptID ≠ id) :
    List.count id (addedModifierChildren tbl order k) = 0 := by
  induction order with
  | nil => rfl
  | cons q order ih =>
    rw [addedModifierChildren, List.count_append,
      ih (fun q' hq' => h q' (List.mem_cons_of_mem _ hq')), Nat.add_zero]
    rcases hq : mapGet tbl q with _ | b
    · rfl
    · cases b with
      | nil => rfl
      | cons s0 sr =>
        simp only
        rw [List.count_replicate, if_neg]
        simpa using h q (List.mem_cons_self _ _) s0 sr hq

/-- How often the ID of the bucket filed under `Q` is appended to the rows filed under `k`. -/
theorem count_addedModifierChildren (tbl : GoMap (List ShrineOntology))
    (order : List GoString) (k Q : GoString) (q0 : ShrineOntology) (qr : List ShrineOntology)
    (hnd : order.Nodup) (hQ : Q ∈ order) (hget : mapGet tbl Q = some (q0 :: qr))
    (hinj : ∀ q ∈ order, q ≠ Q → ∀ s0 sr, mapGet tbl q = some (s0 :: sr) →
      s0.NodeEncryptID ≠ q0.NodeEncryptID) :
    List.count q0.NodeEncryptID (addedModifierChildren tbl order k) =
      hitsUpTo (segmentsOf Q) k (segmentsOf Q).length := by
  induction order with
  | nil => cases hQ
  | cons q order ih =>
    rw [List.nodup_cons] at hnd
    rw [addedModifierChildren, List.count_append]
    by_cases hq : q = Q
    · subst hq
      rw [hget]
      simp only
      rw [List.count_replicate_self, count_addedModifierChildren_zero tbl order k _
        (fun q' hq' s0 sr hs => hinj q' (List.mem_cons_of_mem _ hq')
          (fun h' => hnd.1 (h' ▸ hq')) s0 sr hs), Nat.add_zero]
    · have hQ' : Q ∈ order := by
        rcases List.mem_cons.1 hQ with h' | h'
        · exact absurd h'.symm hq
        · exact h'
      rw [ih hnd.2 hQ' (fun q' hq' => hinj q' (List.mem_cons_of_mem _ hq'))]
      rcases hq' : mapGet tbl q with _ | b
      · simp
      · cases b with
        | nil => simp
        | cons s0 sr =>
          simp only
          rw [List.count_replicate, if_neg, Nat.zero_add]
          simpa using hinj q (List.mem_cons_self _ _) hq s0 sr hq'

theorem parse_modifierFresh (toLower : GoString → GoString) (sens header : List GoString)
    (rows : List ShrineOntology) (st : Index)
    (h : ParseShrineOntology toLower sens header rows = some st) :
    ModifierFresh st.TableShrineOntologyModifierEnc := by
  obtain ⟨h1, _, h3⟩ := parse_modifierSpec toLower sens header rows st h
  have hb := parseRows_bucketsNonempty toLower sens rows (initIndex header) st h
    (bucketsNonempty_init header)
  have hnd : (mapKeys st.TableShrineOntologyModifierEnc).Nodup := by
    rw [h1]
    exact nodup_distinctPaths _
  have hidx : ∀ k b, mapGet st.TableShrineOntologyModifierEnc k = some b →
      ∃ n, (mapKeys st.TableShrineOntologyModifierEnc)[n]? = some k ∧
        ∀ e ∈ b, e.ChildrenEncryptIDs = [] ∧ e.NodeEncryptID = n := by
    intro k b hk
    obtain ⟨n, hn⟩ := List.getElem?_of_mem ((mem_mapKeys_iff _ _).2 ⟨b, hk⟩)
    refine ⟨n, hn, ?_⟩
    intro e he
    rw [h3 n k hn] at hk
    cases hk
    rw [List.mem_map] at he
    obtain ⟨x, _, rfl⟩ := he
    exact ⟨rfl, rfl⟩
  refine ⟨hnd, ?_, ?_⟩
  · intro k b hk
    obtain ⟨n, _, hn⟩ := hidx k b hk
    exact ⟨hb k b hk, fun e he => (hn e he).1⟩
  · intro k1 k2 b1 b2 e1 e2 hk1 hk2 he1 he2
    obtain ⟨n1, hn1, hb1⟩ := hidx k1 b1 hk1
    obtain ⟨n2, hn2, hb2⟩ := hidx k2 b2 hk2
    rw [(hb1 e1 he1).2, (hb2 e2 he2).2]
    constructor
    · intro hn
      subst hn
      rw [hn1] at hn2
      exact Option.some.inj hn2
    · intro hk
      subst hk
      have hlt : n1 < (mapKeys st.TableShrineOntologyModifierEnc).length :=
        (List.getElem?_eq_some.1 hn1).1
      exact List.getElem?_inj hlt hnd (hn1.trans hn2.symm)

theorem noEmptySegment_ne_rootKey (k : GoString) (h : NoEmptySegment k) : k ≠ rootKey := by
  intro hk
  subst hk
  exact h (by decide)

/-- C14: on a freshly parsed index whose sensitive modifier paths start and end with the
delimiter, have length at least 2 and contain no empty segment, the modifier loop of
`UpdateChildrenEncryptIDs` runs to completion in whatever order it visits the buckets, every
completed run of `UpdateChildrenEncryptIDs` leaves exactly the modifier table of that loop (and
the run does complete when the concept paths have length at least 2 as well), and in that table
all rows of a bucket at path `P` have the same `ChildrenEncryptIDs`, in which the ID of every
bucket whose path has `P` as a strict prefix occurs exactly once, however many rows either
bucket holds. -/
theorem modifier_linking_no_duplicates (toLower : GoString → GoString)
    (ListSensitiveConcepts header : List GoString) (rows : List ShrineOntology) (st : Index)
    (orderEnc orderModifierEnc : List GoString)
    (hparse : ParseShrineOntology toLower ListSensitiveConcepts header rows = some st)
    (hwf : ∀ k ∈ mapKeys st.TableShrineOntologyModifierEnc, WellFormedPath k ∧ NoEmptySegment k)
    (horder : orderModifierEnc.Perm (mapKeys st.TableShrineOntologyModifierEnc)) :
    ∃ m, linkModifiers orderModifierEnc st.TableShrineOntologyModifierEnc = some m ∧
      (∀ st', UpdateChildrenEncryptIDs orderEnc orderModifierEnc st = some st' →
        st'.TableShrineOntologyModifierEnc = m) ∧
      ((∀ k ∈ mapKeys st.TableShrineOntologyEnc, 2 ≤ k.length) →
        ∃ st', UpdateChildrenEncryptIDs orderEnc orderModifierEnc st = some st') ∧
      ∀ P b, mapGet m P = some b →
        (∀ e1 ∈ b, ∀ e2 ∈ b, e1.ChildrenEncryptIDs = e2.ChildrenEncryptIDs) ∧
        (∀ Q c, mapGet m Q = some c → P <+: Q → P ≠ Q →
          ∀ e ∈ b, ∀ q ∈ c, List.count q.NodeEncryptID e.ChildrenEncryptIDs = 1) := by
  obtain ⟨hnd, hfresh, hinj⟩ :=
    parse_modifierFresh toLower ListSensitiveConcepts header rows st hparse
  have hklen : ∀ k ∈ mapKeys st.TableShrineOntologyModifierEnc, 2 ≤ k.length :=
    fun k hk => (hwf k hk).1.1
  have hne : ∀ k b, mapGet st.TableShrineOntologyModifierEnc k = some b → b ≠ [] :=
    fun k b hk => (hfresh k b hk).1
  obtain ⟨m, hm⟩ := linkModifiers_isSome orderModifierEnc st.TableShrineOntologyModifierEnc
    (fun k b hk => ⟨hne k b hk, hklen k ((mem_mapKeys_iff _ _).2 ⟨b, hk⟩)⟩)
  have hget := linkModifiers_get orderModifierEnc _ m hne hm
  -- every row of the bucket at `P` ends with exactly the appended IDs as its children
  have hrows : ∀ P b, mapGet m P = some b →
      ∃ b0, mapGet st.TableShrineOntologyModifierEnc P = some b0 ∧
        ∀ e ∈ b, (∃ e0 ∈ b0, e.NodeEncryptID = e0.NodeEncryptID) ∧
          e.ChildrenEncryptIDs =
            addedModifierChildren st.TableShrineOntologyModifierEnc orderModifierEnc P := by
    intro P b hb
    rw [hget P] at hb
    rcases hP0 : mapGet st.TableShrineOntologyModifierEnc P with _ | b0
    · rw [hP0] at hb
      cases hb
    · rw [hP0] at hb
      cases hb
      refine ⟨b0, rfl, ?_⟩
      intro e he
      rw [bucketAdd, List.mem_map] at he
      obtain ⟨e0, he0, rfl⟩ := he
      refine ⟨⟨e0, he0, rfl⟩, ?_⟩
      show e0.ChildrenEncryptIDs ++ _ = _
      rw [(hfresh P b0 hP0).2 e0 he0, List.nil_append]
  refine ⟨m, hm, fun st' h' =>
    UpdateChildrenEncryptIDs_ModifierEnc orderEnc orderModifierEnc st st' m hm h',
    fun hc => UpdateChildrenEncryptIDs_isSome toLower ListSensitiveConcepts header rows st
      orderEnc orderModifierEnc hparse hc hklen, ?_⟩
  intro P b hb
  obtain ⟨b0, hP0, hProws⟩ := hrows P b hb
  refine ⟨fun e1 he1 e2 he2 => by rw [(hProws e1 he1).2, (hProws e2 he2).2], ?_⟩
  intro Q c hc hpre hPQ e he q hq
  obtain ⟨c0, hQ0, hQrows⟩ := hrows Q c hc
  obtain ⟨⟨q', hq', hqid⟩, _⟩ := hQrows q hq
  obtain ⟨c00, cr, rfl⟩ := List.exists_cons_of_ne_nil (hne Q c0 hQ0)
  have hPk : P ∈ mapKeys st.TableShrineOntologyModifierEnc := (mem_mapKeys_iff _ _).2 ⟨b0, hP0⟩
  have hQk : Q ∈ mapKeys st.TableShrineOntologyModifierEnc := (mem_mapKeys_iff _ _).2 ⟨_, hQ0⟩
  have hid : q.NodeEncryptID = c00.NodeEncryptID :=
    hqid.trans ((hinj Q Q _ _ q' c00 hQ0 hQ0 hq' (List.mem_cons_self _ _)).2 rfl)
  rw [(hProws e he).2, hid,
    count_addedModifierChildren st.TableShrineOntologyModifierEnc orderModifierEnc P Q c00 cr
      (horder.nodup_iff.2 hnd) (horder.mem_iff.2 hQk) hQ0
      (fun q1 _ hq1 s0 sr hs hsame => hq1
        ((hinj q1 Q _ _ s0 c00 hs hQ0 (List.mem_cons_self _ _) (List.mem_cons_self _ _)).1
          hsame))]
  have hge := ancestor_probed P Q (hwf P hPk).1 (hwf Q hQk).1 hpre hPQ
  have hle := hitsUpTo_le_one (segmentsOf Q) P (noEmptySegment_ne_rootKey P (hwf P hPk).2)
    (segmentsOf Q).length (Nat.le_refl _)
  omega

theorem modifierChain_parse :
    ParseShrineOntology asciiToLower modifierChainSensitive [] modifierChainRows =
      some modifierChainIndex := by
  decide

/-- Witness for C14: with three rows of `\M\N\O\` (ID 0), two of `\M\` (ID 1) and one of
`\M\N\` (ID 2), both rows of `\M\` end with the children 0 and 2, and the row of `\M\N\` with
the child 0. -/
theorem modifier_linking_no_duplicates_witness :
    (∃ m, linkModifiers (mapKeys modifierChainIndex.TableShrineOntologyModifierEnc)
        modifierChainIndex.TableShrineOntologyModifierEnc = some m ∧
      ∀ P b, mapGet m P = some b →
        (∀ e1 ∈ b, ∀ e2 ∈ b, e1.ChildrenEncryptIDs = e2.ChildrenEncryptIDs)) ∧
    (UpdateChildrenEncryptIDs [] (mapKeys modifierChainIndex.TableShrineOntologyModifierEnc)
        modifierChainIndex).map (fun st => bucketSummary st.TableShrineOntologyModifierEnc) =
      some [("\\M\\N\\O\\".toList, [(0, []), (0, []), (0, [])]),
        ("\\M\\".toList, [(1, [0, 2]), (1, [0, 2])]),
        ("\\M\\N\\".toList, [(2, [0])])] :=
  ⟨(modifier_linking_no_duplicates asciiToLower modifierChainSensitive [] modifierChainRows
      modifierChainIndex [] (mapKeys modifierChainIndex.TableShrineOntologyModifierEnc)
      modifierChain_parse (by simp only [WellFormedPath, NoEmptySegment]; decide)
      (List.Perm.refl _)).imp (fun _ h => ⟨h.1, fun P b hb => (h.2.2.2 P b hb).1⟩),
   by decide⟩

/-! ## Child lists of concepts without repetition -/

theorem walkConcepts_keys (id : Nat) (n : Nat) (pc : List GoString)
    (tbl : GoMap ShrineOntology) : mapKeys (walkConcepts id n pc tbl) = mapKeys tbl := by
  induction n generalizing pc tbl with
  | zero => rfl
  | succ n ih =>
    rw [walkConcepts]
    split
    · simp only
      split
      · rename_i val hval
        rw [ih, mapKeys_mapSet, if_pos ((mem_mapKeys_iff _ _).2 ⟨val, hval⟩)]
      · exact ih _ _
    · rfl

theorem linkConcepts_keys (order : List GoString) (tbl tbl' : GoMap ShrineOntology)
    (h : linkConcepts order tbl = some tbl') : mapKeys tbl' = mapKeys tbl := by
  induction order generalizing tbl with
  | nil =>
    cases h
    rfl
  | cons q order ih =>
    rw [linkConcepts] at h
    rcases hq : mapGet tbl q with _ | so
    · rw [hq] at h
      exact ih tbl h
    · rw [hq] at h
      simp only at h
      rcases hsl : goSlice so.Fullname 1 ((so.Fullname.length : Int) - 1) with _ | path
      · rw [hsl] at h
        cases h
      · rw [hsl] at h
        simp only at h
        rw [ih _ h, walkConcepts_keys]

theorem parseRow_Enc_nodup (toLower : GoString → GoString) (sens : List GoString)
    (st st' : Index) (so : ShrineOntology) (h : parseRow toLower sens st so = some st')
    (hn : (mapKeys st.TableShrineOntologyEnc).Nodup) :
    (mapKeys st'.TableShrineOntologyEnc).Nodup := by
  rcases parseRow_cases toLower sens st st' so h with
    ⟨_, rfl⟩ | ⟨_, rfl⟩ | ⟨_, _, rfl⟩ | ⟨_, v0, vs, _, rfl⟩
  · exact hn
  · exact mapKeys_nodup_mapSet _ _ _ hn
  · exact hn
  · exact hn

theorem parse_Enc_nodup (toLower : GoString → GoString) (sens header : List GoString)
    (rows : List ShrineOntology) (st : Index)
    (h : ParseShrineOntology toLower sens header rows = some st) :
    (mapKeys st.TableShrineOntologyEnc).Nodup := by
  unfold ParseShrineOntology at h
  have key : ∀ (rows : List ShrineOntology) (st0 : Index),
      (mapKeys st0.TableShrineOntologyEnc).Nodup →
      parseRows toLower sens st0 rows = some st → (mapKeys st.TableShrineOntologyEnc).Nodup := by
    intro rows
    induction rows with
    | nil =>
      intro st0 hn h0
      cases h0
      exact hn
    | cons so rows ih =>
      intro st0 hn h0
      rw [parseRows_cons] at h0
      rcases h1 : parseRow toLower sens st0 so with _ | st1
      · rw [h1] at h0
        cases h0
      · rw [h1] at h0
        exact ih st1 (parseRow_Enc_nodup toLower sens st0 st1 so h1 hn) h0
  exact key rows (initIndex header) List.nodup_nil h

theorem count_addedChildren_zero (tbl : GoMap ShrineOntology) (order : List GoString)
    (k : GoString) (id : Nat)
    (h : ∀ q ∈ order, ∀ so, mapGet tbl q = some so → so.NodeEncryptID ≠ id) :
    List.count id (addedChildren tbl order k) = 0 := by
  induction order with
  | nil => rfl
  | cons q order ih =>
    rw [addedChildren, List.count_append,
      ih (fun q' hq' => h q' (List.mem_cons_of_mem _ hq')), Nat.add_zero]
    rcases hq : mapGet tbl q with _ | so
    · rfl
    · simp only
      rw [List.count_replicate, if_neg]
      simpa using h q (List.mem_cons_self _ _) so hq

/-- How often the ID of the node filed under `Q` is appended to the node filed under `k`. -/
theorem count_addedChildren (tbl : GoMap ShrineOntology) (order : List GoString)
    (k Q : GoString) (vQ : ShrineOntology) (hnd : order.Nodup) (hQ : Q ∈ order)
    (hget : mapGet tbl Q = some vQ)
    (hinj : ∀ q ∈ order, q ≠ Q → ∀ so, mapGet tbl q = some so →
      so.NodeEncryptID ≠ vQ.NodeEncryptID) :
    List.count vQ.NodeEncryptID (addedChildren tbl order k) =
      hitsUpTo (segmentsOf vQ.Fullname) k (segmentsOf vQ.Fullname).length := by
  induction order with
  | nil => cases hQ
  | cons q order ih =>
    rw [List.nodup_cons] at hnd
    rw [addedChildren, List.count_append]
    by_cases hq : q = Q
    · subst hq
      rw [hget]
      simp only
      rw [List.count_replicate_self, count_addedChildren_zero tbl order k _
        (fun q' hq' so hs => hinj q' (List.mem_cons_of_mem _ hq')
          (fun h' => hnd.1 (h' ▸ hq')) so hs), Nat.add_zero]
    · have hQ' : Q ∈ order := by
        rcases List.mem_cons.1 hQ with h' | h'
        · exact absurd h'.symm hq
        · exact h'
      rw [ih hnd.2 hQ' (fun q' hq' => hinj q' (List.mem_cons_of_mem _ hq'))]
      rcases hq' : mapGet tbl q with _ | so
      · simp
      · simp only
        rw [List.count_replicate, if_neg, Nat.zero_add]
        simpa using hinj q (List.mem_cons_self _ _) hq so hq'

/-- A key other than `\\` that the walk of a well-formed path probes is a proper initial part
of that path. -/
theorem probed_strict (q N : GoString) (hq : WellFormedPath q) (hN : N ≠ rootKey)
    (h : 0 < hitsUpTo (segmentsOf q) N (segmentsOf q).length) : N <+: q ∧ q ≠ N := by
  obtain ⟨mid, hmid⟩ := (wellFormedPath_iff q).1 hq
  rw [hmid, segmentsOf_wrap, hitsUpTo_pos_iff] at h
  obtain ⟨j, hj, hjN⟩ := h
  have hj1 : 1 ≤ j := by
    rcases Nat.eq_zero_or_pos j with h0 | h0
    · subst h0
      rw [ancestorKey_zero] at hjN
      exact absurd hjN.symm hN
    · exact h0
  obtain ⟨t, ht, hqt⟩ := ancestorKey_strict (Split mid delim) j hj1 hj
  rw [Join_Split, hjN] at hqt
  have hqN : q = N ++ t := by
    rw [hmid, ← hqt]
    rfl
  refine ⟨⟨t, hqN.symm⟩, ?_⟩
  intro h'
  rw [h'] at hqN
  exact ht (List.append_right_eq_self.1 hqN.symm)

theorem liesStrictlyBelow_iff (N M : GoString) :
    liesStrictlyBelow N M = true ↔ N <+: M ∧ M ≠ N := by
  rw [liesStrictlyBelow, Bool.and_eq_true, HasPrefix_iff, decide_eq_true_eq]

theorem idOf_of_get (tbl : GoMap ShrineOntology) (k : GoString) (v : ShrineOntology)
    (h : mapGet tbl k = some v) : idOf tbl k = v.NodeEncryptID := by
  rw [idOf, h]

/-- After the concept loop, in whatever order, the child list of a node other than `\\` is a
rearrangement of the IDs of the entries that lie strictly below it. -/
theorem linkConcepts_children_perm (st : Index) (hf : EncFresh st)
    (hnd : (mapKeys st.TableShrineOntologyEnc).Nodup)
    (hwf : ∀ k ∈ mapKeys st.TableShrineOntologyEnc, WellFormedPath k)
    (hroot : rootKey ∉ mapKeys st.TableShrineOntologyEnc)
    (order : List GoString) (horder : order.Perm (mapKeys st.TableShrineOntologyEnc))
    (enc : GoMap ShrineOntology) (henc : linkConcepts order st.TableShrineOntologyEnc = some enc)
    (N : GoString) (vN : ShrineOntology) (hN : mapGet enc N = some vN) :
    vN.ChildrenEncryptIDs.Perm
      (((mapKeys st.TableShrineOntologyEnc).filter (liesStrictlyBelow N)).map
        (idOf st.TableShrineOntologyEnc)) := by
  rw [linkConcepts_get order _ enc henc N] at hN
  rcases hN0 : mapGet st.TableShrineOntologyEnc N with _ | v0
  · rw [hN0] at hN
    cases hN
  · rw [hN0] at hN
    cases hN
    have hNk : N ∈ mapKeys st.TableShrineOntologyEnc := (mem_mapKeys_iff _ _).2 ⟨v0, hN0⟩
    have hNroot : N ≠ rootKey := fun h => hroot (h ▸ hNk)
    have hch : (addChildren v0 (addedChildren st.TableShrineOntologyEnc order N)).ChildrenEncryptIDs
        = addedChildren st.TableShrineOntologyEnc order N := by
      show v0.ChildrenEncryptIDs ++ _ = _
      rw [(hf.1 N v0 hN0).2.1, List.nil_append]
    rw [hch]
    have hordnd : order.Nodup := horder.nodup_iff.2 hnd
    have h1 : (addedChildren st.TableShrineOntologyEnc order N).Nodup := by
      rw [List.nodup_iff_count_le_one]
      intro a
      by_cases hex : ∃ q ∈ order, ∃ so, mapGet st.TableShrineOntologyEnc q = some so ∧
          so.NodeEncryptID = a
      · obtain ⟨Q, hQ, vQ, hgQ, rfl⟩ := hex
        rw [count_addedChildren st.TableShrineOntologyEnc order N Q vQ hordnd hQ hgQ
          (fun q _ hqQ so hso hsame => hqQ (hf.2 q Q so vQ hso hgQ hsame))]
        exact hitsUpTo_le_one _ N hNroot _ (Nat.le_refl _)
      · rw [count_addedChildren_zero st.TableShrineOntologyEnc order N a
          (fun q hq so hso hsame => hex ⟨q, hq, so, hso, hsame⟩)]
        exact Nat.zero_le _
    have h2 : (((mapKeys st.TableShrineOntologyEnc).filter (liesStrictlyBelow N)).map
        (idOf st.TableShrineOntologyEnc)).Nodup := by
      refine List.Nodup.map_on ?_ (hnd.filter _)
      intro x hx y hy hxy
      obtain ⟨vx, hvx⟩ := (mem_mapKeys_iff _ _).1 (List.mem_filter.1 hx).1
      obtain ⟨vy, hvy⟩ := (mem_mapKeys_iff _ _).1 (List.mem_filter.1 hy).1
      rw [idOf_of_get _ _ _ hvx, idOf_of_get _ _ _ hvy] at hxy
      exact hf.2 x y vx vy hvx hvy hxy
    refine (List.perm_ext_iff_of_nodup h1 h2).2 ?_
    intro a
    rw [mem_addedChildren, List.mem_map]
    constructor
    · rintro ⟨q, _, so, hq, hso, hhit⟩
      have hqk : q ∈ mapKeys st.TableShrineOntologyEnc := (mem_mapKeys_iff _ _).2 ⟨so, hq⟩
      rw [(hf.1 q so hq).1] at hhit
      have hstrict := probed_strict q N (hwf q hqk) hNroot hhit
      refine ⟨q, List.mem_filter.2 ⟨hqk, (liesStrictlyBelow_iff N q).2 hstrict⟩, ?_⟩
      rw [idOf_of_get _ _ _ hq, hso]
    · rintro ⟨M, hM, rfl⟩
      rw [List.mem_filter, liesStrictlyBelow_iff] at hM
      obtain ⟨vM, hvM⟩ := (mem_mapKeys_iff _ _).1 hM.1
      refine ⟨M, horder.mem_iff.2 hM.1, vM, hvM, (idOf_of_get _ _ _ hvM).symm, ?_⟩
      rw [(hf.1 M vM hvM).1]
      exact ancestor_probed N M (hwf N hNk) (hwf M hM.1) hM.2.1 (fun h => hM.2.2 h.symm)

/-- C18, as stated, fails: the paths `\\` and `\\A\` start and end with the delimiter and have
length at least 2; with both registered as sensitive concepts (IDs 0 and 1), the walk of `\\A\`
probes the key `\\` twice, so the child list of `\\` is 0, 1, 1: it repeats the ID 1, and its
length 3 is not the number 1 of entries strictly below it. -/
theorem concept_children_repeat_counterexample :
    (∀ k ∈ emptySegmentSensitive,
      2 ≤ k.length ∧ k.head? = some delim ∧ k.getLast? = some delim) ∧
    ((ParseShrineOntology asciiToLower emptySegmentSensitive [] emptySegmentRows).bind
      (fun st => UpdateChildrenEncryptIDs (mapKeys st.TableShrineOntologyEnc)
        (mapKeys st.TableShrineOntologyModifierEnc) st)).map
      (fun st => summary st.TableShrineOntologyEnc) =
      some [(rootKey, 0, [0, 1, 1]), ("\\\\A\\".toList, 1, [])] := by
  decide

/-- C18, amended: on a freshly parsed index whose sensitive concept paths all start and end with
the delimiter, have length at least 2 and are not the two-delimiter path `\\`, the concept loop
of `UpdateChildrenEncryptIDs` runs to completion in whatever order it visits the table, every
completed run of `UpdateChildrenEncryptIDs` leaves exactly the concept table of that loop (and
the run does complete when the modifier paths have length at least 2 as well), and in that
table no `ChildrenEncryptIDs` list contains an ID twice and its length is the number of entries
whose path lies strictly below the node; for two visiting orders the two lists of a node are
rearrangements of each other. -/
theorem concept_children_no_repeats (toLower : GoString → GoString)
    (ListSensitiveConcepts header : List GoString) (rows : List ShrineOntology) (st : Index)
    (orderEnc orderModifierEnc : List GoString)
    (hparse : ParseShrineOntology toLower ListSensitiveConcepts header rows = some st)
    (hwf : ∀ k ∈ mapKeys st.TableShrineOntologyEnc, WellFormedPath k)
    (hroot : rootKey ∉ mapKeys st.TableShrineOntologyEnc)
    (horder : orderEnc.Perm (mapKeys st.TableShrineOntologyEnc)) :
    ∃ enc, linkConcepts orderEnc st.TableShrineOntologyEnc = some enc ∧
      (∀ st', UpdateChildrenEncryptIDs orderEnc orderModifierEnc st = some st' →
        st'.TableShrineOntologyEnc = enc) ∧
      ((∀ k ∈ mapKeys st.TableShrineOntologyModifierEnc, 2 ≤ k.length) →
        ∃ st', UpdateChildrenEncryptIDs orderEnc orderModifierEnc st = some st') ∧
      (∀ N vN, mapGet enc N = some vN → vN.ChildrenEncryptIDs.Nodup ∧
        vN.ChildrenEncryptIDs.length =
          ((mapKeys enc).filter (liesStrictlyBelow N)).length) ∧
      (∀ order2 enc2, order2.Perm (mapKeys st.TableShrineOntologyEnc) →
        linkConcepts order2 st.TableShrineOntologyEnc = some enc2 →
        ∀ N vN vN2, mapGet enc N = some vN → mapGet enc2 N = some vN2 →
          vN.ChildrenEncryptIDs.Perm vN2.ChildrenEncryptIDs) := by
  have hf := parse_encFresh toLower ListSensitiveConcepts header rows st hparse
  have hnd := parse_Enc_nodup toLower ListSensitiveConcepts header rows st hparse
  obtain ⟨enc, henc⟩ := linkConcepts_isSome orderEnc st.TableShrineOntologyEnc
    (encFresh_length st hf hwf)
  have hperm := linkConcepts_children_perm st hf hnd hwf hroot
  refine ⟨enc, henc, fun st' h' =>
    UpdateChildrenEncryptIDs_Enc orderEnc orderModifierEnc st st' enc henc h',
    fun hm => UpdateChildrenEncryptIDs_isSome toLower ListSensitiveConcepts header rows st
      orderEnc orderModifierEnc hparse (fun k hk => (hwf k hk).1) hm, ?_, ?_⟩
  · intro N vN hN
    have hp := hperm orderEnc horder enc henc N vN hN
    refine ⟨hp.nodup_iff.2 ?_, ?_⟩
    · refine List.Nodup.map_on ?_ (hnd.filter _)
      intro x hx y hy hxy
      obtain ⟨vx, hvx⟩ := (mem_mapKeys_iff _ _).1 (List.mem_filter.1 hx).1
      obtain ⟨vy, hvy⟩ := (mem_mapKeys_iff _ _).1 (List.mem_filter.1 hy).1
      rw [idOf_of_get _ _ _ hvx, idOf_of_get _ _ _ hvy] at hxy
      exact hf.2 x y vx vy hvx hvy hxy
    · rw [hp.length_eq, List.length_map, linkConcepts_keys orderEnc _ enc henc]
  · intro order2 enc2 horder2 henc2 N vN vN2 hN hN2
    exact (hperm orderEnc horder enc henc N vN hN).trans
      (hperm order2 horder2 enc2 henc2 N vN2 hN2).symm

/-- Witness for the amended C18: on the chain `\A\`, `\A\B\`, `\A\B\C\`, visited in reverse
order, no child list repeats an ID. -/
theorem concept_children_no_repeats_witness :
    ∃ enc, linkConcepts (mapKeys chainIndex.TableShrineOntologyEnc).reverse
        chainIndex.TableShrineOntologyEnc = some enc ∧
      ∀ N vN, mapGet enc N = some vN → vN.ChildrenEncryptIDs.Nodup ∧
        vN.ChildrenEncryptIDs.length =
          ((mapKeys enc).filter (liesStrictlyBelow N)).length :=
  (concept_children_no_repeats asciiToLower chainSensitive [] chainRows chainIndex
    (mapKeys chainIndex.TableShrineOntologyEnc).reverse [] chain_parse
    (by simp only [WellFormedPath]; decide) (by decide) (List.reverse_perm _)).imp
    (fun _ h => ⟨h.1, h.2.2.2.1⟩)

/-! ## Totality of `UpdateChildrenEncryptIDs` -/

theorem walkProbes_succ (bound : Nat) (pc : List GoString) (h : pc.length > 0) :
    walkProbes (bound + 1) pc =
      ([delim] ++ Join (pc.take (pc.length - 1)) [delim] ++ [delim]) ::
        walkProbes bound (pc.take (pc.length - 1)) := by
  rw [walkProbes, if_pos h]

theorem walkProbes_length (n : Nat) (pc : List GoString) (hn : pc.length = n) :
    (walkProbes n pc).length = n := by
  induction n generalizing pc with
  | zero => rfl
  | succ n ih =>
    rw [walkProbes_succ n pc (by omega), List.length_cons, ih]
    rw [List.length_take]
    omega

theorem walkProbes_getLast (n : Nat) (pc : List GoString) (hn : pc.length = n) (hpos : 0 < n) :
    (walkProbes n pc).getLast? = some rootKey := by
  induction n generalizing pc with
  | zero => omega
  | succ n ih =>
    rw [walkProbes_succ n pc (by omega)]
    have hlen : (pc.take (pc.length - 1)).length = n := by
      rw [List.length_take]
      omega
    rcases Nat.eq_zero_or_pos n with h0 | h0
    · subst h0
      have : pc.take (pc.length - 1) = [] := List.eq_nil_of_length_eq_zero hlen
      rw [this]
      rfl
    · exact getLast?_cons_of_some _ _ _ (ih _ hlen h0)

/-- A larger iteration bound changes nothing: the loop stops because the container is empty. -/
theorem walkProbes_slack (n extra : Nat) (pc : List GoString) (hn : pc.length = n) :
    walkProbes (n + extra) pc = walkProbes n pc := by
  induction n generalizing pc with
  | zero =>
    have hpc : pc = [] := List.eq_nil_of_length_eq_zero hn
    subst hpc
    cases extra with
    | zero => rfl
    | succ e =>
      rw [Nat.zero_add]
      rfl
  | succ n ih =>
    have hlen : (pc.take (pc.length - 1)).length = n := by
      rw [List.length_take]
      omega
    rw [Nat.add_right_comm, walkProbes_succ _ pc (by omega), walkProbes_succ n pc (by omega),
      ih _ hlen]

/-- The concept walk performs the loop body once for every probed key, in order. -/
theorem walkConcepts_eq_foldl (id : Nat) (bound : Nat) (pc : List GoString)
    (tbl : GoMap ShrineOntology) :
    walkConcepts id bound pc tbl = (walkProbes bound pc).foldl (probeConcept id) tbl := by
  induction bound generalizing pc tbl with
  | zero => rfl
  | succ n ih =>
    rw [walkConcepts, walkProbes]
    by_cases hpos : pc.length > 0
    · rw [if_pos hpos, if_pos hpos]
      simp only [List.foldl_cons]
      rcases hg : mapGet tbl ([delim] ++ Join (pc.take (pc.length - 1)) [delim] ++ [delim])
        with _ | val
      · simp only [probeConcept, hg]
        exact ih _ _
      · simp only [probeConcept, hg]
        exact ih _ _
    · rw [if_neg hpos, if_neg hpos]
      rfl

/-- The modifier walk performs the loop body once for every probed key, in order. -/
theorem walkModifiers_eq_probe (soArr : List ShrineOntology) (bound : Nat)
    (pc : List GoString) (tbl : GoMap (List ShrineOntology)) :
    walkModifiers soArr bound pc tbl = probeModifiers soArr (walkProbes bound pc) tbl := by
  induction bound generalizing pc tbl with
  | zero => rfl
  | succ n ih =>
    rw [walkModifiers, walkProbes]
    by_cases hpos : pc.length > 0
    · rw [if_pos hpos, if_pos hpos]
      simp only
      rw [probeModifiers]
      rcases hg : mapGet tbl ([delim] ++ Join (pc.take (pc.length - 1)) [delim] ++ [delim])
        with _ | b
      · simp only
        exact ih _ _
      · cases b with
        | nil =>
          simp only
          exact ih _ _
        | cons el val =>
          cases soArr with
          | nil => rfl
          | cons so0 r =>
            simp only
            exact ih _ _
    · rw [if_neg hpos, if_neg hpos]
      rfl

theorem goSlice_strip_none (s : GoString) (h : s.length < 2) :
    goSlice s 1 ((s.length : Int) - 1) = none := by
  rw [goSlice, if_neg]
  intro hc
  omega

/-! ## What `ConvertShrineOntology` writes -/

theorem shrineHeaderLine_isSome (headers : List GoString) (hne : headers ≠ []) :
    ∃ line, shrineHeaderLine headers = some line := by
  have hline : goSlice (headerLoop [] headers) 0 (((headerLoop [] headers).length : Int) - 1)
      = some (Join (headers.map quoted) [',']) := by
    rw [headerLoop_eq [] headers hne, List.nil_append, goSlice_front]
  exact ⟨Join (headers.map quoted) [','] ++ ['\n'], by simp only [shrineHeaderLine, hline]⟩

theorem UpdateChildrenEncryptIDs_some (orderEnc orderModifierEnc : List GoString)
    (st st1 : Index) (h : UpdateChildrenEncryptIDs orderEnc orderModifierEnc st = some st1) :
    ∃ enc m, linkConcepts orderEnc st.TableShrineOntologyEnc = some enc ∧
      linkModifiers orderModifierEnc st.TableShrineOntologyModifierEnc = some m ∧
      st1 = { st with TableShrineOntologyEnc := enc, TableShrineOntologyModifierEnc := m } := by
  rw [UpdateChildrenEncryptIDs] at h
  rcases hc : linkConcepts orderEnc st.TableShrineOntologyEnc with _ | enc
  · rw [hc] at h
    cases h
  · rw [hc] at h
    simp only at h
    rcases hm : linkModifiers orderModifierEnc st.TableShrineOntologyModifierEnc with _ | m
    · rw [hm] at h
      cases h
    · rw [hm] at h
      cases h
      exact ⟨enc, m, rfl, rfl, rfl⟩

/-- `UpdateChildrenEncryptIDs` does not read the public table. -/
theorem UpdateChildrenEncryptIDs_clear (orderEnc orderModifierEnc : List GoString)
    (st : Index) (clear : GoMap ShrineOntology) :
    UpdateChildrenEncryptIDs orderEnc orderModifierEnc
        { st with TableShrineOntologyClear := clear } =
      (UpdateChildrenEncryptIDs orderEnc orderModifierEnc st).map
        (fun s => { s with TableShrineOntologyClear := clear }) := by
  rw [UpdateChildrenEncryptIDs, UpdateChildrenEncryptIDs]
  simp only
  rcases linkConcepts orderEnc st.TableShrineOntologyEnc with _ | enc
  · rfl
  · simp only
    rcases linkModifiers orderModifierEnc st.TableShrineOntologyModifierEnc with _ | m
    · rfl
    · rfl

theorem walkModifiers_keys (soArr : List ShrineOntology) (n : Nat) (pc : List GoString)
    (tbl tbl' : GoMap (List ShrineOntology)) (h : walkModifiers soArr n pc tbl = some tbl') :
    mapKeys tbl' = mapKeys tbl := by
  induction n generalizing pc tbl with
  | zero =>
    cases h
    rfl
  | succ n ih =>
    rw [walkModifiers] at h
    by_cases hpos : pc.length > 0
    · rw [if_pos hpos] at h
      simp only at h
      rcases hg : mapGet tbl ([delim] ++ Join (pc.take (pc.length - 1)) [delim] ++ [delim])
        with _ | b
      · rw [hg] at h
        exact ih _ _ h
      · rw [hg] at h
        cases b with
        | nil => exact ih _ _ h
        | cons el val =>
          cases soArr with
          | nil => cases h
          | cons so0 r =>
            simp only at h
            rw [ih _ _ h, mapKeys_mapSet, if_pos ((mem_mapKeys_iff _ _).2 ⟨_, hg⟩)]
    · rw [if_neg hpos] at h
      cases h
      rfl

theorem linkModifiers_keys (order : List GoString) (tbl tbl' : GoMap (List ShrineOntology))
    (h : linkModifiers order tbl = some tbl') : mapKeys tbl' = mapKeys tbl := by
  induction order generalizing tbl with
  | nil =>
    cases h
    rfl
  | cons q order ih =>
    rw [linkModifiers] at h
    rcases hq : mapGet tbl q with _ | soArr
    · rw [hq] at h
      exact ih tbl h
    · rw [hq] at h
      simp only at h
      rcases hsl : goSlice q 1 ((q.length : Int) - 1) with _ | path
      · rw [hsl] at h
        cases h
      · rw [hsl] at h
        simp only at h
        rcases hw : walkModifiers soArr (Split path delim).length (Split path delim) tbl
          with _ | tbl1
        · rw [hw] at h
          cases h
        · rw [hw] at h
          simp only at h
          rw [ih tbl1 h, walkModifiers_keys soArr _ _ tbl tbl1 hw]

theorem emitConcepts_length (ToCSVText : ShrineOntology → GoString) (order : List GoString)
    (tbl : GoMap ShrineOntology) (h : ∀ k ∈ order, k ∈ mapKeys tbl) :
    (emitConcepts ToCSVText order tbl).length = order.length := by
  induction order with
  | nil => rfl
  | cons k order ih =>
    obtain ⟨v, hv⟩ := (mem_mapKeys_iff _ _).1 (h k (List.mem_cons_self _ _))
    have := ih (fun k' hk' => h k' (List.mem_cons_of_mem _ hk'))
    rw [emitConcepts] at this ⊢
    rw [List.filterMap_cons, hv]
    simp only [Option.map_some', List.length_cons, this]

theorem emitModifiers_length (ToCSVText : ShrineOntology → GoString) (order : List GoString)
    (tbl : GoMap (List ShrineOntology)) :
    (emitModifiers ToCSVText order tbl).length =
      (order.map (fun k => (bucketOf tbl k).length)).sum := by
  induction order with
  | nil => rfl
  | cons k order ih =>
    rw [emitModifiers] at ih ⊢
    rw [List.flatMap_cons, List.length_append, ih, List.length_map, List.map_cons,
      List.sum_cons]

/-- In a map, adding up the bucket sizes key by key gives the total number of rows. -/
theorem sum_bucket_sizes (tbl : GoMap (List ShrineOntology)) (hnd : (mapKeys tbl).Nodup) :
    ((mapKeys tbl).map (fun k => (bucketOf tbl k).length)).sum =
      (tbl.map (fun e => e.2.length)).sum := by
  induction tbl with
  | nil => rfl
  | cons e tbl ih =>
    obtain ⟨k, b⟩ := e
    rw [mapKeys_cons, List.nodup_cons] at hnd
    rw [mapKeys_cons, List.map_cons, List.sum_cons, List.map_cons, List.sum_cons, ← ih hnd.2]
    have hhead : bucketOf ((k, b) :: tbl) k = b := by
      rw [bucketOf, mapGet_cons, if_pos rfl]
      rfl
    rw [hhead]
    congr 2
    apply List.map_congr_left
    intro k' hk'
    have hne : ¬ k = k' := fun h => hnd.1 (h ▸ hk')
    rw [bucketOf, bucketOf, mapGet_cons, if_neg hne]

/-- What is written once the header line exists and `UpdateChildrenEncryptIDs` has completed:
the header line, then the rows of the two sensitive tables. -/
theorem convert_of_update (ToCSVText : ShrineOntology → GoString)
    (orderEnc orderModifierEnc writeEnc writeModifierEnc : List GoString) (st st1 : Index)
    (line : GoString) (hh : shrineHeaderLine st.HeaderShrineOntology = some line)
    (hu : UpdateChildrenEncryptIDs orderEnc orderModifierEnc st = some st1) :
    (∃ st', ConvertShrineOntology ToCSVText orderEnc orderModifierEnc writeEnc writeModifierEnc
        st = some (st', line :: (emitConcepts ToCSVText writeEnc st1.TableShrineOntologyEnc ++
          emitModifiers ToCSVText writeModifierEnc st1.TableShrineOntologyModifierEnc))) ∧
      writtenByConvertShrineOntology ToCSVText orderEnc orderModifierEnc writeEnc
        writeModifierEnc st =
        line :: (emitConcepts ToCSVText writeEnc st1.TableShrineOntologyEnc ++
          emitModifiers ToCSVText writeModifierEnc st1.TableShrineOntologyModifierEnc) := by
  obtain ⟨clear, hclear⟩ := renameLoop_isSome st1.TableShrineOntologyClear
  constructor
  · refine ⟨{ st1 with TableShrineOntologyClear := clear }, ?_⟩
    rw [ConvertShrineOntology, hh, hu]
    simp only [hclear]
  · rw [writtenByConvertShrineOntology, hh, hu]
    simp only [hclear]

/-- C15, as stated, fails: the index parsed from one sensitive concept row with the one-byte
path `x` has a non-empty header and one entry in the concept table, yet `ConvertShrineOntology`
does not complete and has written one string only (the header line), not 1 + 1 + 0 = 2: the
slice expression in `UpdateChildrenEncryptIDs` panics after the header has been written. -/
theorem convert_aborts_after_header_counterexample :
    ParseShrineOntology asciiToLower ["x".toList] ["c_fullname".toList]
        [mkRow "x" "concept_cd"] = some shortPathIndex ∧
    shortPathIndex.HeaderShrineOntology ≠ [] ∧
    ConvertShrineOntology pathText (mapKeys shortPathIndex.TableShrineOntologyEnc)
        (mapKeys shortPathIndex.TableShrineOntologyModifierEnc)
        (mapKeys shortPathIndex.TableShrineOntologyEnc)
        (mapKeys shortPathIndex.TableShrineOntologyModifierEnc) shortPathIndex = none ∧
    (writtenByConvertShrineOntology pathText (mapKeys shortPathIndex.TableShrineOntologyEnc)
        (mapKeys shortPathIndex.TableShrineOntologyModifierEnc)
        (mapKeys shortPathIndex.TableShrineOntologyEnc)
        (mapKeys shortPathIndex.TableShrineOntologyModifierEnc) shortPathIndex).length = 1 ∧
    1 + shortPathIndex.TableShrineOntologyEnc.length +
      (shortPathIndex.TableShrineOntologyModifierEnc.map (fun e => e.2.length)).sum = 2 := by
  decide

/-- C15, amended: on a freshly parsed index with a non-empty header whose sensitive concept and
modifier paths all have length at least 2, `ConvertShrineOntology` runs to completion and writes
exactly 1 (the header line) plus the number of entries of the concept table plus the sum of the
bucket sizes of the modifier table strings, each table being visited once in some order when
writing; what it writes is the same whatever the public table holds, so no public node is
written.  `UpdateChildrenEncryptIDs` leaves the keys of both sensitive tables as they were. -/
theorem convert_writes_sensitive_rows_only (ToCSVText : ShrineOntology → GoString)
    (toLower : GoString → GoString) (ListSensitiveConcepts header : List GoString)
    (rows : List ShrineOntology) (st : Index)
    (orderEnc orderModifierEnc writeEnc writeModifierEnc : List GoString)
    (hparse : ParseShrineOntology toLower ListSensitiveConcepts header rows = some st)
    (hheader : st.HeaderShrineOntology ≠ [])
    (hc : ∀ k ∈ mapKeys st.TableShrineOntologyEnc, 2 ≤ k.length)
    (hm : ∀ k ∈ mapKeys st.TableShrineOntologyModifierEnc, 2 ≤ k.length)
    (hwe : writeEnc.Perm (mapKeys st.TableShrineOntologyEnc))
    (hwm : writeModifierEnc.Perm (mapKeys st.TableShrineOntologyModifierEnc)) :
    ∃ st' lines, ConvertShrineOntology ToCSVText orderEnc orderModifierEnc writeEnc
        writeModifierEnc st = some (st', lines) ∧
      writtenByConvertShrineOntology ToCSVText orderEnc orderModifierEnc writeEnc
        writeModifierEnc st = lines ∧
      mapKeys st'.TableShrineOntologyEnc = mapKeys st.TableShrineOntologyEnc ∧
      mapKeys st'.TableShrineOntologyModifierEnc = mapKeys st.TableShrineOntologyModifierEnc ∧
      lines.length = 1 + st.TableShrineOntologyEnc.length +
        (st.TableShrineOntologyModifierEnc.map (fun e => e.2.length)).sum ∧
      ∀ clear, writtenByConvertShrineOntology ToCSVText orderEnc orderModifierEnc writeEnc
        writeModifierEnc { st with TableShrineOntologyClear := clear } = lines := by
  obtain ⟨line, hline⟩ := shrineHeaderLine_isSome st.HeaderShrineOntology hheader
  obtain ⟨st1, hu⟩ := UpdateChildrenEncryptIDs_isSome toLower ListSensitiveConcepts header rows
    st orderEnc orderModifierEnc hparse hc hm
  obtain ⟨enc, m, henc, hmod, hst1⟩ :=
    UpdateChildrenEncryptIDs_some orderEnc orderModifierEnc st st1 hu
  obtain ⟨hnd, hfresh, _⟩ :=
    parse_modifierFresh toLower ListSensitiveConcepts header rows st hparse
  have hkeysE : mapKeys enc = mapKeys st.TableShrineOntologyEnc :=
    linkConcepts_keys orderEnc _ enc henc
  have hkeysM : mapKeys m = mapKeys st.TableShrineOntologyModifierEnc :=
    linkModifiers_keys orderModifierEnc _ m hmod
  have hgetM := linkModifiers_get orderModifierEnc _ m (fun k b hk => (hfresh k b hk).1) hmod
  obtain ⟨⟨st', hconv⟩, hwritten⟩ := convert_of_update ToCSVText orderEnc orderModifierEnc
    writeEnc writeModifierEnc st st1 line hline hu
  have hE : st1.TableShrineOntologyEnc = enc := by rw [hst1]
  have hM : st1.TableShrineOntologyModifierEnc = m := by rw [hst1]
  rw [hE, hM] at hconv hwritten
  have hst' : st'.TableShrineOntologyEnc = enc ∧ st'.TableShrineOntologyModifierEnc = m := by
    rw [ConvertShrineOntology, hline, hu] at hconv
    simp only at hconv
    rcases hr : renameLoop st1.TableShrineOntologyClear with _ | clear
    · simp only [hr] at hconv
      cases hconv
    · simp only [hr, Option.some.injEq, Prod.mk.injEq] at hconv
      rw [← hconv.1]
      exact ⟨hE, hM⟩
  refine ⟨st', _, hconv, hwritten, by rw [hst'.1, hkeysE], by rw [hst'.2, hkeysM], ?_, ?_⟩
  · have h1 : (emitConcepts ToCSVText writeEnc enc).length =
        st.TableShrineOntologyEnc.length := by
      rw [emitConcepts_length ToCSVText writeEnc enc
        (fun k hk => hkeysE ▸ hwe.mem_iff.1 hk), hwe.length_eq, mapKeys, List.length_map]
    have h2 : (emitModifiers ToCSVText writeModifierEnc m).length =
        (st.TableShrineOntologyModifierEnc.map (fun e => e.2.length)).sum := by
      rw [emitModifiers_length, (hwm.map _).sum_eq, ← sum_bucket_sizes _ hnd]
      congr 1
      apply List.map_congr_left
      intro k _
      rw [bucketOf, bucketOf, hgetM k]
      cases mapGet st.TableShrineOntologyModifierEnc k with
      | none => rfl
      | some b => simp [bucketAdd]
    rw [List.length_cons, List.length_append, h1, h2]
    omega
  · intro clear
    have hu2 := UpdateChildrenEncryptIDs_clear orderEnc orderModifierEnc st clear
    rw [hu, Option.map_some'] at hu2
    have h2 := (convert_of_update ToCSVText orderEnc orderModifierEnc writeEnc
      writeModifierEnc { st with TableShrineOntologyClear := clear } _ line hline hu2).2
    rw [h2]
    simp only [hE, hM]

/-- Witness for the amended C15: on the sample index, under a header of two columns, five
strings are written: the header line, two concepts and the two rows of the modifier bucket. -/
theorem convert_writes_sensitive_rows_only_witness :
    ∃ st' lines, ConvertShrineOntology pathText
        (mapKeys sampleIndex.TableShrineOntologyEnc)
        (mapKeys sampleIndex.TableShrineOntologyModifierEnc)
        (mapKeys sampleIndex.TableShrineOntologyEnc).reverse
        (mapKeys sampleIndex.TableShrineOntologyModifierEnc)
        { sampleIndex with HeaderShrineOntology := ["c_hlevel".toList, "c_fullname".toList] }
          = some (st', lines) ∧
      lines.length = 5 :=
  let ⟨st', lines, h, _, _, _, hl, _⟩ := convert_writes_sensitive_rows_only pathText
    asciiToLower sampleSensitive ["c_hlevel".toList, "c_fullname".toList] sampleRows
    { sampleIndex with HeaderShrineOntology := ["c_hlevel".toList, "c_fullname".toList] }
    (mapKeys sampleIndex.TableShrineOntologyEnc)
    (mapKeys sampleIndex.TableShrineOntologyModifierEnc)
    (mapKeys sampleIndex.TableShrineOntologyEnc).reverse
    (mapKeys sampleIndex.TableShrineOntologyModifierEnc)
    (by decide) (by decide) (by decide) (by decide) (List.reverse_perm _) (List.Perm.refl _)
  ⟨st', lines, h, hl.trans (by decide)⟩

/-! ## `UpdateChildrenEncryptIDs` under the length precondition -/

/-- One visit of the concept loop: the slice of the node's `Fullname`, then the loop body once
for every probed key. -/
theorem linkConcepts_visit (k : GoString) (order : List GoString) (tbl : GoMap ShrineOntology)
    (so : ShrineOntology) (path : GoString) (hg : mapGet tbl k = some so)
    (hp : goSlice so.Fullname 1 ((so.Fullname.length : Int) - 1) = some path) :
    linkConcepts (k :: order) tbl =
      linkConcepts order
        ((walkProbes (Split path delim).length (Split path delim)).foldl
          (probeConcept so.NodeEncryptID) tbl) := by
  rw [linkConcepts]
  simp only [hg, hp]
  rw [walkConcepts_eq_foldl]

/-- One visit of the modifier loop: the slice of the key, then the loop body once for every
probed key. -/
theorem linkModifiers_visit (k : GoString) (order : List GoString)
    (tbl : GoMap (List ShrineOntology)) (soArr : List ShrineOntology) (path : GoString)
    (hg : mapGet tbl k = some soArr) (hp : goSlice k 1 ((k.length : Int) - 1) = some path) :
    linkModifiers (k :: order) tbl =
      (probeModifiers soArr (walkProbes (Split path delim).length (Split path delim)) tbl).bind
        (linkModifiers order) := by
  rw [linkModifiers]
  simp only [hg, hp]
  rw [walkModifiers_eq_probe]
  cases probeModifiers soArr (walkProbes (Split path delim).length (Split path delim)) tbl <;>
    rfl

/-- `UpdateChildrenEncryptIDs` is the concept loop followed by the modifier loop. -/
theorem UpdateChildrenEncryptIDs_eq (orderEnc orderModifierEnc : List GoString) (st : Index) :
    UpdateChildrenEncryptIDs orderEnc orderModifierEnc st =
      (linkConcepts orderEnc st.TableShrineOntologyEnc).bind (fun enc =>
        (linkModifiers orderModifierEnc st.TableShrineOntologyModifierEnc).map (fun m =>
          { st with TableShrineOntologyEnc := enc, TableShrineOntologyModifierEnc := m })) := by
  rw [UpdateChildrenEncryptIDs]
  cases linkConcepts orderEnc st.TableShrineOntologyEnc with
  | none => rfl
  | some enc =>
    cases linkModifiers orderModifierEnc st.TableShrineOntologyModifierEnc <;> rfl

/-- `UpdateChildrenEncryptIDs` runs to completion on an index in which every concept node is
filed under its own path, no modifier bucket is empty and the keys of both tables have length
at least 2; the result is again such an index, with the same keys. -/
theorem UpdateChildrenEncryptIDs_total (orderEnc orderModifierEnc : List GoString) (st : Index)
    (hfiled : ∀ k v, mapGet st.TableShrineOntologyEnc k = some v → v.Fullname = k)
    (hbuckets : BucketsNonempty st)
    (hc : ∀ k ∈ mapKeys st.TableShrineOntologyEnc, 2 ≤ k.length)
    (hm : ∀ k ∈ mapKeys st.TableShrineOntologyModifierEnc, 2 ≤ k.length) :
    ∃ st', UpdateChildrenEncryptIDs orderEnc orderModifierEnc st = some st' ∧
      (∀ k v, mapGet st'.TableShrineOntologyEnc k = some v → v.Fullname = k) ∧
      BucketsNonempty st' ∧
      mapKeys st'.TableShrineOntologyEnc = mapKeys st.TableShrineOntologyEnc ∧
      mapKeys st'.TableShrineOntologyModifierEnc =
        mapKeys st.TableShrineOntologyModifierEnc := by
  obtain ⟨enc, henc⟩ := linkConcepts_isSome orderEnc st.TableShrineOntologyEnc (by
    intro k v hv
    rw [hfiled k v hv]
    exact hc k ((mem_mapKeys_iff _ _).2 ⟨v, hv⟩))
  obtain ⟨m, hmod⟩ := linkModifiers_isSome orderModifierEnc st.TableShrineOntologyModifierEnc
    (fun k b hkb => ⟨hbuckets k b hkb, hm k ((mem_mapKeys_iff _ _).2 ⟨b, hkb⟩)⟩)
  refine ⟨{ st with TableShrineOntologyEnc := enc, TableShrineOntologyModifierEnc := m },
    by rw [UpdateChildrenEncryptIDs, henc, hmod], ?_, ?_,
    linkConcepts_keys _ _ _ henc, linkModifiers_keys _ _ _ hmod⟩
  · intro k v hv
    have hget := linkConcepts_get orderEnc st.TableShrineOntologyEnc enc henc k
    change mapGet enc k = some v at hv
    rw [hget] at hv
    rcases hq : mapGet st.TableShrineOntologyEnc k with _ | v0
    · rw [hq] at hv
      cases hv
    · rw [hq] at hv
      cases hv
      exact hfiled k v0 hq
  · intro k b hb
    have hget := linkModifiers_get orderModifierEnc st.TableShrineOntologyModifierEnc m
      hbuckets hmod k
    change mapGet m k = some b at hb
    rw [hget] at hb
    rcases hq : mapGet st.TableShrineOntologyModifierEnc k with _ | b0
    · rw [hq] at hb
      cases hb
    · rw [hq] at hb
      cases hb
      intro hnil
      exact hbuckets k b0 hq (List.map_eq_nil_iff.1 hnil)

/-- The upward walk of a path of length at least 2: the slice expression yields the stripped
path, the walk probes one key for each delimiter-separated segment of it, at least one, the
last of them `\\`, and ends because the container is empty. -/
theorem walkProbes_of_key (k : GoString) (hlen : 2 ≤ k.length) :
    ∃ path, goSlice k 1 ((k.length : Int) - 1) = some path ∧
      1 ≤ (Split path delim).length ∧
      (walkProbes (Split path delim).length (Split path delim)).length =
        (Split path delim).length ∧
      (walkProbes (Split path delim).length (Split path delim)).getLast? = some rootKey ∧
      ∀ extra, walkProbes ((Split path delim).length + extra) (Split path delim) =
        walkProbes (Split path delim).length (Split path delim) := by
  obtain ⟨path, hp⟩ := goSlice_strip_isSome k hlen
  have hpos : 0 < (Split path delim).length := List.length_pos.2 (Split_ne_nil path delim)
  exact ⟨path, hp, hpos, walkProbes_length _ _ rfl, walkProbes_getLast _ _ rfl hpos,
    fun extra => walkProbes_slack _ extra _ rfl⟩

/-- C16, as stated, fails: the length precondition alone does not keep
`UpdateChildrenEncryptIDs` from panicking.  In `misfiledIndex` the only key, `\A\`, has length
3, but the node filed under it has the `Fullname` `x`, and the concept loop slices the
`Fullname` of the node (`so.Fullname[1:len(so.Fullname)-1]` is `x[1:0]`), not the key.  In
`emptyBucketIndex` both keys have length at least 2, but the walk of the empty bucket filed
under `\M\N\` finds the bucket of `\M\` and evaluates `soArr[0]` on the empty bucket, in
either order of the two keys. -/
theorem update_children_length_precondition_counterexample :
    ((∀ k ∈ mapKeys misfiledIndex.TableShrineOntologyEnc, 2 ≤ k.length) ∧
      (∀ k ∈ mapKeys misfiledIndex.TableShrineOntologyModifierEnc, 2 ≤ k.length) ∧
      UpdateChildrenEncryptIDs (mapKeys misfiledIndex.TableShrineOntologyEnc)
        (mapKeys misfiledIndex.TableShrineOntologyModifierEnc) misfiledIndex = none) ∧
    ((∀ k ∈ mapKeys emptyBucketIndex.TableShrineOntologyEnc, 2 ≤ k.length) ∧
      (∀ k ∈ mapKeys emptyBucketIndex.TableShrineOntologyModifierEnc, 2 ≤ k.length) ∧
      UpdateChildrenEncryptIDs [] ["\\M\\".toList, "\\M\\N\\".toList] emptyBucketIndex =
        none ∧
      UpdateChildrenEncryptIDs [] ["\\M\\N\\".toList, "\\M\\".toList] emptyBucketIndex =
        none) := by
  decide

/-- C16, amended: on an index in which every node of the concept table is filed under its own
`Fullname`, no bucket of the modifier table is empty, and every key of the two tables has
length at least 2, `UpdateChildrenEncryptIDs` runs to completion in whatever order it visits
the tables, and its result is again such an index with the same keys (so a further run
completes as well).  The run is the concept loop followed by the modifier loop.  For every key
of either table the slice expression yields the stripped path; the visit of that key in the
loop performs the loop body once for every probed key; the number of probed keys is the number
of delimiter-separated segments of the stripped path, which is at least one; the last probed
key is the two-delimiter key `\\`; and the walk ends because the container is empty (a larger
bound changes nothing).  On a path of length 0 or 1 the slice expression is out of range.
Every index produced by `ParseShrineOntology` files its concept nodes under their own
`Fullname` and has no empty bucket. -/
theorem update_children_total (st : Index) (orderEnc orderModifierEnc : List GoString)
    (hfiled : ∀ k v, mapGet st.TableShrineOntologyEnc k = some v → v.Fullname = k)
    (hbuckets : BucketsNonempty st)
    (hc : ∀ k ∈ mapKeys st.TableShrineOntologyEnc, 2 ≤ k.length)
    (hm : ∀ k ∈ mapKeys st.TableShrineOntologyModifierEnc, 2 ≤ k.length) :
    (∃ st', UpdateChildrenEncryptIDs orderEnc orderModifierEnc st = some st' ∧
      (∀ k v, mapGet st'.TableShrineOntologyEnc k = some v → v.Fullname = k) ∧
      BucketsNonempty st' ∧
      mapKeys st'.TableShrineOntologyEnc = mapKeys st.TableShrineOntologyEnc ∧
      mapKeys st'.TableShrineOntologyModifierEnc =
        mapKeys st.TableShrineOntologyModifierEnc) ∧
    UpdateChildrenEncryptIDs orderEnc orderModifierEnc st =
      (linkConcepts orderEnc st.TableShrineOntologyEnc).bind (fun enc =>
        (linkModifiers orderModifierEnc st.TableShrineOntologyModifierEnc).map (fun m =>
          { st with TableShrineOntologyEnc := enc, TableShrineOntologyModifierEnc := m })) ∧
    (∀ k ∈ mapKeys st.TableShrineOntologyEnc,
      ∃ path, goSlice k 1 ((k.length : Int) - 1) = some path ∧
        1 ≤ (Split path delim).length ∧
        (walkProbes (Split path delim).length (Split path delim)).length =
          (Split path delim).length ∧
        (walkProbes (Split path delim).length (Split path delim)).getLast? = some rootKey ∧
        (∀ extra, walkProbes ((Split path delim).length + extra) (Split path delim) =
          walkProbes (Split path delim).length (Split path delim)) ∧
        ∀ (order : List GoString) (tbl : GoMap ShrineOntology) (so : ShrineOntology),
          mapGet tbl k = some so → so.Fullname = k →
          linkConcepts (k :: order) tbl =
            linkConcepts order
              ((walkProbes (Split path delim).length (Split path delim)).foldl
                (probeConcept so.NodeEncryptID) tbl)) ∧
    (∀ k ∈ mapKeys st.TableShrineOntologyModifierEnc,
      ∃ path, goSlice k 1 ((k.length : Int) - 1) = some path ∧
        1 ≤ (Split path delim).length ∧
        (walkProbes (Split path delim).length (Split path delim)).length =
          (Split path delim).length ∧
        (walkProbes (Split path delim).length (Split path delim)).getLast? = some rootKey ∧
        (∀ extra, walkProbes ((Split path delim).length + extra) (Split path delim) =
          walkProbes (Split path delim).length (Split path delim)) ∧
        ∀ (order : List GoString) (tbl : GoMap (List ShrineOntology))
          (soArr : List ShrineOntology), mapGet tbl k = some soArr →
          linkModifiers (k :: order) tbl =
            (probeModifiers soArr
              (walkProbes (Split path delim).length (Split path delim)) tbl).bind
              (linkModifiers order)) ∧
    (∀ s : GoString, s.length < 2 → goSlice s 1 ((s.length : Int) - 1) = none) ∧
    (∀ (toLower : GoString → GoString) (ListSensitiveConcepts header : List GoString)
      (rows : List ShrineOntology) (parsed : Index),
      ParseShrineOntology toLower ListSensitiveConcepts header rows = some parsed →
      (∀ k v, mapGet parsed.TableShrineOntologyEnc k = some v → v.Fullname = k) ∧
        BucketsNonempty parsed) := by
  refine ⟨UpdateChildrenEncryptIDs_total orderEnc orderModifierEnc st hfiled hbuckets hc hm,
    UpdateChildrenEncryptIDs_eq orderEnc orderModifierEnc st, ?_, ?_, goSlice_strip_none, ?_⟩
  · intro k hk
    obtain ⟨path, hp, h1, h2, h3, h4⟩ := walkProbes_of_key k (hc k hk)
    refine ⟨path, hp, h1, h2, h3, h4, ?_⟩
    intro order tbl so hg hfull
    exact linkConcepts_visit k order tbl so path hg (by rw [hfull]; exact hp)
  · intro k hk
    obtain ⟨path, hp, h1, h2, h3, h4⟩ := walkProbes_of_key k (hm k hk)
    refine ⟨path, hp, h1, h2, h3, h4, ?_⟩
    intro order tbl soArr hg
    exact linkModifiers_visit k order tbl soArr path hg hp
  · intro toLower sens header rows parsed hparse
    exact ⟨fun k v hv => ((parse_encFresh toLower sens header rows parsed hparse).1 k v hv).1,
      parseRows_bucketsNonempty toLower sens rows (initIndex header) parsed hparse
        (bucketsNonempty_init header)⟩

/-- Witness for C16: the sample index is a parsed index whose keys have length at least 2, so
the run on it completes; the walk of `\A\B\` probes `\A\` and then `\\`. -/
theorem update_children_total_witness :
    (∀ k ∈ mapKeys sampleIndex.TableShrineOntologyEnc, 2 ≤ k.length) ∧
    (∀ k ∈ mapKeys sampleIndex.TableShrineOntologyModifierEnc, 2 ≤ k.length) ∧
    (∃ st', UpdateChildrenEncryptIDs (mapKeys sampleIndex.TableShrineOntologyEnc)
      (mapKeys sampleIndex.TableShrineOntologyModifierEnc) sampleIndex = some st') ∧
    walkProbes 2 (Split "A\\B".toList delim) = ["\\A\\".toList, rootKey] :=
  ⟨by decide, by decide,
    (update_children_total sampleIndex (mapKeys sampleIndex.TableShrineOntologyEnc)
      (mapKeys sampleIndex.TableShrineOntologyModifierEnc)
      (fun k v hv => ((parse_encFresh asciiToLower sampleSensitive [] sampleRows sampleIndex
        sample_parse).1 k v hv).1)
      (parseRows_bucketsNonempty asciiToLower sampleSensitive sampleRows (initIndex [])
        sampleIndex sample_parse (bucketsNonempty_init []))
      (by decide) (by decide)).1.imp (fun _ h => h.1),
    by decide⟩

end Loader
